import Mathlib

/-! templ: the template-file parser (`parser/v2/templatefile.go`)

A shallow embedding of `templatefile.go` and proofs about it.

Conventions of the embedding
* A Go `string` is a `List Char` (`Str`); indexes count characters.
* The cursor `*parse.Input` is a value `Input` (immutable text, current index); every call
  that moves the cursor returns the index it leaves the cursor at.
* A Go parser `Parse(pi) (T, bool, error)` is a function `Input → Out T`: the three results
  and the index the cursor is left at.
* The collaborators that are not defined in `templatefile.go` (whitespace and comment lexers,
  the package parser and the three declaration parsers) are parameters, collected in `Env`.
* Loops whose termination depends on the collaborators take a `fuel` argument and return
  `none` when it runs out; `none` stands for "has not returned".
-/

namespace Templ

/-- A Go string, as its sequence of characters. -/
abbrev Str := List Char

/-! ## Standard library: `strings`, `unicode`, `path/filepath` -/

/-- The Go function `strings.HasPrefix`. -/
def HasPrefix (s pre : Str) : Bool := pre.isPrefixOf s

/-- The Go function `strings.HasSuffix`. -/
def HasSuffix (s suf : Str) : Bool := suf.isSuffixOf s

/-- The Go function `unicode.IsSpace`: the characters with the White_Space property. -/
def IsSpace (r : Char) : Bool :=
  let n := r.toNat
  (0x09 ≤ n && n ≤ 0x0d) || n == 0x20 || n == 0x85 || n == 0xa0 || n == 0x1680 ||
  (0x2000 ≤ n && n ≤ 0x200a) || n == 0x2028 || n == 0x2029 || n == 0x202f ||
  n == 0x205f || n == 0x3000

/-- The Go function `strings.TrimSpace`: drop leading and trailing white space. -/
def TrimSpace (s : Str) : Str :=
  ((s.dropWhile IsSpace).reverse.dropWhile IsSpace).reverse

/-- The parts of the standard library whose tables are not part of the program: the Unicode
letter and digit tables beyond ASCII, and the two `path/filepath` functions. -/
structure Stdlib where
  /-- Table behind `unicode.IsLetter` for characters beyond ASCII. -/
  letterTable : Char → Bool
  /-- Table behind `unicode.IsDigit` for characters beyond ASCII. -/
  digitTable : Char → Bool
  /-- The function `filepath.Base`. -/
  Base : Str → Str
  /-- The function `filepath.Dir`. -/
  Dir : Str → Str

/-- The Go function `unicode.IsLetter`: on ASCII exactly `A-Z` and `a-z`. -/
def Stdlib.IsLetter (lib : Stdlib) (r : Char) : Bool :=
  if r.toNat < 128 then r.isAlpha else lib.letterTable r

/-- The Go function `unicode.IsDigit`: on ASCII exactly `0-9`. -/
def Stdlib.IsDigit (lib : Stdlib) (r : Char) : Bool :=
  if r.toNat < 128 then r.isDigit else lib.digitTable r

/-! ## `isGoIdentifier` and `getDefaultPackageName` -/

/-- The body of the `for i, r := range s` loop of `isGoIdentifier`, from index `i` on. -/
def isGoIdentifierLoop (lib : Stdlib) : Nat → Str → Bool
  | _, [] => true
  | i, r :: rest =>
    if lib.IsLetter r || r == '_' then isGoIdentifierLoop lib (i + 1) rest
    else if decide (i > 0) && lib.IsDigit r then isGoIdentifierLoop lib (i + 1) rest
    else false

/-- The Go function `isGoIdentifier`. -/
def isGoIdentifier (lib : Stdlib) (s : Str) : Bool :=
  if s.length == 0 then false
  else isGoIdentifierLoop lib 0 s

/-- The Go function `getDefaultPackageName`. -/
def getDefaultPackageName (lib : Stdlib) (fileName : Str) : Str :=
  let parent := lib.Base (lib.Dir fileName)
  if !isGoIdentifier lib parent then "main".toList
  else parent

/-! ## The cursor `parse.Input` and the library parsers used by `Parse` -/

/-- The Go type `parse.Position`. -/
structure Position where
  Index : Nat
  Line : Nat
  Col : Nat
deriving DecidableEq, Repr

/-- The Go type `parse.Input`: the text and the index of the next unread character. -/
structure Input where
  s : Str
  charIndex : Nat
deriving DecidableEq, Repr

/-- The Go function `parse.NewInput`. -/
def NewInput (s : Str) : Input := ⟨s, 0⟩

/-- The unread text of the cursor. -/
def Input.rest (pi : Input) : Str := pi.s.drop pi.charIndex

/-- The Go method `Input.Index`. -/
def Input.Index (pi : Input) : Nat := pi.charIndex

/-- The Go method `Input.Seek`: an index past the end of the text is ignored. -/
def Input.Seek (pi : Input) (index : Nat) : Input :=
  if index > pi.s.length then pi else { pi with charIndex := index }

/-- The Go method `Input.PositionAt`: `Line` counts the line feeds before `index`, `Col` the
characters after the last of them. -/
def Input.PositionAt (pi : Input) (index : Nat) : Position :=
  let before := pi.s.take index
  { Index := index
    Line := before.count '\n'
    Col := (before.reverse.takeWhile (fun c => c != '\n')).length }

/-- The Go method `Input.Position`. -/
def Input.Position (pi : Input) : Position := pi.PositionAt pi.charIndex

/-- The Go type `error`, with the two values declared in `templatefile.go`. -/
inductive Error where
  | ErrLegacyFileFormat
  | ErrTemplateNotFound
  | other (msg : Str)
deriving DecidableEq, Repr

/-- What a call `Parse(pi)` of a Go parser yields: the three results and the index the cursor
is left at. -/
structure Out (α : Type) where
  val : α
  ok : Bool
  err : Option Error
  idx : Nat

/-- A Go `parse.Parser[T]`. -/
abbrev Parser (α : Type) := Input → Out α

/-- The library parser `parse.String(m)`: matches the literal `m`, consuming it. -/
def parse.String (m : Str) : Parser Str := fun pi =>
  if HasPrefix pi.rest m then ⟨m, true, none, pi.charIndex + m.length⟩
  else ⟨[], false, none, pi.charIndex⟩

/-- Number of characters before the first place where `parse.NewLine` (`\r\n` or `\n`) or
`parse.EOF` matches. -/
def lineLength : Str → Nat
  | [] => 0
  | c :: cs =>
    if HasPrefix (c :: cs) ['\r', '\n'] || HasPrefix (c :: cs) ['\n'] then 0
    else lineLength cs + 1

/-- The library parser `parse.StringUntil(parse.Or(parse.NewLine, parse.EOF))`: reads up to,
not including, the next line terminator or the end of input. It always matches. -/
def parse.StringUntilNewLineOrEOF : Parser Str := fun pi =>
  let n := lineLength pi.rest
  ⟨pi.rest.take n, true, none, pi.charIndex + n⟩

/-- The library parser `parse.NewLine`: `\r\n` or `\n`. -/
def parse.NewLine : Parser Str := fun pi =>
  if HasPrefix pi.rest ['\r', '\n'] then ⟨['\r', '\n'], true, none, pi.charIndex + 2⟩
  else if HasPrefix pi.rest ['\n'] then ⟨['\n'], true, none, pi.charIndex + 1⟩
  else ⟨[], false, none, pi.charIndex⟩

/-- The library parser `parse.EOF`: matches when nothing is left to read. -/
def parse.EOF : Parser Str := fun pi =>
  ⟨[], pi.rest.isEmpty, none, pi.charIndex⟩

/-! ## The document tree -/

/-- Source range of an expression. -/
structure Range where
  From : Position
  To : Position
deriving DecidableEq, Repr

/-- The Go type `Expression`: text and its range. -/
structure Expression where
  Value : Str
  Range : Range
deriving DecidableEq, Repr

/-- The Go function `NewExpression`. -/
def NewExpression (value : Str) (posFrom posTo : Position) : Expression :=
  { Value := value, Range := { From := posFrom, To := posTo } }

/-- The Go type `Whitespace`. -/
structure Whitespace where
  Value : Str
deriving DecidableEq, Repr

/-- The Go type `Package`. -/
structure Package where
  Expression : Expression
deriving DecidableEq, Repr

/-- An element of `TemplateFile.Header`: a `Whitespace` or a `GoComment` (payload `G`). -/
inductive HeaderItem (G : Type) where
  | whitespace (ws : Whitespace)
  | comment (c : G)
deriving DecidableEq, Repr

/-- An element of `TemplateFile.Nodes`: `HTMLTemplate` (payload `T`), `CSSTemplate` (`C`),
`ScriptTemplate` (`S`) or `GoExpression`. -/
inductive Node (T C S : Type) where
  | HTMLTemplate (tn : T)
  | CSSTemplate (cn : C)
  | ScriptTemplate (sn : S)
  | GoExpression (expr : Expression)
deriving DecidableEq, Repr

/-- The Go type `TemplateFile`. -/
structure TemplateFile (T C S G : Type) where
  Header : List (HeaderItem G)
  Package : Package
  Nodes : List (Node T C S)
deriving DecidableEq, Repr

/-- The zero value of `Position`. -/
def Position.zero : Position := ⟨0, 0, 0⟩

/-- The zero value of `Package`. -/
def Package.zero : Package := ⟨⟨[], ⟨Position.zero, Position.zero⟩⟩⟩

/-- The zero value `TemplateFile{}`. -/
def TemplateFile.zero {T C S G : Type} : TemplateFile T C S G :=
  { Header := [], Package := Package.zero, Nodes := [] }

/-- The results `(tf, ok, err)` of `TemplateFileParser.Parse`. -/
structure Ret (T C S G : Type) where
  tf : TemplateFile T C S G
  ok : Bool
  err : Option Error
deriving DecidableEq, Repr

/-- The collaborators of `Parse` that `templatefile.go` only refers to. -/
structure Env (T C S G : Type) where
  /-- The lexer `parse.Whitespace`. -/
  Whitespace : Parser Str
  /-- The lexer `parse.OptionalWhitespace`. -/
  OptionalWhitespace : Parser Str
  /-- The lexer `goComment`. -/
  goComment : Parser G
  /-- The parser `pkg`. -/
  pkg : Parser Package
  /-- The parser `template`. -/
  template : Parser T
  /-- The parser `cssParser`. -/
  cssParser : Parser C
  /-- The parser `scriptTemplateParser`. -/
  scriptTemplateParser : Parser S

/-- The Go type `TemplateFileParser`. -/
structure TemplateFileParser where
  DefaultPackage : Str

/-- The Go function `NewTemplateFileParser`. -/
def NewTemplateFileParser (pkg : Str) : TemplateFileParser := { DefaultPackage := pkg }

/-! ## `TemplateFileParser.Parse` -/

section ParseDef
variable {T C S G : Type}

/-- How a piece of `Parse` hands over: it either makes `Parse` return `r`, or goes on with the
document built so far and the cursor. -/
inductive Flow (T C S G : Type) where
  | ret (r : Ret T C S G)
  | next (tf : TemplateFile T C S G) (pi : Input)
deriving DecidableEq

/-- Lines 80-101 of `Parse`: the loop collecting leading whitespace and comments. -/
def headerLoop (env : Env T C S G) :
    Nat → TemplateFile T C S G → Input → Option (Flow T C S G)
  | 0, _, _ => none
  | fuel + 1, tf, pi =>
    let r := env.Whitespace pi
    let pi := pi.Seek r.idx
    match r.err with
    | some err => some (.ret ⟨tf, false, some err⟩)
    | none =>
      if r.ok then
        headerLoop env fuel { tf with Header := tf.Header ++ [.whitespace ⟨r.val⟩] } pi
      else
        let c := env.goComment pi
        let pi := pi.Seek c.idx
        match c.err with
        | some err => some (.ret ⟨tf, false, some err⟩)
        | none =>
          if c.ok then
            headerLoop env fuel { tf with Header := tf.Header ++ [.comment c.val] } pi
          else
            some (.next tf pi)

/-- The legacy marker looked for at line 72 of `Parse`. -/
def legacyMarker : Str := "\x7b% package".toList

/-- Lines 70-119 of `Parse`: legacy check, header, package section and the whitespace after
it. -/
def TemplateFileParser.ParseHead (p : TemplateFileParser) (env : Env T C S G) (fuel : Nat)
    (pi : Input) : Option (Flow T C S G) :=
  let tf : TemplateFile T C S G := TemplateFile.zero
  -- If we're parsing a legacy file, complain that migration needs to happen.
  let r := parse.String legacyMarker pi
  let pi := pi.Seek r.idx
  match r.err with
  | some err => some (.ret ⟨tf, r.ok, some err⟩)
  | none =>
    if r.ok then some (.ret ⟨tf, false, some Error.ErrLegacyFileFormat⟩)
    else
      -- Optional whitespace and comments.
      match headerLoop env fuel tf pi with
      | none => none
      | some (.ret r) => some (.ret r)
      | some (.next tf pi) =>
        -- Required package.
        let posFrom := pi.Position
        let r := env.pkg pi
        let pi := pi.Seek r.idx
        let tf := { tf with Package := r.val }
        match r.err with
        | some err => some (.ret ⟨tf, r.ok, some err⟩)
        | none =>
          let tf :=
            if !r.ok then
              { tf with Package :=
                  ⟨NewExpression ("package ".toList ++ p.DefaultPackage) posFrom pi.Position⟩ }
            else tf
          -- Optional whitespace.
          let pi := pi.Seek (env.OptionalWhitespace pi).idx
          some (.next tf pi)

/-- The test of lines 171-172: the line starts with a declaration keyword and a space, and
ends with an opening brace. -/
def isBoundaryLine (l : Str) : Bool :=
  let hasTemplatePrefix :=
    HasPrefix l "templ ".toList || HasPrefix l "css ".toList || HasPrefix l "script ".toList
  hasTemplatePrefix && HasSuffix l "\x7b".toList

/-- How the loop `inner` is left. -/
inductive InnerExit (T C S G : Type) where
  | ret (r : Ret T C S G)
  | breakInner (tf : TemplateFile T C S G) (pi : Input)
  | breakOuter (tf : TemplateFile T C S G) (pi : Input)
deriving DecidableEq

/-- Lines 164-199 of `Parse`: the loop `inner`, accumulating lines of Go code in `code`. -/
def innerLoop (posFrom : Position) :
    Nat → TemplateFile T C S G → Input → Str → Option (InnerExit T C S G)
  | 0, _, _, _ => none
  | fuel + 1, tf, pi, code =>
    -- Check to see if this line isn't Go code.
    let last := pi.Index
    let r := parse.StringUntilNewLineOrEOF pi
    let pi := pi.Seek r.idx
    let l := r.val
    match r.err with
    | some err => some (.ret ⟨tf, r.ok, some err⟩)
    | none =>
      if isBoundaryLine l then
        -- Unread the line.
        let pi := pi.Seek last
        -- Take the code so far.
        let tf :=
          if code.length > 0 then
            { tf with Nodes := tf.Nodes ++
                [.GoExpression (NewExpression (TrimSpace code) posFrom pi.Position)] }
          else tf
        some (.breakInner tf pi)
      else
        let code := code ++ l
        -- Eat the newline or EOF that we read until.
        let r := parse.NewLine pi
        let pi := pi.Seek r.idx
        match r.err with
        | some err => some (.ret ⟨tf, r.ok, some err⟩)
        | none =>
          let code := code ++ r.val
          if (parse.EOF pi).ok then
            let tf :=
              if code.length > 0 then
                { tf with Nodes := tf.Nodes ++
                    [.GoExpression (NewExpression (TrimSpace code) posFrom pi.Position)] }
              else tf
            -- Stop parsing.
            some (.breakOuter tf pi)
          else
            innerLoop posFrom fuel tf pi code

/-- Iterations that always suffice for the loop `inner`: every iteration but the last reads a
line terminator. -/
def innerFuel (pi : Input) : Nat := pi.rest.length + 1

/-- Lines 123-199 of `Parse`: one iteration of the loop `outer`. It ends in `continue`
(`Flow.next`) or in a `return`; `break outer` leads to the final `return tf, true, nil`. -/
def outerBody (env : Env T C S G) (tf : TemplateFile T C S G) (pi : Input) :
    Option (Flow T C S G) :=
  -- templ Name(p Parameter)
  let tn := env.template pi
  let pi := pi.Seek tn.idx
  match tn.err with
  | some err => some (.ret ⟨tf, false, some err⟩)
  | none =>
    if tn.ok then
      let tf := { tf with Nodes := tf.Nodes ++ [.HTMLTemplate tn.val] }
      let pi := pi.Seek (env.OptionalWhitespace pi).idx
      some (.next tf pi)
    else
      -- css Name()
      let cn := env.cssParser pi
      let pi := pi.Seek cn.idx
      match cn.err with
      | some err => some (.ret ⟨tf, false, some err⟩)
      | none =>
        if cn.ok then
          let tf := { tf with Nodes := tf.Nodes ++ [.CSSTemplate cn.val] }
          let pi := pi.Seek (env.OptionalWhitespace pi).idx
          some (.next tf pi)
        else
          -- script Name()
          let sn := env.scriptTemplateParser pi
          let pi := pi.Seek sn.idx
          match sn.err with
          | some err => some (.ret ⟨tf, false, some err⟩)
          | none =>
            if sn.ok then
              let tf := { tf with Nodes := tf.Nodes ++ [.ScriptTemplate sn.val] }
              let pi := pi.Seek (env.OptionalWhitespace pi).idx
              some (.next tf pi)
            else
              -- Anything that isn't template content is Go code.
              let posFrom := pi.Position
              match innerLoop posFrom (innerFuel pi) tf pi [] with
              | none => none
              | some (.ret r) => some (.ret r)
              | some (.breakInner tf pi) => some (.next tf pi)
              | some (.breakOuter tf _) => some (.ret ⟨tf, true, none⟩)

/-- Lines 121-202 of `Parse`: the loop `outer` with the final `return tf, true, nil`. -/
def bodyLoop (env : Env T C S G) :
    Nat → TemplateFile T C S G → Input → Option (Ret T C S G)
  | 0, _, _ => none
  | fuel + 1, tf, pi =>
    match outerBody env tf pi with
    | none => none
    | some (.ret r) => some r
    | some (.next tf pi) => bodyLoop env fuel tf pi

/-- The Go method `TemplateFileParser.Parse`. -/
def TemplateFileParser.Parse (p : TemplateFileParser) (env : Env T C S G) (fuel : Nat)
    (pi : Input) : Option (Ret T C S G) :=
  match p.ParseHead env fuel pi with
  | none => none
  | some (.ret r) => some r
  | some (.next tf pi) => bodyLoop env fuel tf pi

/-- The Go function `ParseString`. -/
def ParseString (env : Env T C S G) (fuel : Nat) (template : Str) :
    Option (TemplateFile T C S G × Option Error) :=
  match (NewTemplateFileParser "main".toList).Parse env fuel (NewInput template) with
  | none => none
  | some ⟨tf, ok, err⟩ =>
    match err with
    | some err => some (tf, some err)
    | none =>
      if !ok then some (tf, some Error.ErrTemplateNotFound)
      else some (tf, none)

/-- The Go function `Parse(fileName)`; `readFile` stands for `os.ReadFile`. -/
def Parse (readFile : Str → Except Error Str) (env : Env T C S G) (fuel : Nat)
    (fileName : Str) : Option (TemplateFile T C S G × Option Error) :=
  match readFile fileName with
  | .error err => some (TemplateFile.zero, some err)
  | .ok fc => ParseString env fuel fc

end ParseDef

/-! ## A concrete set of collaborators

Simple lexers and declaration parsers obeying the contract `Parse` expects of its
collaborators; they make the definitions above runnable on concrete texts. -/

/-- Whitespace lexer: one or more white-space characters. -/
def sampleWhitespace : Parser Str := fun pi =>
  let w := pi.rest.takeWhile IsSpace
  if w.length > 0 then ⟨w, true, none, pi.charIndex + w.length⟩
  else ⟨[], false, none, pi.charIndex⟩

/-- Optional-whitespace lexer: zero or more white-space characters; it always matches. -/
def sampleOptionalWhitespace : Parser Str := fun pi =>
  let w := pi.rest.takeWhile IsSpace
  ⟨w, true, none, pi.charIndex + w.length⟩

/-- Comment lexer: a `//` comment up to the end of its line. -/
def sampleComment : Parser Str := fun pi =>
  if HasPrefix pi.rest "//".toList then
    let n := lineLength pi.rest
    ⟨pi.rest.take n, true, none, pi.charIndex + n⟩
  else ⟨[], false, none, pi.charIndex⟩

/-- Package parser: `package ` and the rest of the line. -/
def samplePkg : Parser Package := fun pi =>
  if HasPrefix pi.rest "package ".toList then
    let n := lineLength pi.rest
    ⟨⟨NewExpression (pi.rest.take n) pi.Position (pi.PositionAt (pi.charIndex + n))⟩,
      true, none, pi.charIndex + n⟩
  else ⟨Package.zero, false, none, pi.charIndex⟩

/-- Length of a declaration block: through the first closing brace that starts a line, or
the whole text when there is none. -/
def blockLength : Str → Nat
  | [] => 0
  | '\n' :: '}' :: _ => 2
  | _ :: cs => blockLength cs + 1

/-- Declaration parser for the keyword `kw`: declines, without consuming, on text that does
not start with `kw`; reports an error when the first line does not end with an opening
brace; otherwise consumes the block. -/
def sampleDecl (kw : Str) : Parser Str := fun pi =>
  if HasPrefix pi.rest kw then
    if HasSuffix (pi.rest.take (lineLength pi.rest)) "\x7b".toList then
      let n := blockLength pi.rest
      ⟨pi.rest.take n, true, none, pi.charIndex + n⟩
    else ⟨[], false, some (Error.other "malformed declaration".toList), pi.charIndex⟩
  else ⟨[], false, none, pi.charIndex⟩

/-- The sample collaborators, as an environment for `Parse`. -/
def sampleEnv : Env Str Str Str Str where
  Whitespace := sampleWhitespace
  OptionalWhitespace := sampleOptionalWhitespace
  goComment := sampleComment
  pkg := samplePkg
  template := sampleDecl "templ ".toList
  cssParser := sampleDecl "css ".toList
  scriptTemplateParser := sampleDecl "script ".toList

/-- What the sample collaborators make `Parse` return on a blank line followed by
`templ Foo()`, a declaration line without opening brace: the error of the template parser,
with the header and package collected before it. -/
def sampleErrorRet : Ret Str Str Str Str :=
  ⟨⟨[.whitespace ⟨"\n".toList⟩],
     ⟨NewExpression "package main".toList ⟨1, 1, 0⟩ ⟨1, 1, 0⟩⟩, []⟩,
   false, some (Error.other "malformed declaration".toList)⟩

/-- A sample standard library: ASCII letters and digits only, and the Unix reading of
`filepath.Base(filepath.Dir(path))` on clean relative or absolute paths. -/
def sampleStdlib : Stdlib where
  letterTable := fun _ => false
  digitTable := fun _ => false
  Dir := fun path =>
    let d := (path.reverse.dropWhile (fun c => c != '/')).reverse
    let d := (d.reverse.dropWhile (fun c => c == '/')).reverse
    if d.isEmpty then (if HasPrefix path "/".toList then "/".toList else ".".toList) else d
  Base := fun path =>
    if path.isEmpty then ".".toList
    else
      let q := (path.reverse.dropWhile (fun c => c == '/')).reverse
      if q.isEmpty then "/".toList
      else (q.reverse.takeWhile (fun c => c != '/')).reverse

/-- Declaration parser for the keyword `kw` that insists on a parameter list: it declines,
without consuming, unless the text starts with `kw` and its first line has an opening
parenthesis; otherwise it consumes the block. -/
def sampleParenDecl (kw : Str) : Parser Str := fun pi =>
  if HasPrefix pi.rest kw && (pi.rest.take (lineLength pi.rest)).contains '(' then
    let n := blockLength pi.rest
    ⟨pi.rest.take n, true, none, pi.charIndex + n⟩
  else ⟨[], false, none, pi.charIndex⟩

/-- The sample collaborators with declaration parsers that insist on a parameter list. -/
def sampleParenEnv : Env Str Str Str Str :=
  { sampleEnv with
    template := sampleParenDecl "templ ".toList
    cssParser := sampleParenDecl "css ".toList
    scriptTemplateParser := sampleParenDecl "script ".toList }

/-- Declaration parser for the keyword `kw` that breaks the collaborator contract: on a text
that starts with `kw` but has no opening parenthesis in its first line it declines after
having consumed the keyword. -/
def sampleConsumingDecl (kw : Str) : Parser Str := fun pi =>
  if HasPrefix pi.rest kw then
    if (pi.rest.take (lineLength pi.rest)).contains '(' then
      let n := blockLength pi.rest
      ⟨pi.rest.take n, true, none, pi.charIndex + n⟩
    else ⟨[], false, none, pi.charIndex + kw.length⟩
  else ⟨[], false, none, pi.charIndex⟩

/-- The sample collaborators with declaration parsers that consume the keyword before they
decline. -/
def sampleConsumingEnv : Env Str Str Str Str :=
  { sampleEnv with
    template := sampleConsumingDecl "templ ".toList
    cssParser := sampleConsumingDecl "css ".toList
    scriptTemplateParser := sampleConsumingDecl "script ".toList }

/-- What the sample collaborators make `Parse` return on a blank line, a template block and
`templ Bar()`, a declaration line without opening brace: the error of the template parser,
with the header, the package and the template node collected before it. -/
def sampleErrorAfterNode : Ret Str Str Str Str :=
  ⟨⟨[.whitespace ⟨"\n".toList⟩],
     ⟨NewExpression "package main".toList ⟨1, 1, 0⟩ ⟨1, 1, 0⟩⟩,
     [.HTMLTemplate "templ Foo() \x7b\n\x7d".toList]⟩,
   false, some (Error.other "malformed declaration".toList)⟩

/-! ## Notions used to state the properties -/

/-- The identifier rule in the words of the specification: non-empty, the first character a
letter or underscore, every later character a letter, underscore or digit. -/
def isBareIdentifier (lib : Stdlib) : Str → Bool
  | [] => false
  | c :: cs =>
    (lib.IsLetter c || c == '_') &&
      cs.all (fun d => lib.IsLetter d || d == '_' || lib.IsDigit d)

/-- The parser `q` declines at `pi`: no match, no error, and the cursor is where it was. -/
def Declines {α : Type} (q : Parser α) (pi : Input) : Prop :=
  (q pi).ok = false ∧ (q pi).err = none ∧ pi.Seek (q pi).idx = pi

/-- The parser `q` never moves the cursor when it declines. -/
def NonConsumingOnDecline {α : Type} (q : Parser α) : Prop :=
  ∀ pi, (q pi).ok = false → (q pi).err = none → pi.Seek (q pi).idx = pi

/-- The first line of a text, without its terminator. -/
def firstLine (R : Str) : Str := R.take (lineLength R)

/-- Length of the line terminator at the head of a text: 2 for `\r\n`, 1 for `\n`, 0 when
there is none. -/
def newLineLength (R : Str) : Nat :=
  if HasPrefix R ['\r', '\n'] then 2 else if HasPrefix R ['\n'] then 1 else 0

/-- Length of the first line of a text together with its terminator. -/
def lineAdvance (R : Str) : Nat := lineLength R + newLineLength (R.drop (lineLength R))

/-- The lines of a text, without their terminators (`\r\n` or `\n`); `fuel` bounds their
number. A text that ends with a terminator has an empty last line. -/
def linesAux : Nat → Str → List Str
  | 0, _ => []
  | fuel + 1, s =>
    if newLineLength (s.drop (lineLength s)) > 0 then
      firstLine s :: linesAux fuel (s.drop (lineAdvance s))
    else [firstLine s]

/-- The lines of a text, without their terminators. -/
def lines (s : Str) : List Str := linesAux (s.length + 1) s

/-- Lines 176-179 and 192-195 of `Parse`: append the accumulated code, trimmed, as a
`GoExpression` when the accumulator is not empty. -/
def flushCode {T C S G : Type} (tf : TemplateFile T C S G) (code : Str)
    (posFrom posTo : Position) : TemplateFile T C S G :=
  if code.length > 0 then
    { tf with Nodes := tf.Nodes ++ [.GoExpression (NewExpression (TrimSpace code) posFrom posTo)] }
  else tf

/-- What the loop `inner` does on the unread text `R`: the number of characters it consumes,
and whether it stops at a boundary line (`true`) or at the end of input (`false`). -/
def scanCode : Nat → Str → Option (Nat × Bool)
  | 0, _ => none
  | fuel + 1, R =>
    if isBoundaryLine (firstLine R) then some (0, true)
    else if (R.drop (lineAdvance R)).isEmpty then some (lineAdvance R, false)
    else (scanCode fuel (R.drop (lineAdvance R))).map (fun kb => (lineAdvance R + kb.1, kb.2))

/-- Some collaborator of `env` reports the error `e` on some cursor. -/
def Env.Raises {T C S G : Type} (env : Env T C S G) (e : Error) : Prop :=
  ∃ pi, (env.Whitespace pi).err = some e ∨ (env.goComment pi).err = some e ∨
    (env.pkg pi).err = some e ∨ (env.template pi).err = some e ∨
    (env.cssParser pi).err = some e ∨ (env.scriptTemplateParser pi).err = some e

/-- The cursor at the end of the text `s`. -/
def Input.atEnd (s : Str) : Input := ⟨s, s.length⟩

/-- The node is a `GoExpression`. -/
def Node.isCode {T C S : Type} : Node T C S → Bool
  | .GoExpression _ => true
  | _ => false

/-- No two neighbours in the list are both `GoExpression` nodes. -/
def noAdjacentCode {T C S : Type} : List (Node T C S) → Bool
  | [] => true
  | [_] => true
  | a :: b :: rest => !(a.isCode && b.isCode) && noAdjacentCode (b :: rest)

/-- The last node of the list is a `GoExpression`. -/
def endsWithCode {T C S : Type} (nodes : List (Node T C S)) : Bool :=
  match nodes.getLast? with
  | some nd => nd.isCode
  | none => false

/-- The first unread character, if any, is not white space. -/
def Input.atNonSpace (pi : Input) : Prop :=
  ∀ c ∈ pi.rest.head?, IsSpace c = false

/-- The header collector in the words of the specification: attempt a whitespace match, then
a comment match; on either success the item is appended and the attempt repeated; when both
decline the collector stops. `HeaderRun env pi items q` says that from the cursor `pi` the
items `items` are matched, in this order, and that the collector stops with the cursor at
`q`. -/
inductive HeaderRun {T C S G : Type} (env : Env T C S G) :
    Input → List (HeaderItem G) → Input → Prop where
  | stop (pi : Input) :
      (env.Whitespace pi).err = none → (env.Whitespace pi).ok = false →
      (env.goComment (pi.Seek (env.Whitespace pi).idx)).err = none →
      (env.goComment (pi.Seek (env.Whitespace pi).idx)).ok = false →
      HeaderRun env pi []
        ((pi.Seek (env.Whitespace pi).idx).Seek
          (env.goComment (pi.Seek (env.Whitespace pi).idx)).idx)
  | whitespace (pi : Input) (items : List (HeaderItem G)) (q : Input) :
      (env.Whitespace pi).err = none → (env.Whitespace pi).ok = true →
      HeaderRun env (pi.Seek (env.Whitespace pi).idx) items q →
      HeaderRun env pi (.whitespace ⟨(env.Whitespace pi).val⟩ :: items) q
  | comment (pi : Input) (items : List (HeaderItem G)) (q : Input) :
      (env.Whitespace pi).err = none → (env.Whitespace pi).ok = false →
      (env.goComment (pi.Seek (env.Whitespace pi).idx)).err = none →
      (env.goComment (pi.Seek (env.Whitespace pi).idx)).ok = true →
      HeaderRun env
        ((pi.Seek (env.Whitespace pi).idx).Seek
          (env.goComment (pi.Seek (env.Whitespace pi).idx)).idx) items q →
      HeaderRun env pi
        (.comment (env.goComment (pi.Seek (env.Whitespace pi).idx)).val :: items) q

/-- The kinds of body nodes. -/
inductive NodeKind where
  | template
  | css
  | script
  | code
deriving DecidableEq, Repr

/-- The kind of a body node. -/
def Node.kind {T C S : Type} : Node T C S → NodeKind
  | .HTMLTemplate _ => .template
  | .CSSTemplate _ => .css
  | .ScriptTemplate _ => .script
  | .GoExpression _ => .code

/-- The recorded expression text of a body node; the texts of the three kinds of declaration
nodes, whose types `templatefile.go` only refers to, are given by `tt`, `ct` and `st`. -/
def Node.text {T C S : Type} (tt : T → Str) (ct : C → Str) (st : S → Str) :
    Node T C S → Str
  | .HTMLTemplate tn => tt tn
  | .CSSTemplate cn => ct cn
  | .ScriptTemplate sn => st sn
  | .GoExpression expr => expr.Value

/-- The concatenation, in document order, of the recorded expression texts of a document:
the package text, then the text of each body node. -/
def recordedText {T C S G : Type} (tt : T → Str) (ct : C → Str) (st : S → Str)
    (tf : TemplateFile T C S G) : Str :=
  tf.Package.Expression.Value ++
    tf.Nodes.foldr (fun nd acc => nd.text tt ct st ++ acc) []

/-- The cursor after the call of `template` at `pi`. -/
def afterTemplate {T C S G : Type} (env : Env T C S G) (pi : Input) : Input :=
  pi.Seek (env.template pi).idx

/-- The cursor after the calls of `template` and `cssParser` at `pi`. -/
def afterCss {T C S G : Type} (env : Env T C S G) (pi : Input) : Input :=
  (afterTemplate env pi).Seek (env.cssParser (afterTemplate env pi)).idx

/-- The cursor after the calls of the three declaration parsers at `pi`. -/
def afterScript {T C S G : Type} (env : Env T C S G) (pi : Input) : Input :=
  (afterCss env pi).Seek (env.scriptTemplateParser (afterCss env pi)).idx

/-- The three declaration parsers, called in turn from `pi`, report neither a match nor an
error. -/
def AllDecline {T C S G : Type} (env : Env T C S G) (pi : Input) : Prop :=
  (env.template pi).ok = false ∧ (env.template pi).err = none ∧
  (env.cssParser (afterTemplate env pi)).ok = false ∧
  (env.cssParser (afterTemplate env pi)).err = none ∧
  (env.scriptTemplateParser (afterCss env pi)).ok = false ∧
  (env.scriptTemplateParser (afterCss env pi)).err = none

/-- One of the three declaration parsers, called in turn from `pi`, reports the error `e`
(those called before it having declined). -/
def DispatchError {T C S G : Type} (env : Env T C S G) (pi : Input) (e : Error) : Prop :=
  (env.template pi).err = some e ∨
  ((env.template pi).err = none ∧ (env.template pi).ok = false ∧
    (env.cssParser (afterTemplate env pi)).err = some e) ∨
  ((env.template pi).err = none ∧ (env.template pi).ok = false ∧
    (env.cssParser (afterTemplate env pi)).err = none ∧
    (env.cssParser (afterTemplate env pi)).ok = false ∧
    (env.scriptTemplateParser (afterCss env pi)).err = some e)

/-- The nodes a flush appends for the accumulated text `code`: one `GoExpression` with the
trimmed text, or nothing when `code` is empty. -/
def flushed {T C S : Type} (code : Str) (posFrom posTo : Position) : List (Node T C S) :=
  if code.length > 0 then [.GoExpression (NewExpression (TrimSpace code) posFrom posTo)]
  else []

/-- The first `k` characters of the text `R` are raw code up to a boundary line: none of
their lines is a boundary line, they are empty or end with a line terminator, and the line
that follows them is a boundary line. -/
def CodeBeforeBoundary (R : Str) (k : Nat) : Prop :=
  k ≤ R.length ∧ (∀ l ∈ lines (R.take k), isBoundaryLine l = false) ∧
  (k = 0 ∨ (R.take k).getLast? = some '\n') ∧
  isBoundaryLine (firstLine (R.drop k)) = true

/-- The whole text `R` is raw code: none of its lines is a boundary line. -/
def CodeToEnd (R : Str) : Prop := ∀ l ∈ lines R, isBoundaryLine l = false

/-- One iteration of the dispatcher that goes on, in the words of the specification: the
first declaration parser that matches appends its node and whitespace is skipped; when all
three decline, raw code is accumulated up to the next boundary line and flushed.
`DispatchStep env pi nodes q`: from the cursor `pi` the iteration appends `nodes` and leaves
the cursor at `q`. -/
inductive DispatchStep {T C S G : Type} (env : Env T C S G) :
    Input → List (Node T C S) → Input → Prop where
  | template (pi : Input) :
      (env.template pi).err = none → (env.template pi).ok = true →
      DispatchStep env pi [.HTMLTemplate (env.template pi).val]
        ((afterTemplate env pi).Seek (env.OptionalWhitespace (afterTemplate env pi)).idx)
  | css (pi : Input) :
      (env.template pi).err = none → (env.template pi).ok = false →
      (env.cssParser (afterTemplate env pi)).err = none →
      (env.cssParser (afterTemplate env pi)).ok = true →
      DispatchStep env pi [.CSSTemplate (env.cssParser (afterTemplate env pi)).val]
        ((afterCss env pi).Seek (env.OptionalWhitespace (afterCss env pi)).idx)
  | script (pi : Input) :
      (env.template pi).err = none → (env.template pi).ok = false →
      (env.cssParser (afterTemplate env pi)).err = none →
      (env.cssParser (afterTemplate env pi)).ok = false →
      (env.scriptTemplateParser (afterCss env pi)).err = none →
      (env.scriptTemplateParser (afterCss env pi)).ok = true →
      DispatchStep env pi [.ScriptTemplate (env.scriptTemplateParser (afterCss env pi)).val]
        ((afterScript env pi).Seek (env.OptionalWhitespace (afterScript env pi)).idx)
  | code (pi : Input) (k : Nat) :
      AllDecline env pi → CodeBeforeBoundary (afterScript env pi).rest k →
      DispatchStep env pi
        (flushed ((afterScript env pi).rest.take k) (afterScript env pi).Position
          (Input.mk (afterScript env pi).s ((afterScript env pi).charIndex + k)).Position)
        ⟨(afterScript env pi).s, (afterScript env pi).charIndex + k⟩

/-- The last iteration of the dispatcher: all three declaration parsers decline and the
text left is raw code up to the end of input; `nodes` is what the final flush appends. -/
def DispatchEnd {T C S G : Type} (env : Env T C S G) (pi : Input)
    (nodes : List (Node T C S)) : Prop :=
  AllDecline env pi ∧ CodeToEnd (afterScript env pi).rest ∧
  nodes = flushed (afterScript env pi).rest (afterScript env pi).Position
    (Input.mk (afterScript env pi).s
      ((afterScript env pi).charIndex + (afterScript env pi).rest.length)).Position

/-- Iterations of the dispatcher, one after the other: `DispatchRun env pi nodes q` says that
from the cursor `pi` they append `nodes`, in this order, and reach the cursor `q`. -/
inductive DispatchRun {T C S G : Type} (env : Env T C S G) :
    Input → List (Node T C S) → Input → Prop where
  | done (pi : Input) : DispatchRun env pi [] pi
  | step (pi : Input) (ns : List (Node T C S)) (pi' : Input) (ms : List (Node T C S))
      (q : Input) :
      DispatchStep env pi ns pi' → DispatchRun env pi' ms q →
      DispatchRun env pi (ns ++ ms) q

/-- The header items matched so far: `HeaderPrefix env pi items q` says that from the cursor
`pi` the items `items` are matched, in this order, and the cursor `q` is reached. -/
inductive HeaderPrefix {T C S G : Type} (env : Env T C S G) :
    Input → List (HeaderItem G) → Input → Prop where
  | done (pi : Input) : HeaderPrefix env pi [] pi
  | whitespace (pi : Input) (items : List (HeaderItem G)) (q : Input) :
      (env.Whitespace pi).err = none → (env.Whitespace pi).ok = true →
      HeaderPrefix env (pi.Seek (env.Whitespace pi).idx) items q →
      HeaderPrefix env pi (.whitespace ⟨(env.Whitespace pi).val⟩ :: items) q
  | comment (pi : Input) (items : List (HeaderItem G)) (q : Input) :
      (env.Whitespace pi).err = none → (env.Whitespace pi).ok = false →
      (env.goComment (pi.Seek (env.Whitespace pi).idx)).err = none →
      (env.goComment (pi.Seek (env.Whitespace pi).idx)).ok = true →
      HeaderPrefix env
        ((pi.Seek (env.Whitespace pi).idx).Seek
          (env.goComment (pi.Seek (env.Whitespace pi).idx)).idx) items q →
      HeaderPrefix env pi
        (.comment (env.goComment (pi.Seek (env.Whitespace pi).idx)).val :: items) q

/-- The whitespace lexer at `q`, or the comment lexer after it has declined, reports the
error `e`. -/
def HeaderError {T C S G : Type} (env : Env T C S G) (q : Input) (e : Error) : Prop :=
  (env.Whitespace q).err = some e ∨
  ((env.Whitespace q).err = none ∧ (env.Whitespace q).ok = false ∧
    (env.goComment (q.Seek (env.Whitespace q).idx)).err = some e)

/-- The text of a `GoExpression` and its span in the input text `s`: the span is not empty
and lies within `s`, the stored text is the `TrimSpace` of the characters of `s` that the
span covers, none of the lines of those characters is a boundary line, and they run to the
end of input or end with a line feed that a boundary line follows. -/
def SpanIsCode (s : Str) (e : Expression) : Prop :=
  e.Range.From.Index < e.Range.To.Index ∧ e.Range.To.Index ≤ s.length ∧
  e.Value =
    TrimSpace ((s.drop e.Range.From.Index).take (e.Range.To.Index - e.Range.From.Index)) ∧
  (∀ l ∈ lines ((s.drop e.Range.From.Index).take (e.Range.To.Index - e.Range.From.Index)),
    isBoundaryLine l = false) ∧
  (s.drop e.Range.To.Index = [] ∨
    (((s.drop e.Range.From.Index).take
        (e.Range.To.Index - e.Range.From.Index)).getLast? = some '\n' ∧
      isBoundaryLine (firstLine (s.drop e.Range.To.Index)) = true))

/-- The parser `q` consumes at least one character whenever it matches. -/
def ConsumingOnMatch {α : Type} (q : Parser α) : Prop :=
  ∀ pi : Input, (q pi).ok = true → (q pi).err = none →
    pi.charIndex < (pi.Seek (q pi).idx).charIndex

/-- The parser `q` never moves the cursor backwards. -/
def NeverBackwards {α : Type} (q : Parser α) : Prop :=
  ∀ pi : Input, pi.charIndex ≤ (pi.Seek (q pi).idx).charIndex

/-- The package of the document once the package section is passed, with the header ending
at `pi0`: the value `pkg` returned when it matched, else the default package, synthesized
with the positions before and after the attempt. -/
def packageOrDefault {T C S G : Type} (p : TemplateFileParser) (env : Env T C S G)
    (pi0 : Input) : Package :=
  if (env.pkg pi0).ok then (env.pkg pi0).val
  else ⟨NewExpression ("package ".toList ++ p.DefaultPackage) pi0.Position
    (pi0.Seek (env.pkg pi0).idx).Position⟩

/-- The cursor at which the body dispatcher starts, with the header ending at `pi0`: after
the package attempt and the whitespace that follows it. -/
def bodyStart {T C S G : Type} (env : Env T C S G) (pi0 : Input) : Input :=
  (pi0.Seek (env.pkg pi0).idx).Seek (env.OptionalWhitespace (pi0.Seek (env.pkg pi0).idx)).idx

/-! ## The default package name -/

theorem isGoIdentifierLoop_pos (lib : Stdlib) (i : Nat) (hi : 0 < i) (s : Str) :
    isGoIdentifierLoop lib i s =
      s.all (fun d => lib.IsLetter d || d == '_' || lib.IsDigit d) := by
  induction s generalizing i with
  | nil => simp [isGoIdentifierLoop]
  | cons c cs ih =>
    have h1 : 0 < i + 1 := Nat.succ_pos i
    simp only [isGoIdentifierLoop, ih (i + 1) h1, List.all_cons]
    by_cases hl : (lib.IsLetter c || c == '_') = true
    · simp only [hl, if_true]
      rcases Bool.or_eq_true _ _ |>.mp hl with h | h <;> simp [h]
    · have hl' : (lib.IsLetter c || c == '_') = false := by simpa using hl
      have h2 := Bool.or_eq_false_iff.mp hl'
      simp only [hl', h2.1, h2.2, Bool.false_or, hi, decide_True, Bool.true_and]
      cases lib.IsDigit c <;> simp

theorem isGoIdentifier_eq (lib : Stdlib) (s : Str) :
    isGoIdentifier lib s = isBareIdentifier lib s := by
  cases s with
  | nil => simp [isGoIdentifier, isBareIdentifier]
  | cons c cs =>
    simp only [isGoIdentifier, isBareIdentifier, isGoIdentifierLoop, List.length_cons]
    have h0 : ((cs.length + 1 == 0) = false) := by simp
    simp only [h0, Bool.false_eq_true, if_false]
    rw [isGoIdentifierLoop_pos lib 1 Nat.one_pos]
    by_cases hl : (lib.IsLetter c || c == '_') = true
    · simp [hl]
    · have hl' : (lib.IsLetter c || c == '_') = false := by simpa using hl
      simp [hl']

/-- C2: `getDefaultPackageName` returns the parent directory name
`filepath.Base(filepath.Dir(fileName))` when that name is non-empty, starts with a letter or
underscore and continues with letters, underscores or digits, and `main` in every other case;
in particular for the parent names `123abc`, the empty name, `.` and `/`. -/
theorem getDefaultPackageName_spec (lib : Stdlib) (fileName : Str) :
    (isBareIdentifier lib (lib.Base (lib.Dir fileName)) = true →
      getDefaultPackageName lib fileName = lib.Base (lib.Dir fileName)) ∧
    (isBareIdentifier lib (lib.Base (lib.Dir fileName)) = false →
      getDefaultPackageName lib fileName = "main".toList) ∧
    (lib.Base (lib.Dir fileName) ∈
        ["123abc".toList, [], ".".toList, "/".toList] →
      getDefaultPackageName lib fileName = "main".toList) := by
  have key : ∀ b, isBareIdentifier lib (lib.Base (lib.Dir fileName)) = b →
      getDefaultPackageName lib fileName =
        if b then lib.Base (lib.Dir fileName) else "main".toList := by
    intro b hb
    simp only [getDefaultPackageName, isGoIdentifier_eq, hb]
    cases b <;> simp
  refine ⟨fun h => by simpa using key true h, fun h => by simpa using key false h, ?_⟩
  intro hmem
  have hbad : isBareIdentifier lib (lib.Base (lib.Dir fileName)) = false := by
    simp only [List.mem_cons, List.mem_singleton, List.not_mem_nil, or_false] at hmem
    rcases hmem with h | h | h | h <;> rw [h] <;>
      simp [isBareIdentifier, Stdlib.IsLetter, Char.isAlpha, Char.isUpper, Char.isLower]
  simpa using key false hbad

/-- Witness of C2 on the sample library: a valid parent name is returned, `123abc` and a
missing parent give `main`. -/
theorem getDefaultPackageName_spec_witness :
    getDefaultPackageName sampleStdlib "a/views/x.templ".toList = "views".toList ∧
    getDefaultPackageName sampleStdlib "a/123abc/x.templ".toList = "main".toList ∧
    getDefaultPackageName sampleStdlib "x.templ".toList = "main".toList :=
  ⟨(getDefaultPackageName_spec sampleStdlib "a/views/x.templ".toList).1 (by decide),
   (getDefaultPackageName_spec sampleStdlib "a/123abc/x.templ".toList).2.2 (by decide),
   (getDefaultPackageName_spec sampleStdlib "x.templ".toList).2.2 (by decide)⟩

/-! ## The cursor and the line reader -/

theorem lineLength_le (R : Str) : lineLength R ≤ R.length := by
  induction R with
  | nil => simp [lineLength]
  | cons c cs ih =>
    simp only [lineLength, List.length_cons]
    split <;> omega

theorem newLineLength_le (R : Str) : newLineLength R ≤ R.length := by
  unfold newLineLength HasPrefix
  match R with
  | [] => simp
  | [c] => simp; split <;> simp
  | c :: d :: rest => simp only [List.length_cons]; split <;> [omega; (split <;> omega)]

theorem lineAdvance_le (R : Str) : lineAdvance R ≤ R.length := by
  have h1 := lineLength_le R
  have h2 := newLineLength_le (R.drop (lineLength R))
  simp only [List.length_drop] at h2
  unfold lineAdvance; omega

theorem Input.Seek_add (pi : Input) (k : Nat) (hk : k ≤ pi.rest.length) :
    pi.Seek (pi.charIndex + k) = ⟨pi.s, pi.charIndex + k⟩ := by
  unfold Input.Seek
  simp only [Input.rest, List.length_drop] at hk
  split
  · next h =>
    have hk0 : k = 0 := by omega
    subst hk0; rfl
  · rfl

theorem Input.Seek_self (pi : Input) : pi.Seek pi.charIndex = pi := by
  unfold Input.Seek; split <;> rfl

theorem Input.Seek_back (pi : Input) (k : Nat) (hk : k ≤ pi.rest.length) :
    (Input.mk pi.s (pi.charIndex + k)).Seek pi.charIndex = pi := by
  unfold Input.Seek
  simp only [Input.rest, List.length_drop] at hk
  split
  · next h =>
    simp only at h
    have hk0 : k = 0 := by omega
    subst hk0; rfl
  · rfl

theorem Input.rest_mk_add (pi : Input) (k : Nat) :
    (Input.mk pi.s (pi.charIndex + k)).rest = pi.rest.drop k := by
  simp [Input.rest, List.drop_drop, Nat.add_comm]

theorem NewLine_val (pi : Input) :
    (parse.NewLine pi).val = pi.rest.take (newLineLength pi.rest) := by
  unfold parse.NewLine newLineLength
  by_cases h1 : HasPrefix pi.rest ['\r', '\n'] = true
  · simp only [h1, if_true]
    unfold HasPrefix at h1
    obtain ⟨t, ht⟩ := List.isPrefixOf_iff_prefix.mp h1
    rw [← ht]; rfl
  · simp only [h1, Bool.false_eq_true, if_false]
    by_cases h2 : HasPrefix pi.rest ['\n'] = true
    · simp only [h2, if_true]
      unfold HasPrefix at h2
      obtain ⟨t, ht⟩ := List.isPrefixOf_iff_prefix.mp h2
      rw [← ht]; rfl
    · simp [h2]

theorem NewLine_idx (pi : Input) :
    (parse.NewLine pi).idx = pi.charIndex + newLineLength pi.rest := by
  unfold parse.NewLine newLineLength
  split
  · rfl
  · split <;> rfl

theorem NewLine_err (pi : Input) : (parse.NewLine pi).err = none := by
  unfold parse.NewLine
  split
  · rfl
  · split <;> rfl

/-- One iteration of the loop `inner`, in terms of the unread text. -/
theorem innerLoop_succ {T C S G : Type} (posFrom : Position) (n : Nat)
    (tf : TemplateFile T C S G) (pi : Input) (code : Str) :
    innerLoop posFrom (n + 1) tf pi code =
      if isBoundaryLine (firstLine pi.rest) then
        some (.breakInner (flushCode tf code posFrom pi.Position) pi)
      else if (pi.rest.drop (lineAdvance pi.rest)).isEmpty then
        some (.breakOuter
          (flushCode tf (code ++ pi.rest.take (lineAdvance pi.rest)) posFrom
            (Input.mk pi.s (pi.charIndex + lineAdvance pi.rest)).Position)
          ⟨pi.s, pi.charIndex + lineAdvance pi.rest⟩)
      else
        innerLoop posFrom n tf ⟨pi.s, pi.charIndex + lineAdvance pi.rest⟩
          (code ++ pi.rest.take (lineAdvance pi.rest)) := by
  have hll := lineLength_le pi.rest
  have hnl := newLineLength_le (pi.rest.drop (lineLength pi.rest))
  have e1 : pi.Seek (pi.charIndex + lineLength pi.rest) =
      ⟨pi.s, pi.charIndex + lineLength pi.rest⟩ := Input.Seek_add pi _ hll
  have e2 : (Input.mk pi.s (pi.charIndex + lineLength pi.rest)).rest =
      pi.rest.drop (lineLength pi.rest) := Input.rest_mk_add pi _
  have e3 : (Input.mk pi.s (pi.charIndex + lineLength pi.rest)).Seek
      (pi.charIndex + lineLength pi.rest + newLineLength (pi.rest.drop (lineLength pi.rest))) =
      ⟨pi.s, pi.charIndex + lineAdvance pi.rest⟩ := by
    have := Input.Seek_add ⟨pi.s, pi.charIndex + lineLength pi.rest⟩
      (newLineLength (pi.rest.drop (lineLength pi.rest))) (by rw [e2]; exact hnl)
    simpa [lineAdvance, Nat.add_assoc] using this
  have e4 : pi.rest.take (lineLength pi.rest) ++
      (pi.rest.drop (lineLength pi.rest)).take
        (newLineLength (pi.rest.drop (lineLength pi.rest))) =
      pi.rest.take (lineAdvance pi.rest) := by
    unfold lineAdvance; rw [List.take_add]
  have e5 : (Input.mk pi.s (pi.charIndex + lineAdvance pi.rest)).rest =
      pi.rest.drop (lineAdvance pi.rest) := Input.rest_mk_add pi _
  rw [innerLoop]
  simp only [parse.StringUntilNewLineOrEOF, Input.Index, e1, NewLine_err, NewLine_val,
    NewLine_idx, e2, e3, parse.EOF, e5, Input.Seek_back pi _ hll, firstLine, flushCode,
    List.append_assoc, e4]

/-- The loop `inner` follows `scanCode` on the unread text. -/
theorem innerLoop_eq_scan {T C S G : Type} (posFrom : Position) (n : Nat)
    (tf : TemplateFile T C S G) (pi : Input) (code : Str) :
    innerLoop posFrom n tf pi code =
      (scanCode n pi.rest).map (fun kb =>
        if kb.2 then
          InnerExit.breakInner
            (flushCode tf (code ++ pi.rest.take kb.1) posFrom
              (Input.mk pi.s (pi.charIndex + kb.1)).Position)
            ⟨pi.s, pi.charIndex + kb.1⟩
        else
          InnerExit.breakOuter
            (flushCode tf (code ++ pi.rest.take kb.1) posFrom
              (Input.mk pi.s (pi.charIndex + kb.1)).Position)
            ⟨pi.s, pi.charIndex + kb.1⟩) := by
  induction n generalizing pi code with
  | zero => simp [innerLoop, scanCode]
  | succ n ih =>
    rw [innerLoop_succ, scanCode]
    by_cases hb : isBoundaryLine (firstLine pi.rest) = true
    · simp [hb]
    · simp only [hb, Bool.false_eq_true, if_false]
      by_cases he : (pi.rest.drop (lineAdvance pi.rest)).isEmpty = true
      · simp [he]
      · simp only [he, Bool.false_eq_true, if_false]
        rw [ih, Input.rest_mk_add]
        cases hs : scanCode n (pi.rest.drop (lineAdvance pi.rest)) with
        | none => simp
        | some kb =>
          simp only [Option.map_some', List.append_assoc, Nat.add_assoc, List.take_add]

/-! ## What the loop `inner` consumes -/

theorem lineAdvance_eq_zero (R : Str) (h : lineAdvance R = 0) : R = [] := by
  match R with
  | [] => rfl
  | c :: cs =>
    exfalso
    unfold lineAdvance at h
    have h1 : lineLength (c :: cs) = 0 := by omega
    have h2 : newLineLength ((c :: cs).drop (lineLength (c :: cs))) = 0 := by omega
    rw [h1] at h2
    simp only [lineLength] at h1
    split at h1
    · next hp =>
      simp only [List.drop_zero] at h2
      unfold newLineLength at h2
      split at h2
      · omega
      · next hn1 =>
        split at h2
        · omega
        · next hn2 => simp [hn1, hn2] at hp
    · omega

theorem scanCode_total (n : Nat) (R : Str) (h : R.length < n) :
    ∃ kb, scanCode n R = some kb := by
  induction n generalizing R with
  | zero => omega
  | succ n ih =>
    rw [scanCode]
    by_cases hb : isBoundaryLine (firstLine R) = true
    · exact ⟨(0, true), by simp [hb]⟩
    · simp only [hb, Bool.false_eq_true, if_false]
      by_cases he : (R.drop (lineAdvance R)).isEmpty = true
      · exact ⟨(lineAdvance R, false), by simp [he]⟩
      · simp only [he, Bool.false_eq_true, if_false]
        have hpos : 0 < lineAdvance R := by
          rcases Nat.eq_zero_or_pos (lineAdvance R) with h0 | h0
          · have := lineAdvance_eq_zero R h0
            subst this; simp at he
          · exact h0
        have hlen : (R.drop (lineAdvance R)).length < n := by
          have := lineAdvance_le R
          simp only [List.length_drop]; omega
        obtain ⟨kb, hkb⟩ := ih _ hlen
        exact ⟨_, by rw [hkb]; rfl⟩

theorem scanCode_le (n : Nat) (R : Str) (k : Nat) (b : Bool)
    (h : scanCode n R = some (k, b)) : k ≤ R.length := by
  induction n generalizing R k b with
  | zero => simp [scanCode] at h
  | succ n ih =>
    rw [scanCode] at h
    split at h
    · simp only [Option.some.injEq, Prod.mk.injEq] at h; omega
    · split at h
      · simp only [Option.some.injEq, Prod.mk.injEq] at h
        have := lineAdvance_le R; omega
      · cases hs : scanCode n (R.drop (lineAdvance R)) with
        | none => simp [hs] at h
        | some kb =>
          obtain ⟨k', b'⟩ := kb
          simp only [hs, Option.map_some', Option.some.injEq, Prod.mk.injEq] at h
          have h1 := ih _ _ _ hs
          have h2 := lineAdvance_le R
          simp only [List.length_drop] at h1
          omega

theorem scanCode_boundary (n : Nat) (R : Str) (k : Nat)
    (h : scanCode n R = some (k, true)) : isBoundaryLine (firstLine (R.drop k)) = true := by
  induction n generalizing R k with
  | zero => simp [scanCode] at h
  | succ n ih =>
    rw [scanCode] at h
    split at h
    · next hb =>
      simp only [Option.some.injEq, Prod.mk.injEq, and_true] at h
      subst h; simpa using hb
    · split at h
      · simp at h
      · cases hs : scanCode n (R.drop (lineAdvance R)) with
        | none => simp [hs] at h
        | some kb =>
          obtain ⟨k', b'⟩ := kb
          simp only [hs, Option.map_some', Option.some.injEq, Prod.mk.injEq] at h
          obtain ⟨hk, hb'⟩ := h
          subst hb' hk
          have := ih _ _ hs
          simpa [List.drop_drop, Nat.add_comm] using this

theorem scanCode_eof (n : Nat) (R : Str) (k : Nat)
    (h : scanCode n R = some (k, false)) : k = R.length := by
  induction n generalizing R k with
  | zero => simp [scanCode] at h
  | succ n ih =>
    rw [scanCode] at h
    split at h
    · simp at h
    · split at h
      · next he =>
        simp only [Option.some.injEq, Prod.mk.injEq, and_true] at h
        have h1 : R.length ≤ lineAdvance R := by simpa using he
        have h2 := lineAdvance_le R
        omega
      · cases hs : scanCode n (R.drop (lineAdvance R)) with
        | none => simp [hs] at h
        | some kb =>
          obtain ⟨k', b'⟩ := kb
          simp only [hs, Option.map_some', Option.some.injEq, Prod.mk.injEq] at h
          obtain ⟨hk, hb'⟩ := h
          subst hb' hk
          have h1 := ih _ _ hs
          have h2 := lineAdvance_le R
          simp only [List.length_drop] at h1
          omega

theorem scanCode_at_boundary (n : Nat) (R : Str) (kb : Nat × Bool)
    (hb : isBoundaryLine (firstLine R) = true) (h : scanCode n R = some kb) :
    kb = (0, true) := by
  cases n with
  | zero => simp [scanCode] at h
  | succ n =>
    rw [scanCode] at h
    simp only [hb, if_true, Option.some.injEq] at h
    exact h.symm

/-! ## Lines of a text -/

theorem HasPrefix_append_eq (R D pre : Str) (hlen : pre.length ≤ R.length) :
    HasPrefix (R ++ D) pre = HasPrefix R pre := by
  unfold HasPrefix
  rw [Bool.eq_iff_iff, List.isPrefixOf_iff_prefix, List.isPrefixOf_iff_prefix]
  constructor
  · intro h
    exact List.prefix_of_prefix_length_le h (List.prefix_append R D) hlen
  · intro h
    exact h.trans (List.prefix_append R D)

theorem newLineLength_pos_iff (R : Str) :
    0 < newLineLength R ↔ (HasPrefix R ['\r', '\n'] || HasPrefix R ['\n']) = true := by
  unfold newLineLength
  by_cases h1 : HasPrefix R ['\r', '\n'] = true
  · simp [h1]
  · by_cases h2 : HasPrefix R ['\n'] = true
    · simp [h1, h2]
    · simp [h1, h2]

theorem lineLength_stop (R : Str) :
    R.drop (lineLength R) = [] ∨ 0 < newLineLength (R.drop (lineLength R)) := by
  induction R with
  | nil => left; simp [lineLength]
  | cons c cs ih =>
    by_cases h : (HasPrefix (c :: cs) ['\r', '\n'] || HasPrefix (c :: cs) ['\n']) = true
    · right
      have hl : lineLength (c :: cs) = 0 := by simp only [lineLength, h, if_true]
      rw [hl, List.drop_zero]
      exact (newLineLength_pos_iff _).mpr h
    · have hl : lineLength (c :: cs) = lineLength cs + 1 := by
        simp only [lineLength, h, Bool.false_eq_true, if_false]
      rw [hl, List.drop_succ_cons]
      exact ih

theorem lineLength_lt_of_mem (R : Str) (h : '\n' ∈ R) : lineLength R < R.length := by
  induction R with
  | nil => simp at h
  | cons c cs ih =>
    by_cases hp : (HasPrefix (c :: cs) ['\r', '\n'] || HasPrefix (c :: cs) ['\n']) = true
    · simp only [lineLength, hp, if_true, List.length_cons]; omega
    · simp only [lineLength, hp, Bool.false_eq_true, if_false, List.length_cons]
      have hc : c ≠ '\n' := by
        intro hc
        apply hp
        subst hc
        simp [HasPrefix]
      have hmem : '\n' ∈ cs := by
        rcases List.mem_cons.mp h with h' | h'
        · exact absurd h'.symm hc
        · exact h'
      have := ih hmem
      omega

theorem lineLength_append (R D : Str) (h : lineLength R < R.length) :
    lineLength (R ++ D) = lineLength R := by
  induction R with
  | nil => simp at h
  | cons c cs ih =>
    rw [List.cons_append]
    by_cases hcs : cs = []
    · subst hcs
      simp only [List.length_cons, List.length_nil] at h
      have h0 : lineLength [c] = 0 := by omega
      simp only [lineLength] at h0
      split at h0
      · next hp =>
        have hc : HasPrefix [c] ['\n'] = true := by
          rcases (Bool.or_eq_true _ _).mp hp with h1 | h1
          · simp [HasPrefix] at h1
          · exact h1
        have hc' : HasPrefix ([c] ++ D) ['\n'] = true := by
          rw [HasPrefix_append_eq _ _ _ (by simp)]; exact hc
        simp only [List.singleton_append] at hc'
        simp [lineLength, hc', hp]
      · omega
    · have hlen : 1 ≤ cs.length := by
        cases cs with
        | nil => exact absurd rfl hcs
        | cons d ds => simp
      have e1 : HasPrefix (c :: (cs ++ D)) ['\r', '\n'] = HasPrefix (c :: cs) ['\r', '\n'] := by
        rw [← List.cons_append]
        exact HasPrefix_append_eq _ _ _ (by simp only [List.length_cons]; simp; omega)
      have e2 : HasPrefix (c :: (cs ++ D)) ['\n'] = HasPrefix (c :: cs) ['\n'] := by
        rw [← List.cons_append]
        exact HasPrefix_append_eq _ _ _ (by simp)
      simp only [lineLength, e1, e2]
      split
      · rfl
      · next hp =>
        simp only [lineLength, hp, Bool.false_eq_true, if_false, List.length_cons] at h
        rw [ih (by omega)]

theorem newLineLength_append (R D : Str) (h : 0 < newLineLength R) :
    newLineLength (R ++ D) = newLineLength R := by
  unfold newLineLength at h ⊢
  by_cases h1 : HasPrefix R ['\r', '\n'] = true
  · have h1' : HasPrefix (R ++ D) ['\r', '\n'] = true := by
      unfold HasPrefix at h1 ⊢
      rw [List.isPrefixOf_iff_prefix] at h1 ⊢
      exact h1.trans (List.prefix_append R D)
    simp [h1, h1']
  · by_cases h2 : HasPrefix R ['\n'] = true
    · have h2' : HasPrefix (R ++ D) ['\n'] = true := by
        unfold HasPrefix at h2 ⊢
        rw [List.isPrefixOf_iff_prefix] at h2 ⊢
        exact h2.trans (List.prefix_append R D)
      have h1' : HasPrefix (R ++ D) ['\r', '\n'] = false := by
        cases R with
        | nil => simp [HasPrefix] at h2
        | cons c cs =>
          have hc : '\n' = c := by simpa [HasPrefix] using h2
          subst hc
          simp [HasPrefix, List.isPrefixOf]
      simp [h1, h2, h1', h2']
    · simp [h1, h2] at h

theorem lineAdvance_append (R D : Str) (h : lineLength R < R.length) :
    lineAdvance (R ++ D) = lineAdvance R ∧ firstLine (R ++ D) = firstLine R ∧
    0 < newLineLength (R.drop (lineLength R)) := by
  have hl := lineLength_append R D h
  have hpos : 0 < newLineLength (R.drop (lineLength R)) := by
    rcases lineLength_stop R with h0 | h0
    · have := congrArg List.length h0
      simp only [List.length_drop, List.length_nil] at this
      omega
    · exact h0
  refine ⟨?_, ?_, hpos⟩
  · unfold lineAdvance
    rw [hl, List.drop_append_of_le_length (Nat.le_of_lt h), newLineLength_append _ _ hpos]
  · unfold firstLine
    rw [hl, List.take_append_of_le_length (Nat.le_of_lt h)]

theorem linesAux_fuel (f1 f2 : Nat) (s : Str) (h1 : s.length < f1) (h2 : s.length < f2) :
    linesAux f1 s = linesAux f2 s := by
  induction f1 generalizing f2 s with
  | zero => omega
  | succ f1 ih =>
    cases f2 with
    | zero => omega
    | succ f2 =>
      simp only [linesAux]
      split
      · next hp =>
        have hla : 0 < lineAdvance s := by unfold lineAdvance; omega
        have hle := lineAdvance_le s
        have hs : s ≠ [] := by
          intro hs; subst hs; simp [lineAdvance, lineLength, newLineLength, HasPrefix] at hla
        have hlen : 0 < s.length := List.length_pos.mpr hs
        have hd : (s.drop (lineAdvance s)).length < s.length := by
          simp only [List.length_drop]; omega
        rw [ih f2 _ (by omega) (by omega)]
      · rfl

theorem firstLine_mem_lines (R : Str) : firstLine R ∈ lines R := by
  unfold lines
  simp only [linesAux]
  split <;> simp

theorem lines_drop_mem (R : Str) (h : 0 < newLineLength (R.drop (lineLength R))) (l : Str)
    (hl : l ∈ lines (R.drop (lineAdvance R))) : l ∈ lines R := by
  have hla : 0 < lineAdvance R := by unfold lineAdvance; omega
  have hle := lineAdvance_le R
  unfold lines at hl ⊢
  simp only [linesAux, h, if_true, gt_iff_lt]
  rw [linesAux_fuel R.length ((R.drop (lineAdvance R)).length + 1) _
    (by simp only [List.length_drop]; omega) (by omega)]
  exact List.mem_cons_of_mem _ hl

/-- On a text without boundary line the loop `inner` consumes everything and stops at the
end of input. -/
theorem scanCode_no_boundary (n : Nat) (R : Str) (hn : R.length < n)
    (hnb : ∀ l ∈ lines R, isBoundaryLine l = false) :
    scanCode n R = some (R.length, false) := by
  induction n generalizing R with
  | zero => omega
  | succ n ih =>
    rw [scanCode]
    have h1 : isBoundaryLine (firstLine R) = false := hnb _ (firstLine_mem_lines R)
    simp only [h1, Bool.false_eq_true, if_false]
    have hle := lineAdvance_le R
    by_cases he : (R.drop (lineAdvance R)).isEmpty = true
    · simp only [he, if_true, Option.some.injEq, Prod.mk.injEq, and_true]
      have : R.length ≤ lineAdvance R := by simpa using he
      omega
    · simp only [he, Bool.false_eq_true, if_false]
      have hne : R.drop (lineAdvance R) ≠ [] := by simpa using he
      have hlt : lineAdvance R < R.length := by
        rcases Nat.lt_or_ge (lineAdvance R) R.length with h | h
        · exact h
        · exact absurd (List.drop_eq_nil_of_le h) hne
      have hnl : 0 < newLineLength (R.drop (lineLength R)) := by
        rcases lineLength_stop R with h0 | h0
        · exfalso
          have := congrArg List.length h0
          simp only [List.length_drop, List.length_nil] at this
          unfold lineAdvance at hlt
          have := newLineLength_le (R.drop (lineLength R))
          rw [h0] at this
          simp at this
          omega
        · exact h0
      have hla : 0 < lineAdvance R := by unfold lineAdvance; omega
      rw [ih (R.drop (lineAdvance R)) (by simp only [List.length_drop]; omega)
        (fun l hl => hnb l (lines_drop_mem R hnl l hl))]
      simp only [Option.map_some', List.length_drop, Option.some.injEq, Prod.mk.injEq, and_true]
      omega

/-- On complete, boundary-free lines `C` followed by a text `D` whose first line is a
boundary line, the loop `inner` consumes exactly `C` and stops at the boundary. -/
theorem scanCode_code_then_boundary (n : Nat) (C D : Str) (hn : C.length < n)
    (hC : C = [] ∨ C.getLast? = some '\n')
    (hnb : ∀ l ∈ lines C, isBoundaryLine l = false)
    (hD : isBoundaryLine (firstLine D) = true) :
    scanCode n (C ++ D) = some (C.length, true) := by
  induction n generalizing C with
  | zero => omega
  | succ n ih =>
    rw [scanCode]
    by_cases hCe : C = []
    · subst hCe
      simp [hD]
    · have hlast : C.getLast? = some '\n' := by
        rcases hC with h | h
        · exact absurd h hCe
        · exact h
      have hmem : '\n' ∈ C := by
        obtain ⟨ys, hys⟩ := List.getLast?_eq_some_iff.mp hlast
        rw [hys]; simp
      have hll := lineLength_lt_of_mem C hmem
      obtain ⟨e1, e2, hnl⟩ := lineAdvance_append C D hll
      have hle := lineAdvance_le C
      have hla : 0 < lineAdvance C := by unfold lineAdvance; omega
      have h1 : isBoundaryLine (firstLine C) = false := hnb _ (firstLine_mem_lines C)
      have hDne : D ≠ [] := by
        intro hD0; subst hD0
        simp [firstLine, lineLength, isBoundaryLine, HasPrefix, HasSuffix] at hD
      have hdrop : (C ++ D).drop (lineAdvance C) = C.drop (lineAdvance C) ++ D :=
        List.drop_append_of_le_length hle
      have hne : ((C.drop (lineAdvance C) ++ D).isEmpty) = false := by
        cases h : C.drop (lineAdvance C) ++ D with
        | nil =>
          have := List.append_eq_nil.mp h
          exact absurd this.2 hDne
        | cons a b => rfl
      simp only [e1, e2, h1, Bool.false_eq_true, if_false, hdrop, hne]
      have hC' : C.drop (lineAdvance C) = [] ∨ (C.drop (lineAdvance C)).getLast? = some '\n' := by
        by_cases hd : C.length ≤ lineAdvance C
        · left; exact List.drop_eq_nil_of_le hd
        · right
          rw [List.getLast?_drop, if_neg hd]; exact hlast
      rw [ih (C.drop (lineAdvance C)) (by simp only [List.length_drop]; omega) hC'
        (fun l hl => hnb l (lines_drop_mem C hnl l hl))]
      simp only [Option.map_some', List.length_drop, Option.some.injEq, Prod.mk.injEq, and_true]
      omega

/-- The loop `inner` always ends within the iterations `innerFuel` grants it. -/
theorem innerLoop_terminates {T C S G : Type} (posFrom : Position)
    (tf : TemplateFile T C S G) (pi : Input) (code : Str) :
    ∃ ex, innerLoop posFrom (innerFuel pi) tf pi code = some ex := by
  obtain ⟨kb, hkb⟩ := scanCode_total (innerFuel pi) pi.rest (by unfold innerFuel; omega)
  rw [innerLoop_eq_scan, hkb]
  exact ⟨_, rfl⟩

/-! ## One iteration of the loop `outer` -/

section OuterBody
variable {T C S G : Type}

/-- The ways one iteration of the loop `outer` can end: a collaborator's error is returned
with the document unchanged; a declaration node is appended and whitespace skipped; or all
three declaration parsers decline and the loop `inner` runs from the cursor they leave. -/
theorem outerBody_cases (env : Env T C S G) (tf : TemplateFile T C S G) (pi : Input)
    (fl : Flow T C S G) (h : outerBody env tf pi = some fl) :
    (∃ e, fl = .ret ⟨tf, false, some e⟩ ∧ env.Raises e) ∨
    (∃ (nd : Node T C S) (q : Input), nd.isCode = false ∧
      fl = .next { tf with Nodes := tf.Nodes ++ [nd] }
        (q.Seek (env.OptionalWhitespace q).idx)) ∨
    (∃ k b,
      (env.template pi).ok = false ∧ (env.template pi).err = none ∧
      (env.cssParser (pi.Seek (env.template pi).idx)).ok = false ∧
      (env.cssParser (pi.Seek (env.template pi).idx)).err = none ∧
      (env.scriptTemplateParser
        ((pi.Seek (env.template pi).idx).Seek
          (env.cssParser (pi.Seek (env.template pi).idx)).idx)).ok = false ∧
      (env.scriptTemplateParser
        ((pi.Seek (env.template pi).idx).Seek
          (env.cssParser (pi.Seek (env.template pi).idx)).idx)).err = none ∧
      ∃ pi3, pi3 = (((pi.Seek (env.template pi).idx).Seek
          (env.cssParser (pi.Seek (env.template pi).idx)).idx).Seek
            (env.scriptTemplateParser
              ((pi.Seek (env.template pi).idx).Seek
                (env.cssParser (pi.Seek (env.template pi).idx)).idx)).idx) ∧
      scanCode (innerFuel pi3) pi3.rest = some (k, b) ∧
      fl = (if b then
          Flow.next
            (flushCode tf (pi3.rest.take k) pi3.Position
              (Input.mk pi3.s (pi3.charIndex + k)).Position)
            ⟨pi3.s, pi3.charIndex + k⟩
        else
          Flow.ret ⟨flushCode tf (pi3.rest.take k) pi3.Position
              (Input.mk pi3.s (pi3.charIndex + k)).Position, true, none⟩)) := by
  unfold outerBody at h
  simp only at h
  cases he1 : (env.template pi).err with
  | some e =>
    left
    simp only [he1, Option.some.injEq] at h
    exact ⟨e, h.symm, pi, Or.inr (Or.inr (Or.inr (Or.inl he1)))⟩
  | none =>
    simp only [he1] at h
    by_cases hok1 : (env.template pi).ok = true
    · right; left
      simp only [hok1, if_true, Option.some.injEq] at h
      exact ⟨.HTMLTemplate _, _, rfl, h.symm⟩
    · simp only [hok1, Bool.false_eq_true, if_false] at h
      cases he2 : (env.cssParser (pi.Seek (env.template pi).idx)).err with
      | some e =>
        left
        simp only [he2, Option.some.injEq] at h
        exact ⟨e, h.symm, _, Or.inr (Or.inr (Or.inr (Or.inr (Or.inl he2))))⟩
      | none =>
        simp only [he2] at h
        by_cases hok2 : (env.cssParser (pi.Seek (env.template pi).idx)).ok = true
        · right; left
          simp only [hok2, if_true, Option.some.injEq] at h
          exact ⟨.CSSTemplate _, _, rfl, h.symm⟩
        · simp only [hok2, Bool.false_eq_true, if_false] at h
          cases he3 : (env.scriptTemplateParser
              ((pi.Seek (env.template pi).idx).Seek
                (env.cssParser (pi.Seek (env.template pi).idx)).idx)).err with
          | some e =>
            left
            simp only [he3, Option.some.injEq] at h
            exact ⟨e, h.symm, _, Or.inr (Or.inr (Or.inr (Or.inr (Or.inr he3))))⟩
          | none =>
            simp only [he3] at h
            by_cases hok3 : (env.scriptTemplateParser
                ((pi.Seek (env.template pi).idx).Seek
                  (env.cssParser (pi.Seek (env.template pi).idx)).idx)).ok = true
            · right; left
              simp only [hok3, if_true, Option.some.injEq] at h
              exact ⟨.ScriptTemplate _, _, rfl, h.symm⟩
            · simp only [hok3, Bool.false_eq_true, if_false] at h
              right; right
              rw [innerLoop_eq_scan] at h
              have hok1' : (env.template pi).ok = false := by simpa using hok1
              have hok2' : (env.cssParser (pi.Seek (env.template pi).idx)).ok = false := by
                simpa using hok2
              have hok3' : (env.scriptTemplateParser
                  ((pi.Seek (env.template pi).idx).Seek
                    (env.cssParser (pi.Seek (env.template pi).idx)).idx)).ok = false := by
                simpa using hok3
              generalize (((pi.Seek (env.template pi).idx).Seek
                (env.cssParser (pi.Seek (env.template pi).idx)).idx).Seek
                  (env.scriptTemplateParser
                    ((pi.Seek (env.template pi).idx).Seek
                      (env.cssParser (pi.Seek (env.template pi).idx)).idx)).idx) = pi3 at h ⊢
              cases hs : scanCode (innerFuel pi3) pi3.rest with
              | none => simp [hs] at h
              | some kb =>
                obtain ⟨k, b⟩ := kb
                simp only [hs, Option.map_some', List.nil_append] at h
                refine ⟨k, b, hok1', rfl, hok2', rfl, hok3', rfl, pi3, rfl, hs, ?_⟩
                cases b <;> simp_all

/-- One iteration of the loop `outer` at a cursor where the three declaration parsers
decline: the loop `inner` runs from that cursor. -/
theorem outerBody_declines (env : Env T C S G) (tf : TemplateFile T C S G) (pi : Input)
    (ht : Declines env.template pi) (hc : Declines env.cssParser pi)
    (hs : Declines env.scriptTemplateParser pi) :
    outerBody env tf pi =
      (scanCode (innerFuel pi) pi.rest).map (fun kb =>
        if kb.2 then
          Flow.next
            (flushCode tf (pi.rest.take kb.1) pi.Position
              (Input.mk pi.s (pi.charIndex + kb.1)).Position)
            ⟨pi.s, pi.charIndex + kb.1⟩
        else
          Flow.ret ⟨flushCode tf (pi.rest.take kb.1) pi.Position
              (Input.mk pi.s (pi.charIndex + kb.1)).Position, true, none⟩) := by
  unfold outerBody
  simp only [ht.1, ht.2.1, ht.2.2, hc.1, hc.2.1, hc.2.2, hs.1, hs.2.1, hs.2.2,
    Bool.false_eq_true, if_false, innerLoop_eq_scan, List.nil_append]
  cases scanCode (innerFuel pi) pi.rest with
  | none => rfl
  | some kb =>
    obtain ⟨k, b⟩ := kb
    cases b <;> rfl

/-- One iteration of the loop `outer` at a cursor where `template` matches. -/
theorem outerBody_template (env : Env T C S G) (tf : TemplateFile T C S G) (pi : Input)
    (hok : (env.template pi).ok = true) (herr : (env.template pi).err = none) :
    outerBody env tf pi =
      some (.next { tf with Nodes := tf.Nodes ++ [.HTMLTemplate (env.template pi).val] }
        ((pi.Seek (env.template pi).idx).Seek
          (env.OptionalWhitespace (pi.Seek (env.template pi).idx)).idx)) := by
  unfold outerBody
  simp only [hok, herr, if_true]

end OuterBody

/-! ## Invariants of the loops -/

section Loops
variable {T C S G : Type}

/-- Invariant rule for the loop `outer`: a property kept by every iteration that continues,
and giving `Post` at every `return`, gives `Post` for whatever the loop returns. -/
theorem bodyLoop_inv (env : Env T C S G) (Inv : TemplateFile T C S G → Input → Prop)
    (Post : Ret T C S G → Prop)
    (hstep : ∀ tf pi fl, Inv tf pi → outerBody env tf pi = some fl →
      match fl with
      | .ret r => Post r
      | .next tf' pi' => Inv tf' pi') :
    ∀ fuel tf pi r, Inv tf pi → bodyLoop env fuel tf pi = some r → Post r := by
  intro fuel
  induction fuel with
  | zero => intro tf pi r _ h; simp [bodyLoop] at h
  | succ fuel ih =>
    intro tf pi r hinv h
    rw [bodyLoop] at h
    cases hb : outerBody env tf pi with
    | none => simp [hb] at h
    | some fl =>
      have hs := hstep tf pi fl hinv hb
      cases fl with
      | ret r' =>
        simp only [hb, Option.some.injEq] at h
        subst h; exact hs
      | next tf' pi' =>
        simp only [hb] at h
        exact ih tf' pi' r hs h

theorem flushCode_Header (tf : TemplateFile T C S G) (code : Str) (a b : Position) :
    (flushCode tf code a b).Header = tf.Header := by
  unfold flushCode; split <;> rfl

theorem flushCode_Package (tf : TemplateFile T C S G) (code : Str) (a b : Position) :
    (flushCode tf code a b).Package = tf.Package := by
  unfold flushCode; split <;> rfl

/-- The loop `outer` only appends to `Nodes`: header and package are what they were. -/
theorem bodyLoop_frame (env : Env T C S G) (fuel : Nat) (tf : TemplateFile T C S G)
    (pi : Input) (r : Ret T C S G) (h : bodyLoop env fuel tf pi = some r) :
    r.tf.Header = tf.Header ∧ r.tf.Package = tf.Package := by
  refine bodyLoop_inv env (fun tf' _ => tf'.Header = tf.Header ∧ tf'.Package = tf.Package)
    (fun r => r.tf.Header = tf.Header ∧ r.tf.Package = tf.Package) ?_ fuel tf pi r
    ⟨rfl, rfl⟩ h
  intro tf' pi' fl hinv hfl
  rcases outerBody_cases env tf' pi' fl hfl with ⟨e, rfl, _⟩ | ⟨nd, q, _, rfl⟩ |
    ⟨k, b, _, _, _, _, _, _, pi3, _, _, rfl⟩
  · exact hinv
  · exact hinv
  · cases b <;> simpa [flushCode_Header, flushCode_Package] using hinv

/-- What the loop `outer` returns: a collaborator's error with `ok = false`, or success. -/
theorem bodyLoop_result (env : Env T C S G) (fuel : Nat) (tf : TemplateFile T C S G)
    (pi : Input) (r : Ret T C S G) (h : bodyLoop env fuel tf pi = some r) :
    (r.ok = false ∧ ∃ e, r.err = some e ∧ env.Raises e) ∨ (r.ok = true ∧ r.err = none) := by
  refine bodyLoop_inv env (fun _ _ => True)
    (fun r => (r.ok = false ∧ ∃ e, r.err = some e ∧ env.Raises e) ∨
      (r.ok = true ∧ r.err = none)) ?_ fuel tf pi r trivial h
  intro tf' pi' fl _ hfl
  rcases outerBody_cases env tf' pi' fl hfl with ⟨e, rfl, he⟩ | ⟨nd, q, _, rfl⟩ |
    ⟨k, b, _, _, _, _, _, _, pi3, _, _, rfl⟩
  · exact Or.inl ⟨rfl, e, rfl, he⟩
  · trivial
  · cases b
    · exact Or.inr ⟨rfl, rfl⟩
    · trivial

/-- The header loop only appends to `Header`; when it makes `Parse` return, it is with a
collaborator's error and `ok = false`. -/
theorem headerLoop_spec (env : Env T C S G) (fuel : Nat) (tf : TemplateFile T C S G)
    (pi : Input) (fl : Flow T C S G) (h : headerLoop env fuel tf pi = some fl) :
    match fl with
    | .ret r => r.ok = false ∧ (∃ e, r.err = some e ∧ env.Raises e) ∧
        r.tf.Package = tf.Package ∧ r.tf.Nodes = tf.Nodes ∧
        ∃ items, r.tf.Header = tf.Header ++ items
    | .next tf' _ => tf'.Package = tf.Package ∧ tf'.Nodes = tf.Nodes ∧
        ∃ items, tf'.Header = tf.Header ++ items := by
  induction fuel generalizing tf pi with
  | zero => simp [headerLoop] at h
  | succ fuel ih =>
    rw [headerLoop] at h
    simp only at h
    cases he1 : (env.Whitespace pi).err with
    | some e =>
      simp only [he1, Option.some.injEq] at h
      subst h
      exact ⟨rfl, ⟨e, rfl, pi, Or.inl he1⟩, rfl, rfl, [], by simp⟩
    | none =>
      simp only [he1] at h
      by_cases hok1 : (env.Whitespace pi).ok = true
      · simp only [hok1, if_true] at h
        have := ih _ _ h
        cases fl with
        | ret r =>
          obtain ⟨h1, h2, h3, h4, items, h5⟩ := this
          exact ⟨h1, h2, h3, h4, _ :: items, by simpa using h5⟩
        | next tf' pi' =>
          obtain ⟨h3, h4, items, h5⟩ := this
          exact ⟨h3, h4, _ :: items, by simpa using h5⟩
      · simp only [hok1, Bool.false_eq_true, if_false] at h
        cases he2 : (env.goComment (pi.Seek (env.Whitespace pi).idx)).err with
        | some e =>
          simp only [he2, Option.some.injEq] at h
          subst h
          exact ⟨rfl, ⟨e, rfl, _, Or.inr (Or.inl he2)⟩, rfl, rfl, [], by simp⟩
        | none =>
          simp only [he2] at h
          by_cases hok2 : (env.goComment (pi.Seek (env.Whitespace pi).idx)).ok = true
          · simp only [hok2, if_true] at h
            have := ih _ _ h
            cases fl with
            | ret r =>
              obtain ⟨h1, h2, h3, h4, items, h5⟩ := this
              exact ⟨h1, h2, h3, h4, _ :: items, by simpa using h5⟩
            | next tf' pi' =>
              obtain ⟨h3, h4, items, h5⟩ := this
              exact ⟨h3, h4, _ :: items, by simpa using h5⟩
          · simp only [hok2, Bool.false_eq_true, if_false, Option.some.injEq] at h
            subst h
            exact ⟨rfl, rfl, [], by simp⟩

/-- The package section as lines 107-116 leave it, from the result `r` of `pkg`. -/
theorem ParseHead_next (p : TemplateFileParser) (env : Env T C S G) (fuel : Nat)
    (pi : Input) (tf1 : TemplateFile T C S G) (pi1 : Input)
    (h : p.ParseHead env fuel pi = some (.next tf1 pi1)) :
    HasPrefix pi.rest legacyMarker = false ∧
    ∃ tf0 pi0, headerLoop env fuel TemplateFile.zero pi = some (.next tf0 pi0) ∧
      (env.pkg pi0).err = none ∧
      tf1.Header = tf0.Header ∧ tf1.Nodes = [] ∧
      tf1.Package = (if (env.pkg pi0).ok then (env.pkg pi0).val
        else ⟨NewExpression ("package ".toList ++ p.DefaultPackage) pi0.Position
          (pi0.Seek (env.pkg pi0).idx).Position⟩) ∧
      pi1 = (pi0.Seek (env.pkg pi0).idx).Seek
        (env.OptionalWhitespace (pi0.Seek (env.pkg pi0).idx)).idx := by
  unfold TemplateFileParser.ParseHead at h
  simp only [parse.String] at h
  by_cases hl : HasPrefix pi.rest legacyMarker = true
  · simp [hl] at h
  · simp only [hl, Bool.false_eq_true, if_false, Input.Seek_self] at h
    refine ⟨by simpa using hl, ?_⟩
    cases hh : headerLoop env fuel TemplateFile.zero pi with
    | none => simp [hh] at h
    | some fl =>
      cases fl with
      | ret r => simp [hh] at h
      | next tf0 pi0 =>
        simp only [hh] at h
        have hn := headerLoop_spec env fuel _ _ _ hh
        cases he : (env.pkg pi0).err with
        | some e => simp [he] at h
        | none =>
          simp only [he, Option.some.injEq, Flow.next.injEq] at h
          obtain ⟨h1, h2⟩ := h
          refine ⟨tf0, pi0, rfl, he, ?_, ?_, ?_, h2.symm⟩
          · subst h1; split <;> rfl
          · subst h1
            have : tf0.Nodes = [] := hn.2.1
            split <;> simpa using this
          · subst h1
            cases (env.pkg pi0).ok <;> simp

/-- When lines 70-119 make `Parse` return, it is with the legacy error and the zero
document, or with a collaborator's error. -/
theorem ParseHead_ret (p : TemplateFileParser) (env : Env T C S G) (fuel : Nat)
    (pi : Input) (r : Ret T C S G) (h : p.ParseHead env fuel pi = some (.ret r)) :
    r = ⟨TemplateFile.zero, false, some Error.ErrLegacyFileFormat⟩ ∨
    (∃ e, r.err = some e ∧ env.Raises e ∧ r.tf.Nodes = []) := by
  unfold TemplateFileParser.ParseHead at h
  simp only [parse.String] at h
  by_cases hl : HasPrefix pi.rest legacyMarker = true
  · simp only [hl, if_true, Option.some.injEq, Flow.ret.injEq] at h
    exact Or.inl h.symm
  · simp only [hl, Bool.false_eq_true, if_false, Input.Seek_self] at h
    cases hl2 : headerLoop env fuel TemplateFile.zero pi with
    | none => simp [hl2] at h
    | some fl =>
      cases fl with
      | ret r' =>
        simp only [hl2, Option.some.injEq, Flow.ret.injEq] at h
        subst h
        obtain ⟨_, ⟨e, h1, h2⟩, _, h4, _⟩ := headerLoop_spec env fuel _ _ _ hl2
        exact Or.inr ⟨e, h1, h2, h4⟩
      | next tf0 pi0 =>
        simp only [hl2] at h
        have hn : tf0.Nodes = [] := (headerLoop_spec env fuel _ _ _ hl2).2.1
        cases he : (env.pkg pi0).err with
        | none => simp [he] at h
        | some e =>
          simp only [he, Option.some.injEq, Flow.ret.injEq] at h
          subst h
          exact Or.inr ⟨e, rfl, ⟨pi0, Or.inr (Or.inr (Or.inl he))⟩, hn⟩

/-- What `Parse` returns: the legacy error with the zero document, a collaborator's error,
or success. -/
theorem Parse_result (p : TemplateFileParser) (env : Env T C S G) (fuel : Nat)
    (pi : Input) (r : Ret T C S G) (h : p.Parse env fuel pi = some r) :
    r = ⟨TemplateFile.zero, false, some Error.ErrLegacyFileFormat⟩ ∨
    (∃ e, r.err = some e ∧ env.Raises e) ∨ (r.ok = true ∧ r.err = none) := by
  unfold TemplateFileParser.Parse at h
  cases hh : p.ParseHead env fuel pi with
  | none => simp [hh] at h
  | some fl =>
    cases fl with
    | next tf1 pi1 =>
      simp only [hh] at h
      rcases bodyLoop_result env fuel tf1 pi1 r h with ⟨_, h2⟩ | h2
      · exact Or.inr (Or.inl h2)
      · exact Or.inr (Or.inr h2)
    | ret r' =>
      simp only [hh, Option.some.injEq] at h
      subst h
      rcases ParseHead_ret p env fuel pi _ hh with h1 | ⟨e, h1, h2, _⟩
      · exact Or.inl h1
      · exact Or.inr (Or.inl ⟨e, h1, h2⟩)

/-- A successful `Parse` went through the package section and the loop `outer`. -/
theorem Parse_success (p : TemplateFileParser) (env : Env T C S G) (fuel : Nat)
    (pi : Input) (r : Ret T C S G) (h : p.Parse env fuel pi = some r) (hok : r.err = none) :
    ∃ tf1 pi1, p.ParseHead env fuel pi = some (.next tf1 pi1) ∧
      bodyLoop env fuel tf1 pi1 = some r := by
  unfold TemplateFileParser.Parse at h
  cases hh : p.ParseHead env fuel pi with
  | none => simp [hh] at h
  | some fl =>
    cases fl with
    | next tf1 pi1 =>
      simp only [hh] at h
      exact ⟨tf1, pi1, rfl, h⟩
    | ret r' =>
      simp only [hh, Option.some.injEq] at h
      subst h
      rcases ParseHead_ret p env fuel pi _ hh with h1 | ⟨e, h1, _⟩
      · rw [h1] at hok; simp at hok
      · rw [h1] at hok; simp at hok

theorem Input.Seek_empty (k : Nat) : (NewInput []).Seek k = NewInput [] := by
  unfold Input.Seek NewInput
  split
  · rfl
  · next h => simp at h; subst h; rfl

end Loops

/-! ## The legacy check -/

section Legacy
variable {T C S G : Type}

theorem ParseHead_legacy (p : TemplateFileParser) (env : Env T C S G) (fuel : Nat)
    (pi : Input) (h : HasPrefix pi.rest legacyMarker = true) :
    p.ParseHead env fuel pi =
      some (.ret ⟨TemplateFile.zero, false, some Error.ErrLegacyFileFormat⟩) := by
  simp [TemplateFileParser.ParseHead, parse.String, h]

/-- C3: on every input that begins with the legacy marker, whatever follows it and whatever
the collaborators are, `TemplateFileParser.Parse` returns the zero `TemplateFile`,
`ok = false` and `ErrLegacyFileFormat`, and `ParseString` returns the same error. -/
theorem Parse_legacy_marker (p : TemplateFileParser) (env : Env T C S G) (fuel : Nat)
    (tail : Str) :
    (∀ pi : Input, pi.rest = legacyMarker ++ tail →
      p.Parse env fuel pi =
        some ⟨TemplateFile.zero, false, some Error.ErrLegacyFileFormat⟩) ∧
    ParseString env fuel (legacyMarker ++ tail) =
      some (TemplateFile.zero, some Error.ErrLegacyFileFormat) := by
  have key : ∀ (q : TemplateFileParser) (pi : Input), pi.rest = legacyMarker ++ tail →
      q.Parse env fuel pi =
        some ⟨TemplateFile.zero, false, some Error.ErrLegacyFileFormat⟩ := by
    intro q pi hpi
    have h : HasPrefix pi.rest legacyMarker = true := by
      rw [hpi]; simp [HasPrefix]
    simp [TemplateFileParser.Parse, ParseHead_legacy q env fuel pi h]
  refine ⟨key p, ?_⟩
  have h0 : (NewInput (legacyMarker ++ tail)).rest = legacyMarker ++ tail := by
    simp [NewInput, Input.rest]
  simp [ParseString, key _ _ h0]

end Legacy

/-- Witness of C3: the legacy file `{% package foo %}` is rejected, here with no fuel at
all. -/
theorem Parse_legacy_marker_witness :
    (NewTemplateFileParser "main".toList).Parse sampleEnv 0
        (NewInput "\x7b% package foo %\x7d".toList) =
      some ⟨TemplateFile.zero, false, some Error.ErrLegacyFileFormat⟩ ∧
    ParseString sampleEnv 0 "\x7b% package foo %\x7d".toList =
      some (TemplateFile.zero, some Error.ErrLegacyFileFormat) :=
  ⟨(Parse_legacy_marker (NewTemplateFileParser "main".toList) sampleEnv 0 " foo %\x7d".toList).1
      (NewInput "\x7b% package foo %\x7d".toList) (by decide),
   (Parse_legacy_marker (NewTemplateFileParser "main".toList) sampleEnv 0 " foo %\x7d".toList).2⟩

/-! ## The file entry point -/

/-- C5: the file entry point `Parse(fileName)` hands the content to `ParseString`, whose
parser is built with the fixed default `main`: for the path `views/x.templ`, whose parent
directory name `views` is a valid identifier that `getDefaultPackageName` would return, and
a content without package line, the package text is `package main`, not `package views`. -/
theorem Parse_file_package_main :
    getDefaultPackageName sampleStdlib "views/x.templ".toList = "views".toList ∧
    Parse (fun _ => Except.ok "var x = 1".toList) sampleEnv 1 "views/x.templ".toList =
      some (⟨[], ⟨NewExpression "package main".toList ⟨0, 0, 0⟩ ⟨0, 0, 0⟩⟩,
              [.GoExpression (NewExpression "var x = 1".toList ⟨0, 0, 0⟩ ⟨9, 0, 9⟩)]⟩,
            none) := by
  decide

/-! ## The package section and the results of `Parse` -/

section PackageSection
variable {T C S G : Type}

/-- C4: when the header ends at the cursor `pi0` and the package parser declines there
without consuming, a successful `Parse` returns a document whose package text is
`package ` followed by the parser's default package name, with a span that starts and ends
at the position of `pi0`, where the package attempt began. -/
theorem Parse_synthesized_package (p : TemplateFileParser) (env : Env T C S G)
    (fuel : Nat) (pi : Input) (tf0 : TemplateFile T C S G) (pi0 : Input) (r : Ret T C S G)
    (hhdr : headerLoop env fuel TemplateFile.zero pi = some (.next tf0 pi0))
    (hpkg : Declines env.pkg pi0)
    (hret : p.Parse env fuel pi = some r) (hok : r.ok = true ∧ r.err = none) :
    r.tf.Package.Expression.Value = "package ".toList ++ p.DefaultPackage ∧
    r.tf.Package.Expression.Range.From = pi0.Position ∧
    r.tf.Package.Expression.Range.To = pi0.Position := by
  obtain ⟨tf1, pi1, hhead, hbody⟩ := Parse_success p env fuel pi r hret hok.2
  obtain ⟨_, tf0', pi0', hh, _, _, _, hpk, _⟩ := ParseHead_next p env fuel pi tf1 pi1 hhead
  rw [hhdr] at hh
  simp only [Option.some.injEq, Flow.next.injEq] at hh
  obtain ⟨rfl, rfl⟩ := hh
  obtain ⟨h1, _, h3⟩ := hpkg
  rw [h1, h3] at hpk
  have hfr := (bodyLoop_frame env fuel tf1 pi1 r hbody).2
  rw [hfr, hpk]
  simp [NewExpression]

/-- C9: `Parse` returns `ok = false` only together with an error; hence `ParseString`
returns exactly what `Parse` returned and never puts `ErrTemplateNotFound` in its place (it
can only come from a collaborator reporting that very error); and on the empty text, with
collaborators that decline there, `ParseString` returns no error, an empty header, an empty
body and the package text `package main`. -/
theorem ParseString_never_not_found (env : Env T C S G) (fuel : Nat) :
    (∀ (p : TemplateFileParser) (pi : Input) (r : Ret T C S G),
      p.Parse env fuel pi = some r → r.ok = false → r.err ≠ none) ∧
    (∀ (t : Str) (tf : TemplateFile T C S G) (err : Option Error),
      ParseString env fuel t = some (tf, err) →
      ∃ ok, (NewTemplateFileParser "main".toList).Parse env fuel (NewInput t) =
        some ⟨tf, ok, err⟩) ∧
    (∀ (t : Str) (tf : TemplateFile T C S G),
      ParseString env fuel t = some (tf, some Error.ErrTemplateNotFound) →
      env.Raises Error.ErrTemplateNotFound) ∧
    (0 < fuel → Declines env.Whitespace (NewInput []) →
      Declines env.goComment (NewInput []) → Declines env.pkg (NewInput []) →
      Declines env.template (NewInput []) → Declines env.cssParser (NewInput []) →
      Declines env.scriptTemplateParser (NewInput []) →
      ParseString env fuel [] =
        some (⟨[], ⟨NewExpression "package main".toList ⟨0, 0, 0⟩ ⟨0, 0, 0⟩⟩, []⟩, none)) := by
  have h1 : ∀ (p : TemplateFileParser) (pi : Input) (r : Ret T C S G),
      p.Parse env fuel pi = some r → r.ok = false → r.err ≠ none := by
    intro p pi r h hok
    rcases Parse_result p env fuel pi r h with h' | ⟨e, h', _⟩ | ⟨h', _⟩
    · rw [h']; simp
    · rw [h']; simp
    · rw [hok] at h'; simp at h'
  have h2 : ∀ (t : Str) (tf : TemplateFile T C S G) (err : Option Error),
      ParseString env fuel t = some (tf, err) →
      ∃ ok, (NewTemplateFileParser "main".toList).Parse env fuel (NewInput t) =
        some ⟨tf, ok, err⟩ := by
    intro t tf err h
    unfold ParseString at h
    cases hp : (NewTemplateFileParser "main".toList).Parse env fuel (NewInput t) with
    | none => rw [hp] at h; simp at h
    | some r =>
      obtain ⟨tf', ok, err'⟩ := r
      simp only [hp] at h
      cases err' with
      | some e =>
        simp only [Option.some.injEq, Prod.mk.injEq] at h
        exact ⟨ok, by rw [h.1, h.2]⟩
      | none =>
        have hne := h1 _ _ _ hp
        cases ok with
        | false => simp at hne
        | true =>
          simp only [Bool.not_true, Bool.false_eq_true, if_false, Option.some.injEq,
            Prod.mk.injEq] at h
          exact ⟨true, by rw [h.1, h.2]⟩
  refine ⟨h1, h2, ?_, ?_⟩
  · intro t tf h
    obtain ⟨ok, hp⟩ := h2 t tf _ h
    rcases Parse_result _ env fuel _ _ hp with h' | ⟨e, h', hr⟩ | ⟨_, h'⟩
    · simp at h'
    · simp only [Option.some.injEq] at h'
      rw [h']; exact hr
    · simp at h'
  · intro hf hws hc hpk ht hcs hsc
    obtain ⟨n, rfl⟩ : ∃ n, fuel = n + 1 := ⟨fuel - 1, by omega⟩
    have hhead : (NewTemplateFileParser "main".toList).ParseHead env (n + 1) (NewInput []) =
        some (.next ⟨[], ⟨NewExpression "package main".toList ⟨0, 0, 0⟩ ⟨0, 0, 0⟩⟩, []⟩
          (NewInput [])) := by
      have hl : HasPrefix (NewInput []).rest legacyMarker = false := by decide
      unfold TemplateFileParser.ParseHead
      simp only [parse.String, hl, Bool.false_eq_true, if_false, Input.Seek_self, headerLoop,
        hws.1, hws.2.1, hc.1, hc.2.1, hpk.1, hpk.2.1, Input.Seek_empty]
      rfl
    have hbody : outerBody env
        (⟨[], ⟨NewExpression "package main".toList ⟨0, 0, 0⟩ ⟨0, 0, 0⟩⟩, []⟩ :
          TemplateFile T C S G) (NewInput []) =
        some (.ret ⟨⟨[], ⟨NewExpression "package main".toList ⟨0, 0, 0⟩ ⟨0, 0, 0⟩⟩, []⟩,
          true, none⟩) := by
      unfold outerBody
      simp only [ht.1, ht.2.1, hcs.1, hcs.2.1, hsc.1, hsc.2.1, Input.Seek_empty,
        Bool.false_eq_true, if_false]
      rfl
    unfold ParseString TemplateFileParser.Parse
    simp only [hhead, bodyLoop, hbody]
    rfl

end PackageSection

/-- Witness of C4: with the default package `views` and the text `var x = 1`, which has no
package line, the package is `package views` with the zero-length span at index 0. -/
theorem Parse_synthesized_package_witness :
    (NewTemplateFileParser "views".toList).Parse sampleEnv 1 (NewInput "var x = 1".toList) =
      some ⟨⟨[], ⟨NewExpression "package views".toList ⟨0, 0, 0⟩ ⟨0, 0, 0⟩⟩,
        [.GoExpression (NewExpression "var x = 1".toList ⟨0, 0, 0⟩ ⟨9, 0, 9⟩)]⟩, true, none⟩ ∧
    ("package views".toList = "package ".toList ++ "views".toList ∧
      (⟨0, 0, 0⟩ : Position) = (NewInput "var x = 1".toList).Position ∧
      (⟨0, 0, 0⟩ : Position) = (NewInput "var x = 1".toList).Position) :=
  ⟨by decide,
   Parse_synthesized_package (NewTemplateFileParser "views".toList) sampleEnv 1
     (NewInput "var x = 1".toList) TemplateFile.zero (NewInput "var x = 1".toList)
     ⟨⟨[], ⟨NewExpression "package views".toList ⟨0, 0, 0⟩ ⟨0, 0, 0⟩⟩,
        [.GoExpression (NewExpression "var x = 1".toList ⟨0, 0, 0⟩ ⟨9, 0, 9⟩)]⟩, true, none⟩
     (by decide) ⟨by decide, by decide, by decide⟩ (by decide) ⟨rfl, rfl⟩⟩

/-- Witness of C9: with the sample collaborators `ParseString` on the empty text returns the
empty document with `package main` and no error. -/
theorem ParseString_never_not_found_witness :
    ParseString sampleEnv 1 [] =
      some (⟨[], ⟨NewExpression "package main".toList ⟨0, 0, 0⟩ ⟨0, 0, 0⟩⟩, []⟩, none) :=
  (ParseString_never_not_found sampleEnv 1).2.2.2 (by decide)
    ⟨by decide, by decide, by decide⟩ ⟨by decide, by decide, by decide⟩
    ⟨by decide, by decide, by decide⟩ ⟨by decide, by decide, by decide⟩
    ⟨by decide, by decide, by decide⟩ ⟨by decide, by decide, by decide⟩

/-! ## Raw code and boundary lines -/

section RawCode
variable {T C S G : Type}

theorem isBoundaryLine_iff (l : Str) :
    isBoundaryLine l = true ↔
      ((∃ t, l = "templ ".toList ++ t) ∨ (∃ t, l = "css ".toList ++ t) ∨
        (∃ t, l = "script ".toList ++ t)) ∧ l.getLast? = some '\x7b' := by
  have hp : ∀ pre : Str, HasPrefix l pre = true ↔ ∃ t, l = pre ++ t := by
    intro pre
    unfold HasPrefix
    rw [List.isPrefixOf_iff_prefix]
    constructor
    · rintro ⟨t, ht⟩; exact ⟨t, ht.symm⟩
    · rintro ⟨t, ht⟩; exact ⟨t, ht.symm⟩
  have hsuf : HasSuffix l "\x7b".toList = true ↔ l.getLast? = some '\x7b' := by
    unfold HasSuffix
    rw [List.isSuffixOf_iff_suffix, List.getLast?_eq_some_iff]
    constructor
    · rintro ⟨t, ht⟩; exact ⟨t, ht.symm⟩
    · rintro ⟨t, ht⟩; exact ⟨t, ht.symm⟩
  unfold isBoundaryLine
  simp only [Bool.and_eq_true, Bool.or_eq_true, hp, hsuf, or_assoc]

theorem scanCode_nil : scanCode 1 [] = some (0, false) := by decide

/-- The loop `outer` at the end of input, with declaration parsers that decline there,
returns the document as it is. -/
theorem bodyLoop_atEnd (env : Env T C S G) (n : Nat) (tf : TemplateFile T C S G) (s : Str)
    (ht : Declines env.template (Input.atEnd s)) (hc : Declines env.cssParser (Input.atEnd s))
    (hs : Declines env.scriptTemplateParser (Input.atEnd s)) :
    bodyLoop env (n + 1) tf (Input.atEnd s) = some ⟨tf, true, none⟩ := by
  have hr : (Input.atEnd s).rest = [] := by simp [Input.atEnd, Input.rest]
  rw [bodyLoop, outerBody_declines env tf _ ht hc hs]
  simp only [innerFuel, hr, List.length_nil, Nat.zero_add, scanCode_nil, Option.map_some',
    Bool.false_eq_true, if_false, List.take_nil]
  rfl

/-- C10: a line is a boundary exactly when it starts with `templ `, `css ` or `script ` and
its last character is an opening brace, so `templ Foo()` and a line with a space after the
brace are not. When the text `R` left after the package section and its whitespace is not
empty, has no boundary line, and the three declaration parsers decline at its start, `Parse`
returns a body of exactly one `GoExpression` whose text is `TrimSpace R`, spanning from the
start of `R` to the end of input. -/
theorem Parse_non_boundary_lines_are_code (p : TemplateFileParser) (env : Env T C S G)
    (fuel : Nat) (pi : Input) (tf1 : TemplateFile T C S G) (pi1 : Input) :
    (∀ l : Str, isBoundaryLine l = true ↔
      ((∃ t, l = "templ ".toList ++ t) ∨ (∃ t, l = "css ".toList ++ t) ∨
        (∃ t, l = "script ".toList ++ t)) ∧ l.getLast? = some '\x7b') ∧
    isBoundaryLine "templ Foo()".toList = false ∧
    isBoundaryLine "templ Foo() \x7b ".toList = false ∧
    (0 < fuel → p.ParseHead env fuel pi = some (.next tf1 pi1) → pi1.rest ≠ [] →
      (∀ l ∈ lines pi1.rest, isBoundaryLine l = false) →
      Declines env.template pi1 → Declines env.cssParser pi1 →
      Declines env.scriptTemplateParser pi1 →
      p.Parse env fuel pi =
        some ⟨{ tf1 with Nodes :=
            [.GoExpression (NewExpression (TrimSpace pi1.rest) pi1.Position
              (Input.atEnd pi1.s).Position)] }, true, none⟩) := by
  refine ⟨isBoundaryLine_iff, by decide, by decide, ?_⟩
  intro hf hhead hne hnb ht hc hs
  obtain ⟨n, rfl⟩ : ∃ n, fuel = n + 1 := ⟨fuel - 1, by omega⟩
  obtain ⟨_, _, _, _, _, _, hnodes, _, _⟩ := ParseHead_next p env _ pi tf1 pi1 hhead
  have hlen : 0 < pi1.rest.length := List.length_pos.mpr hne
  have hidx : pi1.charIndex + pi1.rest.length = pi1.s.length := by
    simp only [Input.rest, List.length_drop] at hlen ⊢
    omega
  unfold TemplateFileParser.Parse
  simp only [hhead]
  rw [bodyLoop, outerBody_declines env tf1 pi1 ht hc hs,
    scanCode_no_boundary (innerFuel pi1) pi1.rest (by unfold innerFuel; omega) hnb]
  simp only [Option.map_some', Bool.false_eq_true, if_false, List.take_length, hidx, flushCode,
    hlen, gt_iff_lt, if_true, hnodes, List.nil_append]
  rfl

/-- C1: code followed by a declaration. When the text left after the package section and its
whitespace is `C ++ D`, with `C` one or more complete lines none of which is a boundary
line, the three declaration parsers declining at the start of `C`, the first line of `D` a
boundary line, `template` matching at the start of `D` and leaving the cursor at the end of
input, where whitespace skipping stays and the declaration parsers decline, `Parse` returns
a body of exactly two nodes: the `GoExpression` with text `TrimSpace C`, whose span ends
where `D` starts, and the template node. -/
theorem Parse_code_then_declaration (p : TemplateFileParser) (env : Env T C S G)
    (fuel : Nat) (pi : Input) (tf1 : TemplateFile T C S G) (pi1 : Input) (code decl : Str)
    (hfuel : 3 ≤ fuel)
    (hhead : p.ParseHead env fuel pi = some (.next tf1 pi1))
    (hrest : pi1.rest = code ++ decl)
    (hne : code ≠ []) (hlast : code.getLast? = some '\n')
    (hnb : ∀ l ∈ lines code, isBoundaryLine l = false)
    (ht : Declines env.template pi1) (hc : Declines env.cssParser pi1)
    (hs : Declines env.scriptTemplateParser pi1)
    (hD : isBoundaryLine (firstLine decl) = true)
    (hacc : (env.template ⟨pi1.s, pi1.charIndex + code.length⟩).ok = true ∧
      (env.template ⟨pi1.s, pi1.charIndex + code.length⟩).err = none ∧
      (Input.mk pi1.s (pi1.charIndex + code.length)).Seek
        (env.template ⟨pi1.s, pi1.charIndex + code.length⟩).idx = Input.atEnd pi1.s)
    (hws : (Input.atEnd pi1.s).Seek (env.OptionalWhitespace (Input.atEnd pi1.s)).idx =
      Input.atEnd pi1.s)
    (het : Declines env.template (Input.atEnd pi1.s))
    (hec : Declines env.cssParser (Input.atEnd pi1.s))
    (hes : Declines env.scriptTemplateParser (Input.atEnd pi1.s)) :
    p.Parse env fuel pi =
      some ⟨{ tf1 with Nodes :=
          [.GoExpression (NewExpression (TrimSpace code) pi1.Position
            (Input.mk pi1.s (pi1.charIndex + code.length)).Position),
           .HTMLTemplate (env.template ⟨pi1.s, pi1.charIndex + code.length⟩).val] },
        true, none⟩ := by
  obtain ⟨n, rfl⟩ : ∃ n, fuel = n + 3 := ⟨fuel - 3, by omega⟩
  obtain ⟨_, _, _, _, _, _, hnodes, _, _⟩ := ParseHead_next p env _ pi tf1 pi1 hhead
  have hlen : 0 < code.length := List.length_pos.mpr hne
  unfold TemplateFileParser.Parse
  simp only [hhead]
  rw [bodyLoop, outerBody_declines env tf1 pi1 ht hc hs, hrest,
    scanCode_code_then_boundary (innerFuel pi1) code decl
      (by unfold innerFuel; rw [hrest, List.length_append]; omega) (Or.inr hlast) hnb hD]
  simp only [Option.map_some', if_true, List.take_left']
  rw [bodyLoop, outerBody_template env _ _ hacc.1 hacc.2.1]
  simp only [hacc.2.2, hws]
  rw [bodyLoop_atEnd env n _ _ het hec hes]
  simp only [flushCode, hlen, gt_iff_lt, if_true, hnodes, List.nil_append, List.append_assoc,
    List.singleton_append]

end RawCode

/-- Witness of C10: after `var x = 1` the lines `templ Foo()` and `templ Bar() { ` (space
after the brace) are code; the body is one `GoExpression` with the whole trimmed text. -/
theorem Parse_non_boundary_lines_are_code_witness :
    (NewTemplateFileParser "main".toList).Parse sampleEnv 1
        (NewInput "var x = 1\ntempl Foo()\ntempl Bar() \x7b \n".toList) =
      some ⟨⟨[], ⟨NewExpression "package main".toList ⟨0, 0, 0⟩ ⟨0, 0, 0⟩⟩,
        [.GoExpression (NewExpression "var x = 1\ntempl Foo()\ntempl Bar() \x7b".toList
          ⟨0, 0, 0⟩ ⟨37, 3, 0⟩)]⟩, true, none⟩ :=
  (Parse_non_boundary_lines_are_code (NewTemplateFileParser "main".toList) sampleEnv 1
    (NewInput "var x = 1\ntempl Foo()\ntempl Bar() \x7b \n".toList)
    ⟨[], ⟨NewExpression "package main".toList ⟨0, 0, 0⟩ ⟨0, 0, 0⟩⟩, []⟩
    (NewInput "var x = 1\ntempl Foo()\ntempl Bar() \x7b \n".toList)).2.2.2
    (by decide) (by decide) (by decide) (by decide)
    ⟨by decide, by decide, by decide⟩ ⟨by decide, by decide, by decide⟩
    ⟨by decide, by decide, by decide⟩

/-- Witness of C1: the text `var x = 1`, a line feed, then the declaration `templ Foo() {`
with its body gives the code span `var x = 1` followed by the template node. -/
theorem Parse_code_then_declaration_witness :
    (NewTemplateFileParser "main".toList).Parse sampleEnv 3
        (NewInput "var x = 1\ntempl Foo() \x7b\n<div/>\n\x7d".toList) =
      some ⟨⟨[], ⟨NewExpression "package main".toList ⟨0, 0, 0⟩ ⟨0, 0, 0⟩⟩,
        [.GoExpression (NewExpression "var x = 1".toList ⟨0, 0, 0⟩ ⟨10, 1, 0⟩),
         .HTMLTemplate "templ Foo() \x7b\n<div/>\n\x7d".toList]⟩, true, none⟩ :=
  Parse_code_then_declaration (NewTemplateFileParser "main".toList) sampleEnv 3
    (NewInput "var x = 1\ntempl Foo() \x7b\n<div/>\n\x7d".toList)
    ⟨[], ⟨NewExpression "package main".toList ⟨0, 0, 0⟩ ⟨0, 0, 0⟩⟩, []⟩
    (NewInput "var x = 1\ntempl Foo() \x7b\n<div/>\n\x7d".toList)
    "var x = 1\n".toList "templ Foo() \x7b\n<div/>\n\x7d".toList
    (by decide) (by decide) (by decide) (by decide) (by decide) (by decide)
    ⟨by decide, by decide, by decide⟩ ⟨by decide, by decide, by decide⟩
    ⟨by decide, by decide, by decide⟩ (by decide)
    ⟨by decide, by decide, by decide⟩ (by decide)
    ⟨by decide, by decide, by decide⟩ ⟨by decide, by decide, by decide⟩
    ⟨by decide, by decide, by decide⟩

/-! ## Invariants of the body -/

section BodyInvariants
variable {T C S G : Type}

theorem noAdjacentCode_append (l : List (Node T C S)) (x : Node T C S) :
    noAdjacentCode (l ++ [x]) = (noAdjacentCode l && !(endsWithCode l && x.isCode)) := by
  induction l with
  | nil => simp [noAdjacentCode, endsWithCode]
  | cons a t ih =>
    cases t with
    | nil => simp [noAdjacentCode, endsWithCode]
    | cons b u =>
      have e1 : endsWithCode (a :: b :: u) = endsWithCode (b :: u) := by
        simp [endsWithCode, List.getLast?_cons_cons]
      simp only [List.cons_append] at ih ⊢
      simp only [noAdjacentCode, ih, e1, Bool.and_assoc]

theorem endsWithCode_append (l : List (Node T C S)) (x : Node T C S) :
    endsWithCode (l ++ [x]) = x.isCode := by
  simp [endsWithCode]

/-- Declaration parsers that decline without consuming leave the cursor of the iteration
where it was when the loop `inner` starts. -/
theorem Seek_of_declines (env : Env T C S G)
    (hd : NonConsumingOnDecline env.template ∧ NonConsumingOnDecline env.cssParser ∧
      NonConsumingOnDecline env.scriptTemplateParser) (pi : Input)
    (h1 : (env.template pi).ok = false) (h2 : (env.template pi).err = none)
    (h3 : (env.cssParser (pi.Seek (env.template pi).idx)).ok = false)
    (h4 : (env.cssParser (pi.Seek (env.template pi).idx)).err = none)
    (h5 : (env.scriptTemplateParser
        ((pi.Seek (env.template pi).idx).Seek
          (env.cssParser (pi.Seek (env.template pi).idx)).idx)).ok = false)
    (h6 : (env.scriptTemplateParser
        ((pi.Seek (env.template pi).idx).Seek
          (env.cssParser (pi.Seek (env.template pi).idx)).idx)).err = none) :
    (((pi.Seek (env.template pi).idx).Seek
      (env.cssParser (pi.Seek (env.template pi).idx)).idx).Seek
        (env.scriptTemplateParser
          ((pi.Seek (env.template pi).idx).Seek
            (env.cssParser (pi.Seek (env.template pi).idx)).idx)).idx) = pi := by
  have e1 := hd.1 pi h1 h2
  rw [e1] at h3 h4 h5 h6 ⊢
  have e2 := hd.2.1 pi h3 h4
  rw [e2] at h5 h6 ⊢
  exact hd.2.2 pi h5 h6

/-- C6, as the code has it: with declaration parsers that leave the cursor unchanged when
they decline (whatever they match and whatever errors they report), the body of whatever
`Parse` returns never has two `GoExpression` nodes next to each other: a code span flushed
at a boundary line is followed, if at all, by a declaration node. -/
theorem Parse_no_adjacent_code (p : TemplateFileParser) (env : Env T C S G) (fuel : Nat)
    (pi : Input) (r : Ret T C S G)
    (hd : NonConsumingOnDecline env.template ∧ NonConsumingOnDecline env.cssParser ∧
      NonConsumingOnDecline env.scriptTemplateParser)
    (h : p.Parse env fuel pi = some r) :
    noAdjacentCode r.tf.Nodes = true := by
  unfold TemplateFileParser.Parse at h
  cases hh : p.ParseHead env fuel pi with
  | none => simp [hh] at h
  | some fl =>
    cases fl with
    | ret r' =>
      simp only [hh, Option.some.injEq] at h
      subst h
      rcases ParseHead_ret p env fuel pi _ hh with h1 | ⟨e, _, _, h1⟩
      · rw [h1]; rfl
      · rw [h1]; rfl
    | next tf1 pi1 =>
      simp only [hh] at h
      obtain ⟨_, _, _, _, _, _, hnodes, _, _⟩ := ParseHead_next p env fuel pi tf1 pi1 hh
      refine bodyLoop_inv env
        (fun tf q => noAdjacentCode tf.Nodes = true ∧
          (endsWithCode tf.Nodes = true → isBoundaryLine (firstLine q.rest) = true))
        (fun r => noAdjacentCode r.tf.Nodes = true) ?_ fuel tf1 pi1 r
        ⟨by rw [hnodes]; rfl, by rw [hnodes]; intro hc; simp [endsWithCode] at hc⟩ h
      intro tf q fl hinv hfl
      rcases outerBody_cases env tf q fl hfl with ⟨e, rfl, _⟩ | ⟨nd, q', hnd, rfl⟩ |
        ⟨k, b, h1, h2, h3, h4, h5, h6, pi3, hpi3, hscan, rfl⟩
      · exact hinv.1
      · refine ⟨?_, ?_⟩
        · simp only [noAdjacentCode_append, hinv.1, hnd, Bool.and_false, Bool.not_false,
            Bool.and_self]
        · simp only [endsWithCode_append, hnd, Bool.false_eq_true, false_implies]
      · rw [Seek_of_declines env hd q h1 h2 h3 h4 h5 h6] at hpi3
        subst hpi3
        have hflush : noAdjacentCode
            (flushCode tf (pi3.rest.take k) pi3.Position
              (Input.mk pi3.s (pi3.charIndex + k)).Position).Nodes = true := by
          by_cases hc : endsWithCode tf.Nodes = true
          · have := scanCode_at_boundary _ _ _ (hinv.2 hc) hscan
            simp only [Prod.mk.injEq] at this
            rw [this.1]
            simp [flushCode, hinv.1]
          · unfold flushCode
            split
            · simp only [noAdjacentCode_append, hinv.1, hc, Bool.false_and, Bool.not_false,
                Bool.and_self]
            · exact hinv.1
        cases b with
        | false => exact hflush
        | true =>
          refine ⟨hflush, fun _ => ?_⟩
          rw [Input.rest_mk_add]
          exact scanCode_boundary _ _ _ hscan

theorem dropWhile_append_singleton (f : Char → Bool) (l : Str) (c : Char)
    (h : f c = false) : (l ++ [c]).dropWhile f = l.dropWhile f ++ [c] := by
  induction l with
  | nil => simp [List.dropWhile, h]
  | cons a t ih =>
    simp only [List.cons_append, List.dropWhile]
    cases f a <;> simp [ih]

/-- Trimming keeps a leading character that is not white space. -/
theorem TrimSpace_cons (c : Char) (t : Str) (h : IsSpace c = false) :
    ∃ t', TrimSpace (c :: t) = c :: t' := by
  unfold TrimSpace
  rw [List.dropWhile_cons_of_neg (by simp [h]), List.reverse_cons,
    dropWhile_append_singleton IsSpace _ c h]
  exact ⟨(t.reverse.dropWhile IsSpace).reverse, by simp⟩

theorem atNonSpace_of_boundary (R : Str) (h : isBoundaryLine (firstLine R) = true) :
    ∀ c ∈ R.head?, IsSpace c = false := by
  have h1 := ((isBoundaryLine_iff _).mp h).1
  have key : ∀ (pre : Str) (a : Char) (t : Str), firstLine R = (a :: pre) ++ t →
      R.head? = some a := by
    intro pre a t ht
    unfold firstLine at ht
    have := congrArg List.head? ht
    rw [List.head?_take] at this
    split at this
    · simp at this
    · simpa using this
  intro c hc
  rcases h1 with ⟨t, ht⟩ | ⟨t, ht⟩ | ⟨t, ht⟩
  · have := key _ _ t ht
    rw [this] at hc
    simp only [Option.mem_def, Option.some.injEq] at hc
    subst hc; decide
  · have := key _ _ t ht
    rw [this] at hc
    simp only [Option.mem_def, Option.some.injEq] at hc
    subst hc; decide
  · have := key _ _ t ht
    rw [this] at hc
    simp only [Option.mem_def, Option.some.injEq] at hc
    subst hc; decide

/-- With whitespace skipping that stops at a non-space character or at the end of input and
declaration parsers that decline without consuming, the text of every `GoExpression` in the
body starts with a character that is not white space. -/
theorem Parse_code_head (p : TemplateFileParser) (env : Env T C S G) (fuel : Nat)
    (pi : Input) (r : Ret T C S G)
    (hws : ∀ q : Input, (q.Seek (env.OptionalWhitespace q).idx).atNonSpace)
    (hd : NonConsumingOnDecline env.template ∧ NonConsumingOnDecline env.cssParser ∧
      NonConsumingOnDecline env.scriptTemplateParser)
    (h : p.Parse env fuel pi = some r) :
    ∀ e : Expression, Node.GoExpression e ∈ r.tf.Nodes →
      ∃ c t, e.Value = c :: t ∧ IsSpace c = false := by
  unfold TemplateFileParser.Parse at h
  cases hh : p.ParseHead env fuel pi with
  | none => simp [hh] at h
  | some fl =>
    cases fl with
    | ret r' =>
      simp only [hh, Option.some.injEq] at h
      subst h
      rcases ParseHead_ret p env fuel pi _ hh with h1 | ⟨e, _, _, h1⟩
      · rw [h1]; intro e he; simp [TemplateFile.zero] at he
      · rw [h1]; intro e he; simp at he
    | next tf1 pi1 =>
      simp only [hh] at h
      obtain ⟨_, _, _, _, _, _, hnodes, _, hpi1⟩ := ParseHead_next p env fuel pi tf1 pi1 hh
      refine bodyLoop_inv env
        (fun tf q => (∀ e : Expression, Node.GoExpression e ∈ tf.Nodes →
            ∃ c t, e.Value = c :: t ∧ IsSpace c = false) ∧ q.atNonSpace)
        (fun r => ∀ e : Expression, Node.GoExpression e ∈ r.tf.Nodes →
            ∃ c t, e.Value = c :: t ∧ IsSpace c = false)
        ?_ fuel tf1 pi1 r
        ⟨by rw [hnodes]; intro e he; simp at he, by rw [hpi1]; exact hws _⟩ h
      intro tf q fl hinv hfl
      rcases outerBody_cases env tf q fl hfl with ⟨e, rfl, _⟩ | ⟨nd, q', hnd, rfl⟩ |
        ⟨k, b, h1, h2, h3, h4, h5, h6, pi3, hpi3, hscan, rfl⟩
      · exact hinv.1
      · refine ⟨?_, hws q'⟩
        intro e he
        simp only [List.mem_append, List.mem_singleton] at he
        rcases he with he | he
        · exact hinv.1 e he
        · rw [← he] at hnd; simp [Node.isCode] at hnd
      · rw [Seek_of_declines env hd q h1 h2 h3 h4 h5 h6] at hpi3
        subst hpi3
        have hflush : ∀ e : Expression, Node.GoExpression e ∈
            (flushCode tf (pi3.rest.take k) pi3.Position
              (Input.mk pi3.s (pi3.charIndex + k)).Position).Nodes →
              ∃ c t, e.Value = c :: t ∧ IsSpace c = false := by
          intro e he
          unfold flushCode at he
          split at he
          · next hlen =>
            simp only [List.mem_append, List.mem_singleton, Node.GoExpression.injEq] at he
            rcases he with he | he
            · exact hinv.1 e he
            · rw [he]
              simp only [NewExpression]
              cases hR : pi3.rest with
              | nil => rw [hR] at hlen; simp at hlen
              | cons c t =>
                have hc : IsSpace c = false := hinv.2 c (by rw [hR]; simp)
                cases k with
                | zero => simp at hlen
                | succ k =>
                  rw [List.take_succ_cons]
                  obtain ⟨t', ht'⟩ := TrimSpace_cons c (t.take k) hc
                  exact ⟨c, t', ht', hc⟩
          · exact hinv.1 e he
        cases b with
        | false => exact hflush
        | true =>
          refine ⟨hflush, ?_⟩
          unfold Input.atNonSpace
          rw [Input.rest_mk_add]
          exact atNonSpace_of_boundary _ (scanCode_boundary _ _ _ hscan)

/-- C7: when whitespace skipping always leaves the cursor at a non-space character or at the
end of input, and the declaration parsers leave the cursor unchanged when they decline,
every `GoExpression` in the body of whatever `Parse` returns has a non-empty text, and that
text (already trimmed when stored) is still non-empty after `TrimSpace`. -/
theorem Parse_no_empty_code (p : TemplateFileParser) (env : Env T C S G) (fuel : Nat)
    (pi : Input) (r : Ret T C S G)
    (hws : ∀ q : Input, (q.Seek (env.OptionalWhitespace q).idx).atNonSpace)
    (hd : NonConsumingOnDecline env.template ∧ NonConsumingOnDecline env.cssParser ∧
      NonConsumingOnDecline env.scriptTemplateParser)
    (h : p.Parse env fuel pi = some r) :
    ∀ e : Expression, Node.GoExpression e ∈ r.tf.Nodes →
      e.Value ≠ [] ∧ TrimSpace e.Value ≠ [] := by
  intro e he
  obtain ⟨c, t, hv, hc⟩ := Parse_code_head p env fuel pi r hws hd h e he
  obtain ⟨t', ht'⟩ := TrimSpace_cons c t hc
  rw [hv, ht']
  exact ⟨List.cons_ne_nil _ _, List.cons_ne_nil _ _⟩

end BodyInvariants

/-! ## The sample collaborators obey the contract -/

theorem sampleDecl_nonConsuming (kw : Str) : NonConsumingOnDecline (sampleDecl kw) := by
  intro pi hok herr
  unfold sampleDecl at hok herr ⊢
  by_cases h1 : HasPrefix pi.rest kw = true
  · rw [if_pos h1] at hok herr
    by_cases h2 : HasSuffix (pi.rest.take (lineLength pi.rest)) "\x7b".toList = true
    · rw [if_pos h2] at hok; simp at hok
    · rw [if_neg h2] at herr; simp at herr
  · rw [if_neg h1]; exact Input.Seek_self pi

theorem sampleEnv_nonConsuming :
    NonConsumingOnDecline sampleEnv.template ∧ NonConsumingOnDecline sampleEnv.cssParser ∧
      NonConsumingOnDecline sampleEnv.scriptTemplateParser :=
  ⟨sampleDecl_nonConsuming _, sampleDecl_nonConsuming _, sampleDecl_nonConsuming _⟩

theorem drop_length_takeWhile (f : Char → Bool) (l : Str) :
    l.drop (l.takeWhile f).length = l.dropWhile f := by
  induction l with
  | nil => rfl
  | cons a t ih => simp only [List.takeWhile, List.dropWhile]; cases f a <;> simp [ih]

theorem sampleOptionalWhitespace_atNonSpace (q : Input) :
    (q.Seek (sampleEnv.OptionalWhitespace q).idx).atNonSpace := by
  have hle : (q.rest.takeWhile IsSpace).length ≤ q.rest.length := by
    have := congrArg List.length (List.takeWhile_append_dropWhile IsSpace q.rest)
    simp only [List.length_append] at this
    omega
  show (q.Seek (q.charIndex + (q.rest.takeWhile IsSpace).length)).atNonSpace
  rw [Input.Seek_add q _ hle]
  unfold Input.atNonSpace
  rw [Input.rest_mk_add, drop_length_takeWhile]
  intro c hc
  have := List.head?_dropWhile_not IsSpace q.rest
  simp only [Option.mem_def] at hc
  rw [hc] at this
  exact this

/-- Witness of the amended C6: code, a declaration, then code again; the two code spans are
not neighbours. -/
theorem Parse_no_adjacent_code_witness :
    noAdjacentCode
      ([.GoExpression (NewExpression "var x = 1".toList ⟨0, 0, 0⟩ ⟨10, 1, 0⟩),
        .HTMLTemplate "templ Foo() \x7b\n\x7d".toList,
        .GoExpression (NewExpression "var y = 2".toList ⟨26, 3, 0⟩ ⟨35, 3, 9⟩)] :
        List (Node Str Str Str)) = true :=
  Parse_no_adjacent_code (NewTemplateFileParser "main".toList) sampleEnv 3
    (NewInput "var x = 1\ntempl Foo() \x7b\n\x7d\nvar y = 2".toList)
    ⟨⟨[], ⟨NewExpression "package main".toList ⟨0, 0, 0⟩ ⟨0, 0, 0⟩⟩,
      [.GoExpression (NewExpression "var x = 1".toList ⟨0, 0, 0⟩ ⟨10, 1, 0⟩),
        .HTMLTemplate "templ Foo() \x7b\n\x7d".toList,
        .GoExpression (NewExpression "var y = 2".toList ⟨26, 3, 0⟩ ⟨35, 3, 9⟩)]⟩, true, none⟩
    sampleEnv_nonConsuming (by decide)

/-- Witness of C7: in the text `var x = 1`, blank lines, a declaration and a trailing line
feed, the only code span is `var x = 1`; the white space around the declaration gives
none. -/
theorem Parse_no_empty_code_witness :
    (NewExpression "var x = 1".toList ⟨0, 0, 0⟩ ⟨11, 2, 0⟩).Value ≠ [] ∧
    TrimSpace (NewExpression "var x = 1".toList ⟨0, 0, 0⟩ ⟨11, 2, 0⟩).Value ≠ [] :=
  Parse_no_empty_code (NewTemplateFileParser "main".toList) sampleEnv 3
    (NewInput "var x = 1\n\ntempl Foo() \x7b\n\x7d\n".toList)
    ⟨⟨[], ⟨NewExpression "package main".toList ⟨0, 0, 0⟩ ⟨0, 0, 0⟩⟩,
      [.GoExpression (NewExpression "var x = 1".toList ⟨0, 0, 0⟩ ⟨11, 2, 0⟩),
        .HTMLTemplate "templ Foo() \x7b\n\x7d".toList]⟩, true, none⟩
    sampleOptionalWhitespace_atNonSpace sampleEnv_nonConsuming (by decide)
    (NewExpression "var x = 1".toList ⟨0, 0, 0⟩ ⟨11, 2, 0⟩) (by decide)

/-! ## The default package name is an identifier -/

theorem isGoIdentifier_main (lib : Stdlib) : isGoIdentifier lib "main".toList = true := by
  simp [isGoIdentifier, isGoIdentifierLoop, Stdlib.IsLetter, Char.isAlpha, Char.isUpper,
    Char.isLower]

/-- C18: for every file path the default package name passes `isGoIdentifier`: it is a
validated parent directory name or `main`. Hence it is never empty and starts with a letter
or an underscore, not with a digit of the identifier rule. -/
theorem getDefaultPackageName_isGoIdentifier (lib : Stdlib) (fileName : Str) :
    isGoIdentifier lib (getDefaultPackageName lib fileName) = true ∧
    getDefaultPackageName lib fileName ≠ [] ∧
    (∀ c ∈ (getDefaultPackageName lib fileName).head?, lib.IsLetter c = true ∨ c = '_') := by
  have h1 : isGoIdentifier lib (getDefaultPackageName lib fileName) = true := by
    unfold getDefaultPackageName
    by_cases h : isGoIdentifier lib (lib.Base (lib.Dir fileName)) = true
    · simp [h]
    · have hf : isGoIdentifier lib (lib.Base (lib.Dir fileName)) = false := by simpa using h
      simp only [hf, Bool.not_false, if_true]
      exact isGoIdentifier_main lib
  refine ⟨h1, ?_⟩
  rw [isGoIdentifier_eq] at h1
  cases hn : getDefaultPackageName lib fileName with
  | nil => rw [hn] at h1; simp [isBareIdentifier] at h1
  | cons c cs =>
    rw [hn] at h1
    simp only [isBareIdentifier, Bool.and_eq_true, Bool.or_eq_true, beq_iff_eq] at h1
    refine ⟨List.cons_ne_nil _ _, ?_⟩
    intro d hd
    simp only [List.head?_cons, Option.mem_def, Option.some.injEq] at hd
    subst hd
    exact h1.1

/-! ## A file with only a package line -/

section PackageOnly
variable {T C S G : Type}

/-- Lines 70-119 when the header ends at `pi0` and `pkg` matches there. -/
theorem ParseHead_explicit_package (p : TemplateFileParser) (env : Env T C S G) (fuel : Nat)
    (pi : Input) (tf0 : TemplateFile T C S G) (pi0 : Input)
    (hleg : HasPrefix pi.rest legacyMarker = false)
    (hhdr : headerLoop env fuel TemplateFile.zero pi = some (.next tf0 pi0))
    (hok : (env.pkg pi0).ok = true) (herr : (env.pkg pi0).err = none) :
    p.ParseHead env fuel pi =
      some (.next { tf0 with Package := (env.pkg pi0).val }
        ((pi0.Seek (env.pkg pi0).idx).Seek
          (env.OptionalWhitespace (pi0.Seek (env.pkg pi0).idx)).idx)) := by
  unfold TemplateFileParser.ParseHead
  simp only [parse.String, hleg, Bool.false_eq_true, if_false, Input.Seek_self, hhdr, hok,
    herr, Bool.not_true]

/-- C11: package-only input. When the input does not start with the legacy marker, the
header ends at `pi0`, `pkg` matches there, whitespace skipping then reaches the end of input
and the three declaration parsers decline at the end of input, `Parse` succeeds with
`ok = true`, the package returned by `pkg` and an empty body. -/
theorem Parse_package_only (p : TemplateFileParser) (env : Env T C S G) (fuel : Nat)
    (pi : Input) (tf0 : TemplateFile T C S G) (pi0 : Input)
    (hleg : HasPrefix pi.rest legacyMarker = false)
    (hhdr : headerLoop env fuel TemplateFile.zero pi = some (.next tf0 pi0))
    (hpkg : (env.pkg pi0).ok = true ∧ (env.pkg pi0).err = none)
    (hws : (pi0.Seek (env.pkg pi0).idx).Seek
        (env.OptionalWhitespace (pi0.Seek (env.pkg pi0).idx)).idx = Input.atEnd pi0.s)
    (ht : Declines env.template (Input.atEnd pi0.s))
    (hc : Declines env.cssParser (Input.atEnd pi0.s))
    (hs : Declines env.scriptTemplateParser (Input.atEnd pi0.s)) :
    p.Parse env fuel pi =
      some ⟨{ Header := tf0.Header, Package := (env.pkg pi0).val, Nodes := [] },
        true, none⟩ := by
  have hn : tf0.Nodes = [] := (headerLoop_spec env fuel _ _ _ hhdr).2.1
  obtain ⟨n, rfl⟩ : ∃ n, fuel = n + 1 := by
    cases fuel with
    | zero => simp [headerLoop] at hhdr
    | succ n => exact ⟨n, rfl⟩
  unfold TemplateFileParser.Parse
  rw [ParseHead_explicit_package p env _ pi tf0 pi0 hleg hhdr hpkg.1 hpkg.2]
  simp only [hws]
  rw [bodyLoop_atEnd env n _ _ ht hc hs, hn]

end PackageOnly

/-- Witness of C11: the text `package foo` with a line feed gives the package `package foo`
and an empty body. -/
theorem Parse_package_only_witness :
    (NewTemplateFileParser "main".toList).Parse sampleEnv 1
        (NewInput "package foo\n".toList) =
      some ⟨⟨[], ⟨NewExpression "package foo".toList ⟨0, 0, 0⟩ ⟨11, 0, 11⟩⟩, []⟩,
        true, none⟩ :=
  Parse_package_only (NewTemplateFileParser "main".toList) sampleEnv 1
    (NewInput "package foo\n".toList) TemplateFile.zero (NewInput "package foo\n".toList)
    (by decide) (by decide) ⟨by decide, by decide⟩ (by decide)
    ⟨by decide, by decide, by decide⟩ ⟨by decide, by decide, by decide⟩
    ⟨by decide, by decide, by decide⟩

/-! ## Backtracking at a boundary line -/

theorem newLine_of_drop_ne_nil (R : Str) (h : R.drop (lineAdvance R) ≠ []) :
    0 < newLineLength (R.drop (lineLength R)) := by
  rcases lineLength_stop R with h0 | h0
  · exfalso
    apply h
    apply List.drop_eq_nil_of_le
    have := congrArg List.length h0
    simp only [List.length_drop, List.length_nil] at this
    unfold lineAdvance
    omega
  · exact h0

theorem take_newLineLength_last (X : Str) (h : 0 < newLineLength X) :
    (X.take (newLineLength X)).getLast? = some '\n' := by
  unfold newLineLength at h ⊢
  by_cases h1 : HasPrefix X ['\r', '\n'] = true
  · simp only [h1, if_true]
    unfold HasPrefix at h1
    obtain ⟨t, ht⟩ := List.isPrefixOf_iff_prefix.mp h1
    rw [← ht]; rfl
  · by_cases h2 : HasPrefix X ['\n'] = true
    · simp only [h1, h2, Bool.false_eq_true, if_false, if_true]
      unfold HasPrefix at h2
      obtain ⟨t, ht⟩ := List.isPrefixOf_iff_prefix.mp h2
      rw [← ht]; rfl
    · simp [h1, h2] at h

theorem take_lineAdvance_last (R : Str) (h : 0 < newLineLength (R.drop (lineLength R))) :
    (R.take (lineAdvance R)).getLast? = some '\n' := by
  unfold lineAdvance
  rw [List.take_add, List.getLast?_append, take_newLineLength_last _ h]
  rfl

/-- When the loop `inner` stops at a boundary line, the text it consumed is empty or ends
with a line terminator: the cursor stands at the start of a line. -/
theorem scanCode_take_last (n : Nat) (R : Str) (k : Nat)
    (h : scanCode n R = some (k, true)) : k = 0 ∨ (R.take k).getLast? = some '\n' := by
  induction n generalizing R k with
  | zero => simp [scanCode] at h
  | succ n ih =>
    rw [scanCode] at h
    split at h
    · simp only [Option.some.injEq, Prod.mk.injEq, and_true] at h
      exact Or.inl h.symm
    · split at h
      · simp at h
      · next he =>
        have hne : R.drop (lineAdvance R) ≠ [] := by simpa using he
        have hnl := newLine_of_drop_ne_nil R hne
        cases hs : scanCode n (R.drop (lineAdvance R)) with
        | none => simp [hs] at h
        | some kb =>
          obtain ⟨k', b'⟩ := kb
          simp only [hs, Option.map_some', Option.some.injEq, Prod.mk.injEq] at h
          obtain ⟨hk, hb'⟩ := h
          subst hb' hk
          right
          rw [List.take_add, List.getLast?_append]
          rcases ih _ _ hs with h0 | h0
          · subst h0
            simp [take_lineAdvance_last R hnl]
          · rw [h0]; rfl

section Backtracking
variable {T C S G : Type}

/-- C15: backtracking at a boundary. (1) Whenever the loop `inner` ends, it has consumed
some `k` characters of the unread text. If it ends at a boundary line, the cursor is exactly
`k` characters further, at the start of that line (the consumed text is empty or ends with a
line terminator, and the first unread line is the boundary line), and the code flushed there
is the accumulated text with a span from the position where accumulation began to that
cursor. If it ends at the end of input, nothing is left unread and the span ends there.
(2) When the three declaration parsers decline at `pi`, the iteration of the loop `outer`
that stops at a boundary line continues with exactly that document and cursor, so the next
call of `template` is made at the first character of the boundary line. -/
theorem innerLoop_backtracks (env : Env T C S G) (tf : TemplateFile T C S G) (pi : Input) :
    (∀ (posFrom : Position) (n : Nat) (code : Str) (ex : InnerExit T C S G),
      innerLoop posFrom n tf pi code = some ex →
      ∃ k, k ≤ pi.rest.length ∧
        (Input.mk pi.s (pi.charIndex + k)).rest = pi.rest.drop k ∧
        ((ex = .breakInner
            (flushCode tf (code ++ pi.rest.take k) posFrom
              (Input.mk pi.s (pi.charIndex + k)).Position)
            ⟨pi.s, pi.charIndex + k⟩ ∧
          isBoundaryLine (firstLine (pi.rest.drop k)) = true ∧
          (k = 0 ∨ (pi.rest.take k).getLast? = some '\n')) ∨
         (ex = .breakOuter
            (flushCode tf (code ++ pi.rest.take k) posFrom
              (Input.mk pi.s (pi.charIndex + k)).Position)
            ⟨pi.s, pi.charIndex + k⟩ ∧
          pi.rest.drop k = []))) ∧
    (∀ (posFrom posTo : Position) (code : Str), 0 < code.length →
      (flushCode tf code posFrom posTo).Nodes =
        tf.Nodes ++ [.GoExpression ⟨TrimSpace code, ⟨posFrom, posTo⟩⟩]) ∧
    (Declines env.template pi → Declines env.cssParser pi →
      Declines env.scriptTemplateParser pi →
      ∀ k, scanCode (innerFuel pi) pi.rest = some (k, true) →
        outerBody env tf pi =
          some (.next
            (flushCode tf (pi.rest.take k) pi.Position
              (Input.mk pi.s (pi.charIndex + k)).Position)
            ⟨pi.s, pi.charIndex + k⟩) ∧
        ∀ fuel, bodyLoop env (fuel + 1) tf pi =
          bodyLoop env fuel
            (flushCode tf (pi.rest.take k) pi.Position
              (Input.mk pi.s (pi.charIndex + k)).Position)
            ⟨pi.s, pi.charIndex + k⟩) := by
  refine ⟨?_, ?_, ?_⟩
  · intro posFrom n code ex h
    rw [innerLoop_eq_scan] at h
    cases hs : scanCode n pi.rest with
    | none => simp [hs] at h
    | some kb =>
      obtain ⟨k, b⟩ := kb
      simp only [hs, Option.map_some', Option.some.injEq] at h
      refine ⟨k, scanCode_le n _ k b hs, Input.rest_mk_add pi k, ?_⟩
      cases b with
      | true =>
        left
        simp only [if_true] at h
        exact ⟨h.symm, scanCode_boundary n _ k hs, scanCode_take_last n _ k hs⟩
      | false =>
        right
        simp only [Bool.false_eq_true, if_false] at h
        refine ⟨h.symm, ?_⟩
        rw [scanCode_eof n _ k hs]
        exact List.drop_length _
  · intro posFrom posTo code hlen
    simp [flushCode, hlen, NewExpression]
  · intro ht hc hs k hk
    have hob : outerBody env tf pi =
        some (.next
          (flushCode tf (pi.rest.take k) pi.Position
            (Input.mk pi.s (pi.charIndex + k)).Position)
          ⟨pi.s, pi.charIndex + k⟩) := by
      rw [outerBody_declines env tf pi ht hc hs, hk]
      rfl
    refine ⟨hob, ?_⟩
    intro fuel
    rw [bodyLoop, hob]

end Backtracking

/-- Witness of C15: in `var x = 1`, line feed, `templ Foo() {` the loop `inner` consumes the
ten characters of the first line and stops with the cursor at index 10, the start of the
boundary line; the code span runs from index 0 to index 10. -/
theorem innerLoop_backtracks_witness :
    outerBody sampleEnv (TemplateFile.zero : TemplateFile Str Str Str Str)
        (NewInput "var x = 1\ntempl Foo() \x7b\n\x7d".toList) =
      some (.next
        ⟨[], Package.zero,
          [.GoExpression (NewExpression "var x = 1".toList ⟨0, 0, 0⟩ ⟨10, 1, 0⟩)]⟩
        ⟨"var x = 1\ntempl Foo() \x7b\n\x7d".toList, 10⟩) :=
  ((innerLoop_backtracks sampleEnv (TemplateFile.zero : TemplateFile Str Str Str Str)
    (NewInput "var x = 1\ntempl Foo() \x7b\n\x7d".toList)).2.2
    ⟨by decide, by decide, by decide⟩ ⟨by decide, by decide, by decide⟩
    ⟨by decide, by decide, by decide⟩ 10 (by decide)).1

/-! ## The header collector -/

section Header
variable {T C S G : Type}

/-- What the header loop hands over is a run of the header collector. -/
theorem headerLoop_run (env : Env T C S G) (fuel : Nat) (tf : TemplateFile T C S G)
    (pi : Input) (tf' : TemplateFile T C S G) (q : Input)
    (h : headerLoop env fuel tf pi = some (.next tf' q)) :
    ∃ items, HeaderRun env pi items q ∧ tf' = { tf with Header := tf.Header ++ items } := by
  induction fuel generalizing tf pi with
  | zero => simp [headerLoop] at h
  | succ fuel ih =>
    rw [headerLoop] at h
    simp only at h
    cases he1 : (env.Whitespace pi).err with
    | some e => simp [he1] at h
    | none =>
      simp only [he1] at h
      by_cases hok1 : (env.Whitespace pi).ok = true
      · simp only [hok1, if_true] at h
        obtain ⟨items, hrun, htf⟩ := ih _ _ h
        refine ⟨_ :: items, HeaderRun.whitespace pi items q he1 hok1 hrun, ?_⟩
        rw [htf]; simp
      · simp only [hok1, Bool.false_eq_true, if_false] at h
        have hok1' : (env.Whitespace pi).ok = false := by simpa using hok1
        cases he2 : (env.goComment (pi.Seek (env.Whitespace pi).idx)).err with
        | some e => simp [he2] at h
        | none =>
          simp only [he2] at h
          by_cases hok2 : (env.goComment (pi.Seek (env.Whitespace pi).idx)).ok = true
          · simp only [hok2, if_true] at h
            obtain ⟨items, hrun, htf⟩ := ih _ _ h
            refine ⟨_ :: items, HeaderRun.comment pi items q he1 hok1' he2 hok2 hrun, ?_⟩
            rw [htf]; simp
          · simp only [hok2, Bool.false_eq_true, if_false, Option.some.injEq,
              Flow.next.injEq] at h
            have hok2' : (env.goComment (pi.Seek (env.Whitespace pi).idx)).ok = false := by
              simpa using hok2
            obtain ⟨h1, h2⟩ := h
            subst h1 h2
            exact ⟨[], HeaderRun.stop pi he1 hok1' he2 hok2', by simp⟩

/-- A run of the header collector is what the header loop computes, given one iteration
more than there are items. -/
theorem headerLoop_of_run (env : Env T C S G) (pi : Input) (items : List (HeaderItem G))
    (q : Input) (hrun : HeaderRun env pi items q) :
    ∀ (fuel : Nat) (tf : TemplateFile T C S G), items.length < fuel →
      headerLoop env fuel tf pi = some (.next { tf with Header := tf.Header ++ items } q) := by
  induction hrun with
  | stop pi he1 hok1 he2 hok2 =>
    intro fuel tf hf
    obtain ⟨n, rfl⟩ : ∃ n, fuel = n + 1 := ⟨fuel - 1, by omega⟩
    rw [headerLoop]
    simp [he1, hok1, he2, hok2]
  | whitespace pi items q he1 hok1 _ ih =>
    intro fuel tf hf
    simp only [List.length_cons] at hf
    obtain ⟨n, rfl⟩ : ∃ n, fuel = n + 1 := ⟨fuel - 1, by omega⟩
    rw [headerLoop]
    simp only [he1, hok1, if_true]
    rw [ih n _ (by omega)]
    simp
  | comment pi items q he1 hok1 he2 hok2 _ ih =>
    intro fuel tf hf
    simp only [List.length_cons] at hf
    obtain ⟨n, rfl⟩ : ∃ n, fuel = n + 1 := ⟨fuel - 1, by omega⟩
    rw [headerLoop]
    simp only [he1, hok1, he2, hok2, Bool.false_eq_true, if_false, if_true]
    rw [ih n _ (by omega)]
    simp

/-- A run of the header collector ends at a cursor where the whitespace lexer and then the
comment lexer decline. -/
theorem HeaderRun_stops (env : Env T C S G) (pi : Input) (items : List (HeaderItem G))
    (q : Input) (hrun : HeaderRun env pi items q) :
    ∃ q0, (env.Whitespace q0).ok = false ∧
      (env.goComment (q0.Seek (env.Whitespace q0).idx)).ok = false ∧
      q = (q0.Seek (env.Whitespace q0).idx).Seek
        (env.goComment (q0.Seek (env.Whitespace q0).idx)).idx := by
  induction hrun with
  | stop pi _ hok1 _ hok2 => exact ⟨pi, hok1, hok2, rfl⟩
  | whitespace _ _ _ _ _ _ ih => exact ih
  | comment _ _ _ _ _ _ _ _ ih => exact ih

/-- C16: header collection. (1) When `Parse` gets past the package section, the header of
the document is exactly the sequence of whitespace and comment items matched, in order,
from the start of the input; the package attempt is made at the cursor where the collector
stopped; the whitespace after the package section is skipped by moving the cursor only, and
whatever `Parse` then returns has that same header. (2) The collector stops at the first
cursor where the whitespace lexer and the comment lexer both decline. (3) Conversely the
header loop returns every such run, given one iteration more than there are items. -/
theorem Parse_header_collection (p : TemplateFileParser) (env : Env T C S G) (fuel : Nat)
    (pi : Input) :
    (∀ (tf1 : TemplateFile T C S G) (pi1 : Input),
      p.ParseHead env fuel pi = some (.next tf1 pi1) →
      ∃ pi0, HeaderRun env pi tf1.Header pi0 ∧
        pi1 = (pi0.Seek (env.pkg pi0).idx).Seek
          (env.OptionalWhitespace (pi0.Seek (env.pkg pi0).idx)).idx ∧
        ∀ r, p.Parse env fuel pi = some r → r.tf.Header = tf1.Header) ∧
    (∀ (items : List (HeaderItem G)) (q : Input), HeaderRun env pi items q →
      ∃ q0, (env.Whitespace q0).ok = false ∧
        (env.goComment (q0.Seek (env.Whitespace q0).idx)).ok = false ∧
        q = (q0.Seek (env.Whitespace q0).idx).Seek
          (env.goComment (q0.Seek (env.Whitespace q0).idx)).idx) ∧
    (∀ (items : List (HeaderItem G)) (q : Input) (n : Nat) (tf : TemplateFile T C S G),
      HeaderRun env pi items q → items.length < n →
      headerLoop env n tf pi = some (.next { tf with Header := tf.Header ++ items } q)) := by
  refine ⟨?_, fun items q h => HeaderRun_stops env pi items q h,
    fun items q n tf h hn => headerLoop_of_run env pi items q h n tf hn⟩
  intro tf1 pi1 hhead
  obtain ⟨_, tf0, pi0, hh, _, hhdr, _, _, hpi1⟩ := ParseHead_next p env fuel pi tf1 pi1 hhead
  obtain ⟨items, hrun, htf⟩ := headerLoop_run env fuel _ pi tf0 pi0 hh
  refine ⟨pi0, ?_, hpi1, ?_⟩
  · rw [hhdr, htf]
    simpa [TemplateFile.zero] using hrun
  · intro r hr
    unfold TemplateFileParser.Parse at hr
    simp only [hhead] at hr
    exact (bodyLoop_frame env fuel tf1 pi1 r hr).1

end Header

/-- Witness of C16: a comment line, a line feed, the package line, a blank line and code.
The header is the comment and the line feed; the blank line after the package is not in
it. -/
theorem Parse_header_collection_witness :
    ∃ pi0, HeaderRun sampleEnv (NewInput "// hi\npackage foo\n\nvar x".toList)
        [.comment "// hi".toList, .whitespace ⟨"\n".toList⟩] pi0 ∧
      (⟨"// hi\npackage foo\n\nvar x".toList, 19⟩ : Input) =
        (pi0.Seek (sampleEnv.pkg pi0).idx).Seek
          (sampleEnv.OptionalWhitespace (pi0.Seek (sampleEnv.pkg pi0).idx)).idx ∧
      ∀ r, (NewTemplateFileParser "main".toList).Parse sampleEnv 3
          (NewInput "// hi\npackage foo\n\nvar x".toList) = some r →
        r.tf.Header = [.comment "// hi".toList, .whitespace ⟨"\n".toList⟩] :=
  (Parse_header_collection (NewTemplateFileParser "main".toList) sampleEnv 3
    (NewInput "// hi\npackage foo\n\nvar x".toList)).1
    ⟨[.comment "// hi".toList, .whitespace ⟨"\n".toList⟩],
      ⟨NewExpression "package foo".toList ⟨6, 1, 0⟩ ⟨17, 1, 11⟩⟩, []⟩
    ⟨"// hi\npackage foo\n\nvar x".toList, 19⟩ (by decide)

/-! ## A boundary line that no declaration parser accepts -/

section Stuck
variable {T C S G : Type}

/-- Lines 70-119 when the header ends at `pi0` and `pkg` declines there. -/
theorem ParseHead_default_package (p : TemplateFileParser) (env : Env T C S G) (fuel : Nat)
    (pi : Input) (tf0 : TemplateFile T C S G) (pi0 : Input)
    (hleg : HasPrefix pi.rest legacyMarker = false)
    (hhdr : headerLoop env fuel TemplateFile.zero pi = some (.next tf0 pi0))
    (hpkg : Declines env.pkg pi0) :
    p.ParseHead env fuel pi =
      some (.next
        { tf0 with Package :=
            ⟨NewExpression ("package ".toList ++ p.DefaultPackage) pi0.Position pi0.Position⟩ }
        (pi0.Seek (env.OptionalWhitespace pi0).idx)) := by
  unfold TemplateFileParser.ParseHead
  simp only [parse.String, hleg, Bool.false_eq_true, if_false, Input.Seek_self, hhdr,
    hpkg.1, hpkg.2.1, hpkg.2.2, Bool.not_false, if_true]

/-- One iteration of the loop `outer` at a boundary line that the three declaration parsers
decline changes neither the document nor the cursor. -/
theorem outerBody_stuck (env : Env T C S G) (tf : TemplateFile T C S G) (pi : Input)
    (ht : Declines env.template pi) (hc : Declines env.cssParser pi)
    (hs : Declines env.scriptTemplateParser pi)
    (hb : isBoundaryLine (firstLine pi.rest) = true) :
    outerBody env tf pi = some (.next tf pi) := by
  rw [outerBody_declines env tf pi ht hc hs]
  have hsc : scanCode (innerFuel pi) pi.rest = some (0, true) := by
    unfold innerFuel
    rw [scanCode]
    simp [hb]
  rw [hsc]
  simp only [Option.map_some', if_true, List.take_zero, Nat.add_zero]
  rfl

/-- At such a boundary line the loop `outer` does not return, whatever the fuel. -/
theorem bodyLoop_stuck (env : Env T C S G) (tf : TemplateFile T C S G) (pi : Input)
    (ht : Declines env.template pi) (hc : Declines env.cssParser pi)
    (hs : Declines env.scriptTemplateParser pi)
    (hb : isBoundaryLine (firstLine pi.rest) = true) :
    ∀ fuel, bodyLoop env fuel tf pi = none := by
  intro fuel
  induction fuel with
  | zero => rfl
  | succ n ih => rw [bodyLoop, outerBody_stuck env tf pi ht hc hs hb]; exact ih

end Stuck

theorem sampleParenDecl_nonConsuming (kw : Str) :
    NonConsumingOnDecline (sampleParenDecl kw) := by
  intro pi hok _
  unfold sampleParenDecl at hok ⊢
  split
  · next h1 => rw [if_pos h1] at hok; simp at hok
  · exact Input.Seek_self pi

theorem blockLength_pos (c : Char) (cs : Str) : 0 < blockLength (c :: cs) := by
  rw [blockLength.eq_def]
  split
  · rename_i h; simp at h
  · omega
  · omega

/-! ## The lines of a code span -/

theorem lines_take_lineAdvance_append (R X : Str)
    (h : 0 < newLineLength (R.drop (lineLength R))) :
    lines (R.take (lineAdvance R) ++ X) = firstLine R :: lines X := by
  have hle := lineAdvance_le R
  have hlen : (R.take (lineAdvance R)).length = lineAdvance R := by
    rw [List.length_take]; omega
  have hpos : 0 < lineAdvance R := by unfold lineAdvance; omega
  have hmem : '\n' ∈ R.take (lineAdvance R) := by
    obtain ⟨ys, hys⟩ := List.getLast?_eq_some_iff.mp (take_lineAdvance_last R h)
    rw [hys]; simp
  have hlt := lineLength_lt_of_mem _ hmem
  have hR : R.take (lineAdvance R) ++ R.drop (lineAdvance R) = R := List.take_append_drop _ _
  obtain ⟨a1, a2, _⟩ := lineAdvance_append (R.take (lineAdvance R)) (R.drop (lineAdvance R)) hlt
  rw [hR] at a1 a2
  obtain ⟨b1, b2, b3⟩ := lineAdvance_append (R.take (lineAdvance R)) X hlt
  have hll := lineLength_append (R.take (lineAdvance R)) X hlt
  have hnl : 0 < newLineLength
      ((R.take (lineAdvance R) ++ X).drop (lineLength (R.take (lineAdvance R) ++ X))) := by
    rw [hll, List.drop_append_of_le_length (Nat.le_of_lt hlt), newLineLength_append _ _ b3]
    exact b3
  have hdrop : (R.take (lineAdvance R) ++ X).drop (lineAdvance (R.take (lineAdvance R) ++ X)) =
      X := by
    have e : lineAdvance (R.take (lineAdvance R) ++ X) = (R.take (lineAdvance R)).length := by
      rw [b1, ← a1]; exact hlen.symm
    rw [e]
    exact List.drop_left _ _
  unfold lines
  rw [linesAux]
  simp only [hnl, gt_iff_lt, if_true, hdrop, b2, ← a2]
  rw [linesAux_fuel (R.take (lineAdvance R) ++ X).length (X.length + 1) X
    (by rw [List.length_append, hlen]; omega) (by omega)]

theorem linesAux_nil (n : Nat) : ∀ l ∈ linesAux n ([] : Str), l = [] := by
  cases n with
  | zero => intro l hl; simp [linesAux] at hl
  | succ n =>
    intro l hl
    have : linesAux (n + 1) ([] : Str) = [[]] := by
      rw [linesAux]; rfl
    rw [this] at hl
    simpa using hl

/-- No line of the text that the loop `inner` consumes is a boundary line. -/
theorem scanCode_lines_take (n : Nat) (R : Str) (k : Nat) (b : Bool)
    (h : scanCode n R = some (k, b)) :
    ∀ l ∈ lines (R.take k), isBoundaryLine l = false := by
  induction n generalizing R k b with
  | zero => simp [scanCode] at h
  | succ n ih =>
    rw [scanCode] at h
    by_cases hb : isBoundaryLine (firstLine R) = true
    · simp only [hb, if_true, Option.some.injEq, Prod.mk.injEq] at h
      rw [← h.1]
      intro l hl
      have : l = [] := linesAux_nil _ l (by simpa [lines] using hl)
      subst this; decide
    · have hb' : isBoundaryLine (firstLine R) = false := by simpa using hb
      simp only [hb, Bool.false_eq_true, if_false] at h
      by_cases he : (R.drop (lineAdvance R)).isEmpty = true
      · simp only [he, if_true, Option.some.injEq, Prod.mk.injEq] at h
        rw [← h.1]
        have hge : R.length ≤ lineAdvance R := by simpa using he
        rw [List.take_of_length_le hge]
        intro l hl
        unfold lines at hl
        rw [linesAux] at hl
        split at hl
        · simp only [List.mem_cons] at hl
          rcases hl with hl | hl
          · rw [hl]; exact hb'
          · rw [List.drop_eq_nil_of_le hge] at hl
            have : l = [] := linesAux_nil _ l hl
            subst this; decide
        · simp only [List.mem_singleton] at hl
          rw [hl]; exact hb'
      · simp only [he, Bool.false_eq_true, if_false] at h
        have hne : R.drop (lineAdvance R) ≠ [] := by simpa using he
        have hnl := newLine_of_drop_ne_nil R hne
        cases hs : scanCode n (R.drop (lineAdvance R)) with
        | none => simp [hs] at h
        | some kb =>
          obtain ⟨k', b'⟩ := kb
          simp only [hs, Option.map_some', Option.some.injEq, Prod.mk.injEq] at h
          rw [← h.1, List.take_add, lines_take_lineAdvance_append R _ hnl]
          intro l hl
          simp only [List.mem_cons] at hl
          rcases hl with hl | hl
          · rw [hl]; exact hb'
          · exact ih _ _ _ hs l hl

section CodeLines
variable {T C S G : Type}

/-- Every `GoExpression` in the body is the `TrimSpace` of a text no line of which is a
boundary line. -/
theorem Parse_code_trimmed (p : TemplateFileParser) (env : Env T C S G) (fuel : Nat)
    (pi : Input) (r : Ret T C S G) (h : p.Parse env fuel pi = some r) :
    ∀ e : Expression, Node.GoExpression e ∈ r.tf.Nodes →
      ∃ code, e.Value = TrimSpace code ∧ ∀ l ∈ lines code, isBoundaryLine l = false := by
  unfold TemplateFileParser.Parse at h
  cases hh : p.ParseHead env fuel pi with
  | none => simp [hh] at h
  | some fl =>
    cases fl with
    | ret r' =>
      simp only [hh, Option.some.injEq] at h
      subst h
      rcases ParseHead_ret p env fuel pi _ hh with h1 | ⟨e, _, _, h1⟩
      · rw [h1]; intro e he; simp [TemplateFile.zero] at he
      · rw [h1]; intro e he; simp at he
    | next tf1 pi1 =>
      simp only [hh] at h
      obtain ⟨_, _, _, _, _, _, hnodes, _, _⟩ := ParseHead_next p env fuel pi tf1 pi1 hh
      refine bodyLoop_inv env
        (fun tf _ => ∀ e : Expression, Node.GoExpression e ∈ tf.Nodes →
          ∃ code, e.Value = TrimSpace code ∧ ∀ l ∈ lines code, isBoundaryLine l = false)
        (fun r => ∀ e : Expression, Node.GoExpression e ∈ r.tf.Nodes →
          ∃ code, e.Value = TrimSpace code ∧ ∀ l ∈ lines code, isBoundaryLine l = false)
        ?_ fuel tf1 pi1 r (by intro e he; rw [hnodes] at he; simp at he) h
      intro tf q fl hinv hfl
      rcases outerBody_cases env tf q fl hfl with ⟨e, rfl, _⟩ | ⟨nd, q', hnd, rfl⟩ |
        ⟨k, b, _, _, _, _, _, _, pi3, _, hscan, rfl⟩
      · exact hinv
      · intro e he
        simp only [List.mem_append, List.mem_singleton] at he
        rcases he with he | he
        · exact hinv e he
        · rw [← he] at hnd; simp [Node.isCode] at hnd
      · have hflush : ∀ e : Expression, Node.GoExpression e ∈
            (flushCode tf (pi3.rest.take k) pi3.Position
              (Input.mk pi3.s (pi3.charIndex + k)).Position).Nodes →
            ∃ code, e.Value = TrimSpace code ∧
              ∀ l ∈ lines code, isBoundaryLine l = false := by
          intro e he
          unfold flushCode at he
          split at he
          · simp only [List.mem_append, List.mem_singleton, Node.GoExpression.injEq] at he
            rcases he with he | he
            · exact hinv e he
            · rw [he]
              exact ⟨pi3.rest.take k, rfl, scanCode_lines_take _ _ k b hscan⟩
          · exact hinv e he
        cases b with
        | false => exact hflush
        | true => exact hflush

end CodeLines

/-- C17 fails as stated: on the text `x`, line feed, `templ Foo() { ` (a space after the
brace) the second line is not a boundary line and is accumulated; trimming removes the
space, and the stored text `x`, line feed, `templ Foo() {` has the boundary line
`templ Foo() {` as its last line. -/
theorem Parse_code_span_with_boundary_line :
    (NewTemplateFileParser "main".toList).Parse sampleEnv 1
        (NewInput "x\ntempl Foo() \x7b ".toList) =
      some ⟨⟨[], ⟨NewExpression "package main".toList ⟨0, 0, 0⟩ ⟨0, 0, 0⟩⟩,
        [.GoExpression (NewExpression "x\ntempl Foo() \x7b".toList ⟨0, 0, 0⟩ ⟨16, 1, 14⟩)]⟩,
        true, none⟩ ∧
    "templ Foo() \x7b".toList ∈ lines "x\ntempl Foo() \x7b".toList ∧
    isBoundaryLine "templ Foo() \x7b".toList = true := by
  decide

/-! ## A legacy file after blank lines -/

section LegacyAfterBlank
variable {T C S G : Type}

/-- When the text left after the package section is not empty, has no boundary line and the
declaration parsers decline at its start, the body is that text as one code span. -/
theorem Parse_of_code_only (p : TemplateFileParser) (env : Env T C S G) (fuel : Nat)
    (pi : Input) (tf1 : TemplateFile T C S G) (pi1 : Input) (hf : 0 < fuel)
    (hhead : p.ParseHead env fuel pi = some (.next tf1 pi1)) (hne : pi1.rest ≠ [])
    (hnb : ∀ l ∈ lines pi1.rest, isBoundaryLine l = false)
    (ht : Declines env.template pi1) (hc : Declines env.cssParser pi1)
    (hs : Declines env.scriptTemplateParser pi1) :
    p.Parse env fuel pi =
      some ⟨{ tf1 with Nodes :=
          [.GoExpression (NewExpression (TrimSpace pi1.rest) pi1.Position
            (Input.atEnd pi1.s).Position)] }, true, none⟩ := by
  obtain ⟨n, rfl⟩ : ∃ n, fuel = n + 1 := ⟨fuel - 1, by omega⟩
  obtain ⟨_, _, _, _, _, _, hnodes, _, _⟩ := ParseHead_next p env _ pi tf1 pi1 hhead
  have hlen : 0 < pi1.rest.length := List.length_pos.mpr hne
  have hidx : pi1.charIndex + pi1.rest.length = pi1.s.length := by
    simp only [Input.rest, List.length_drop] at hlen ⊢
    omega
  unfold TemplateFileParser.Parse
  simp only [hhead]
  rw [bodyLoop, outerBody_declines env tf1 pi1 ht hc hs,
    scanCode_no_boundary (innerFuel pi1) pi1.rest (by unfold innerFuel; omega) hnb]
  simp only [Option.map_some', Bool.false_eq_true, if_false, List.take_length, hidx, flushCode,
    hlen, gt_iff_lt, if_true, hnodes, List.nil_append]
  rfl

/-- On an input that does not start with the legacy marker, `Parse` returns a collaborator's
error or success. -/
theorem Parse_result_of_not_legacy (p : TemplateFileParser) (env : Env T C S G) (fuel : Nat)
    (pi : Input) (r : Ret T C S G) (hl : HasPrefix pi.rest legacyMarker = false)
    (h : p.Parse env fuel pi = some r) :
    (∃ e, r.err = some e ∧ env.Raises e) ∨ (r.ok = true ∧ r.err = none) := by
  unfold TemplateFileParser.Parse at h
  cases hh : p.ParseHead env fuel pi with
  | none => simp [hh] at h
  | some fl =>
    cases fl with
    | next tf1 pi1 =>
      simp only [hh] at h
      rcases bodyLoop_result env fuel tf1 pi1 r h with ⟨_, h2⟩ | h2
      · exact Or.inl h2
      · exact Or.inr h2
    | ret r' =>
      simp only [hh, Option.some.injEq] at h
      subst h
      left
      unfold TemplateFileParser.ParseHead at hh
      simp only [parse.String, hl, Bool.false_eq_true, if_false, Input.Seek_self] at hh
      cases hl2 : headerLoop env fuel TemplateFile.zero pi with
      | none => simp [hl2] at hh
      | some fl =>
        cases fl with
        | ret r0 =>
          simp only [hl2, Option.some.injEq, Flow.ret.injEq] at hh
          subst hh
          exact (headerLoop_spec env fuel _ _ _ hl2).2.1
        | next tf0 pi0 =>
          simp only [hl2] at hh
          cases he : (env.pkg pi0).err with
          | none => simp [he] at hh
          | some e =>
            simp only [he, Option.some.injEq, Flow.ret.injEq] at hh
            subst hh
            exact ⟨e, rfl, pi0, Or.inr (Or.inr (Or.inl he))⟩

theorem not_legacy_of_blank (blank legacy : Str) (hB1 : blank ≠ [])
    (hB2 : ∀ c ∈ blank, IsSpace c = true) :
    HasPrefix (blank ++ legacy) legacyMarker = false := by
  cases blank with
  | nil => exact absurd rfl hB1
  | cons c t =>
    have hc : IsSpace c = true := hB2 c (by simp)
    have hne : ¬ ('\x7b' = c) := by
      intro h; subst h
      exact absurd hc (by decide)
    simp [HasPrefix, legacyMarker, List.isPrefixOf, hne]

/-- C14, as the code has it. The input is white space `blank` (one or more blank lines)
followed by a legacy file `legacy`. (1) `Parse` never puts `ErrLegacyFileFormat` on such an
input: an error it returns is one a collaborator reported. (2) When the whitespace lexer
matches `blank`, every collaborator declines at the start of `legacy` and no line of
`legacy` is a boundary line, `Parse` does not fail: it returns `ok = true` and no error,
with the blank lines as header, the synthesized package and the whole legacy text, trimmed,
as one `GoExpression`. -/
theorem Parse_legacy_after_blank_lines (p : TemplateFileParser) (env : Env T C S G)
    (fuel : Nat) (blank legacy : Str)
    (hB1 : blank ≠ []) (hB2 : ∀ c ∈ blank, IsSpace c = true)
    (hL : HasPrefix legacy legacyMarker = true) :
    (∀ r, p.Parse env fuel (NewInput (blank ++ legacy)) = some r →
      r.err = some Error.ErrLegacyFileFormat → env.Raises Error.ErrLegacyFileFormat) ∧
    (2 ≤ fuel →
      (env.Whitespace (NewInput (blank ++ legacy))).ok = true ∧
        (env.Whitespace (NewInput (blank ++ legacy))).err = none ∧
        (NewInput (blank ++ legacy)).Seek (env.Whitespace (NewInput (blank ++ legacy))).idx =
          ⟨blank ++ legacy, blank.length⟩ →
      Declines env.Whitespace ⟨blank ++ legacy, blank.length⟩ →
      Declines env.goComment ⟨blank ++ legacy, blank.length⟩ →
      Declines env.pkg ⟨blank ++ legacy, blank.length⟩ →
      (Input.mk (blank ++ legacy) blank.length).Seek
        (env.OptionalWhitespace ⟨blank ++ legacy, blank.length⟩).idx =
          ⟨blank ++ legacy, blank.length⟩ →
      Declines env.template ⟨blank ++ legacy, blank.length⟩ →
      Declines env.cssParser ⟨blank ++ legacy, blank.length⟩ →
      Declines env.scriptTemplateParser ⟨blank ++ legacy, blank.length⟩ →
      (∀ l ∈ lines legacy, isBoundaryLine l = false) →
      p.Parse env fuel (NewInput (blank ++ legacy)) =
        some ⟨⟨[.whitespace ⟨(env.Whitespace (NewInput (blank ++ legacy))).val⟩],
            ⟨NewExpression ("package ".toList ++ p.DefaultPackage)
              (Input.mk (blank ++ legacy) blank.length).Position
              (Input.mk (blank ++ legacy) blank.length).Position⟩,
            [.GoExpression (NewExpression (TrimSpace legacy)
              (Input.mk (blank ++ legacy) blank.length).Position
              (Input.atEnd (blank ++ legacy)).Position)]⟩, true, none⟩) := by
  have hleg := not_legacy_of_blank blank legacy hB1 hB2
  have hleg' : HasPrefix (NewInput (blank ++ legacy)).rest legacyMarker = false := by
    simpa [NewInput, Input.rest] using hleg
  constructor
  · intro r hr he
    rcases Parse_result_of_not_legacy p env fuel _ r hleg' hr with ⟨e, h1, h2⟩ | ⟨_, h1⟩
    · rw [h1] at he
      simp only [Option.some.injEq] at he
      rw [← he]; exact h2
    · rw [h1] at he; simp at he
  · intro hf hw1 hw2 hcom hpkg hows ht hc hs hnb
    have hrest : (Input.mk (blank ++ legacy) blank.length).rest = legacy := by
      simp [Input.rest]
    have hLne : legacy ≠ [] := by
      intro h0; subst h0
      simp [HasPrefix, legacyMarker] at hL
    have hrun : HeaderRun env (NewInput (blank ++ legacy))
        [.whitespace ⟨(env.Whitespace (NewInput (blank ++ legacy))).val⟩]
        ⟨blank ++ legacy, blank.length⟩ := by
      refine HeaderRun.whitespace _ _ _ hw1.2.1 hw1.1 ?_
      rw [hw1.2.2]
      have := @HeaderRun.stop T C S G env (Input.mk (blank ++ legacy) blank.length)
        hw2.2.1 hw2.1 (by rw [hw2.2.2]; exact hcom.2.1) (by rw [hw2.2.2]; exact hcom.1)
      rw [hw2.2.2, hcom.2.2] at this
      exact this
    have hhdr := headerLoop_of_run env _ _ _ hrun fuel
      (TemplateFile.zero : TemplateFile T C S G) (by simpa using hf)
    have hhead := ParseHead_default_package p env fuel _ _ _ hleg' hhdr hpkg
    rw [hows] at hhead
    have := Parse_of_code_only p env fuel _ _ _ (by omega) hhead (by rw [hrest]; exact hLne)
      (by rw [hrest]; exact hnb) ht hc hs
    rw [this, hrest]
    rfl

end LegacyAfterBlank

/-- C14 fails as stated: with the sample collaborators, which decline on text starting with
the legacy marker, the text made of a line feed and the legacy line `{% package foo %}` is
parsed successfully, the legacy line becoming a code span; `ParseString` returns no
error. -/
theorem Parse_legacy_after_blank_line_succeeds :
    (NewTemplateFileParser "main".toList).Parse sampleEnv 2
        (NewInput "\n\x7b% package foo %\x7d".toList) =
      some ⟨⟨[.whitespace ⟨"\n".toList⟩],
          ⟨NewExpression "package main".toList ⟨1, 1, 0⟩ ⟨1, 1, 0⟩⟩,
          [.GoExpression (NewExpression "\x7b% package foo %\x7d".toList
            ⟨1, 1, 0⟩ ⟨18, 1, 17⟩)]⟩, true, none⟩ ∧
    (ParseString sampleEnv 2 "\n\x7b% package foo %\x7d".toList).map Prod.snd =
      some none := by
  decide

/-- Witness of the amended C14 on the same text. -/
theorem Parse_legacy_after_blank_lines_witness :
    (NewTemplateFileParser "main".toList).Parse sampleEnv 2
        (NewInput ("\n".toList ++ "\x7b% package foo %\x7d".toList)) =
      some ⟨⟨[.whitespace ⟨"\n".toList⟩],
          ⟨NewExpression "package main".toList ⟨1, 1, 0⟩ ⟨1, 1, 0⟩⟩,
          [.GoExpression (NewExpression "\x7b% package foo %\x7d".toList
            ⟨1, 1, 0⟩ ⟨18, 1, 17⟩)]⟩, true, none⟩ :=
  (Parse_legacy_after_blank_lines (NewTemplateFileParser "main".toList) sampleEnv 2
    "\n".toList "\x7b% package foo %\x7d".toList (by decide) (by decide) (by decide)).2
    (by decide) ⟨by decide, by decide, by decide⟩ ⟨by decide, by decide, by decide⟩
    ⟨by decide, by decide, by decide⟩ ⟨by decide, by decide, by decide⟩ (by decide)
    ⟨by decide, by decide, by decide⟩ ⟨by decide, by decide, by decide⟩
    ⟨by decide, by decide, by decide⟩ (by decide)

/-! ## Parsing the recorded texts again -/

theorem TrimSpace_idem (x : Str) : TrimSpace (TrimSpace x) = TrimSpace x := by
  unfold TrimSpace
  have hsuf : (x.dropWhile IsSpace).reverse.dropWhile IsSpace <:+ (x.dropWhile IsSpace).reverse :=
    List.dropWhile_suffix IsSpace
  have hpre : ((x.dropWhile IsSpace).reverse.dropWhile IsSpace).reverse <+:
      x.dropWhile IsSpace := by
    have := List.reverse_prefix.mpr hsuf
    simpa using this
  have h1 : (((x.dropWhile IsSpace).reverse.dropWhile IsSpace).reverse).dropWhile IsSpace =
      ((x.dropWhile IsSpace).reverse.dropWhile IsSpace).reverse := by
    cases hb : ((x.dropWhile IsSpace).reverse.dropWhile IsSpace).reverse with
    | nil => rfl
    | cons c t =>
      rw [hb] at hpre
      obtain ⟨u, hu⟩ := hpre
      have hh := List.head?_dropWhile_not IsSpace x
      rw [← hu] at hh
      simp only [List.cons_append, List.head?_cons] at hh
      exact List.dropWhile_cons_of_neg (by simp [hh])
  rw [h1, List.reverse_reverse, List.dropWhile_idempotent]

section Reparse
variable {T C S G : Type}

/-- C12, as the code has it: re-parsing with a line feed after the package text. Let a first
parse return a body that is exactly one `GoExpression` `e1`, with a non-empty text no line
of which is a boundary line, and let `t` be the package text, a line feed and the text of
`e1`. When on `t` the header lexers decline at the start, `pkg` matches the package text,
whitespace skipping consumes the line feed and the declaration parsers decline at the start
of the code, then parsing `t` succeeds and yields again exactly one `GoExpression`, with
the same text: the same number of nodes, of the same kinds, in the same order. -/
theorem Parse_reparse_with_line_feed (p : TemplateFileParser) (env : Env T C S G)
    (fuel1 fuel : Nat) (pi : Input) (r1 : Ret T C S G) (e1 : Expression)
    (h1 : p.Parse env fuel1 pi = some r1)
    (hnodes : r1.tf.Nodes = [.GoExpression e1])
    (hV : e1.Value ≠ [])
    (hnb : ∀ l ∈ lines e1.Value, isBoundaryLine l = false)
    (hfuel : 0 < fuel)
    (hleg : HasPrefix (r1.tf.Package.Expression.Value ++ '\n' :: e1.Value) legacyMarker = false)
    (hws : Declines env.Whitespace
      (NewInput (r1.tf.Package.Expression.Value ++ '\n' :: e1.Value)))
    (hcom : Declines env.goComment
      (NewInput (r1.tf.Package.Expression.Value ++ '\n' :: e1.Value)))
    (hpkg : (env.pkg (NewInput (r1.tf.Package.Expression.Value ++ '\n' :: e1.Value))).ok = true ∧
      (env.pkg (NewInput (r1.tf.Package.Expression.Value ++ '\n' :: e1.Value))).err = none ∧
      (NewInput (r1.tf.Package.Expression.Value ++ '\n' :: e1.Value)).Seek
        (env.pkg (NewInput (r1.tf.Package.Expression.Value ++ '\n' :: e1.Value))).idx =
        ⟨r1.tf.Package.Expression.Value ++ '\n' :: e1.Value,
          r1.tf.Package.Expression.Value.length⟩)
    (hows : (Input.mk (r1.tf.Package.Expression.Value ++ '\n' :: e1.Value)
        r1.tf.Package.Expression.Value.length).Seek
        (env.OptionalWhitespace ⟨r1.tf.Package.Expression.Value ++ '\n' :: e1.Value,
          r1.tf.Package.Expression.Value.length⟩).idx =
        ⟨r1.tf.Package.Expression.Value ++ '\n' :: e1.Value,
          r1.tf.Package.Expression.Value.length + 1⟩)
    (ht : Declines env.template ⟨r1.tf.Package.Expression.Value ++ '\n' :: e1.Value,
      r1.tf.Package.Expression.Value.length + 1⟩)
    (hc : Declines env.cssParser ⟨r1.tf.Package.Expression.Value ++ '\n' :: e1.Value,
      r1.tf.Package.Expression.Value.length + 1⟩)
    (hs : Declines env.scriptTemplateParser
      ⟨r1.tf.Package.Expression.Value ++ '\n' :: e1.Value,
        r1.tf.Package.Expression.Value.length + 1⟩) :
    ∃ r2 e2, p.Parse env fuel
        (NewInput (r1.tf.Package.Expression.Value ++ '\n' :: e1.Value)) = some r2 ∧
      r2.ok = true ∧ r2.err = none ∧
      r2.tf.Nodes = [.GoExpression e2] ∧ e2.Value = e1.Value ∧
      r2.tf.Nodes.map Node.kind = r1.tf.Nodes.map Node.kind := by
  obtain ⟨code, hcode, _⟩ := Parse_code_trimmed p env fuel1 pi r1 h1 e1
    (by rw [hnodes]; simp)
  have htrim : TrimSpace e1.Value = e1.Value := by
    rw [hcode]; exact TrimSpace_idem code
  have hrest : (Input.mk (r1.tf.Package.Expression.Value ++ '\n' :: e1.Value)
      (r1.tf.Package.Expression.Value.length + 1)).rest = e1.Value := by
    simp [Input.rest]
  have hrun : HeaderRun env (NewInput (r1.tf.Package.Expression.Value ++ '\n' :: e1.Value)) []
      (NewInput (r1.tf.Package.Expression.Value ++ '\n' :: e1.Value)) := by
    have := @HeaderRun.stop T C S G env
      (NewInput (r1.tf.Package.Expression.Value ++ '\n' :: e1.Value))
      hws.2.1 hws.1 (by rw [hws.2.2]; exact hcom.2.1) (by rw [hws.2.2]; exact hcom.1)
    rw [hws.2.2, hcom.2.2] at this
    exact this
  have hhdr := headerLoop_of_run env _ _ _ hrun fuel
    (TemplateFile.zero : TemplateFile T C S G) (by simpa using hfuel)
  have hhead := ParseHead_explicit_package p env fuel _ _ _
    (by simpa [NewInput, Input.rest] using hleg) hhdr hpkg.1 hpkg.2.1
  rw [hpkg.2.2, hows] at hhead
  have hparse := Parse_of_code_only p env fuel _ _ _ hfuel hhead
    (by rw [hrest]; exact hV) (by rw [hrest]; exact hnb) ht hc hs
  rw [hrest, htrim] at hparse
  exact ⟨_, _, hparse, rfl, rfl, rfl, rfl, by rw [hnodes]; rfl⟩

end Reparse

/-- C12 fails as stated: with the sample collaborators the text `package foo`, line feed,
`x` gives the package `package foo` and one code span `x`; the concatenation of the
recorded texts is `package foox`, and parsing it gives the package `package foox` and an
empty body. -/
theorem Parse_reparse_not_idempotent :
    (NewTemplateFileParser "main".toList).Parse sampleEnv 2
        (NewInput "package foo\nx".toList) =
      some ⟨⟨[], ⟨NewExpression "package foo".toList ⟨0, 0, 0⟩ ⟨11, 0, 11⟩⟩,
        [.GoExpression (NewExpression "x".toList ⟨12, 1, 0⟩ ⟨13, 1, 1⟩)]⟩, true, none⟩ ∧
    recordedText id id id
        (⟨[], ⟨NewExpression "package foo".toList ⟨0, 0, 0⟩ ⟨11, 0, 11⟩⟩,
          [.GoExpression (NewExpression "x".toList ⟨12, 1, 0⟩ ⟨13, 1, 1⟩)]⟩ :
          TemplateFile Str Str Str Str) = "package foox".toList ∧
    (NewTemplateFileParser "main".toList).Parse sampleEnv 2
        (NewInput "package foox".toList) =
      some ⟨⟨[], ⟨NewExpression "package foox".toList ⟨0, 0, 0⟩ ⟨12, 0, 12⟩⟩, []⟩,
        true, none⟩ ∧
    ([] : List (Node Str Str Str)).map Node.kind ≠
      ([.GoExpression (NewExpression "x".toList ⟨12, 1, 0⟩ ⟨13, 1, 1⟩)] :
        List (Node Str Str Str)).map Node.kind := by
  decide

/-- Witness of the amended C12 on the same document: with a line feed between the package
text and the code text, the second parse gives one code span `x` again. -/
theorem Parse_reparse_with_line_feed_witness :
    ∃ r2 e2, (NewTemplateFileParser "main".toList).Parse sampleEnv 1
        (NewInput ("package foo".toList ++ '\n' :: "x".toList)) = some r2 ∧
      r2.ok = true ∧ r2.err = none ∧
      r2.tf.Nodes = [.GoExpression e2] ∧ e2.Value = "x".toList ∧
      r2.tf.Nodes.map Node.kind = [NodeKind.code] :=
  Parse_reparse_with_line_feed (NewTemplateFileParser "main".toList) sampleEnv 2 1
    (NewInput "package foo\nx".toList)
    ⟨⟨[], ⟨NewExpression "package foo".toList ⟨0, 0, 0⟩ ⟨11, 0, 11⟩⟩,
      [.GoExpression (NewExpression "x".toList ⟨12, 1, 0⟩ ⟨13, 1, 1⟩)]⟩, true, none⟩
    (NewExpression "x".toList ⟨12, 1, 0⟩ ⟨13, 1, 1⟩)
    (by decide) rfl (by decide) (by decide) (by decide) (by decide)
    ⟨by decide, by decide, by decide⟩ ⟨by decide, by decide, by decide⟩
    ⟨by decide, by decide, by decide⟩ (by decide)
    ⟨by decide, by decide, by decide⟩ ⟨by decide, by decide, by decide⟩
    ⟨by decide, by decide, by decide⟩

/-! ## The dispatcher, iteration by iteration -/

section Dispatch
variable {T C S G : Type}

theorem Input.Seek_s (pi : Input) (k : Nat) : (pi.Seek k).s = pi.s := by
  unfold Input.Seek; split <;> rfl

theorem flushCode_eq_flushed (tf : TemplateFile T C S G) (code : Str) (a b : Position) :
    flushCode tf code a b = { tf with Nodes := tf.Nodes ++ flushed code a b } := by
  unfold flushCode flushed
  split
  · rfl
  · cases tf; simp

/-- One iteration of the loop `outer` is an error of a declaration parser, returned with the
document unchanged; or a step of the dispatcher, whose nodes are appended; or the last
iteration, whose nodes are appended before the successful return. -/
theorem outerBody_dispatch (env : Env T C S G) (tf : TemplateFile T C S G) (pi : Input)
    (fl : Flow T C S G) (h : outerBody env tf pi = some fl) :
    (∃ e, DispatchError env pi e ∧ fl = .ret ⟨tf, false, some e⟩) ∨
    (∃ (ns : List (Node T C S)) (q : Input), DispatchStep env pi ns q ∧
      fl = .next { tf with Nodes := tf.Nodes ++ ns } q) ∨
    (∃ ns : List (Node T C S), DispatchEnd env pi ns ∧
      fl = .ret ⟨{ tf with Nodes := tf.Nodes ++ ns }, true, none⟩) := by
  unfold outerBody at h
  simp only at h
  cases he1 : (env.template pi).err with
  | some e =>
    left
    simp only [he1, Option.some.injEq] at h
    exact ⟨e, Or.inl he1, h.symm⟩
  | none =>
    simp only [he1] at h
    by_cases hok1 : (env.template pi).ok = true
    · right; left
      simp only [hok1, if_true, Option.some.injEq] at h
      exact ⟨_, _, DispatchStep.template pi he1 hok1, h.symm⟩
    · simp only [hok1, Bool.false_eq_true, if_false] at h
      have hok1' : (env.template pi).ok = false := by simpa using hok1
      cases he2 : (env.cssParser (pi.Seek (env.template pi).idx)).err with
      | some e =>
        left
        simp only [he2, Option.some.injEq] at h
        exact ⟨e, Or.inr (Or.inl ⟨he1, hok1', he2⟩), h.symm⟩
      | none =>
        simp only [he2] at h
        by_cases hok2 : (env.cssParser (pi.Seek (env.template pi).idx)).ok = true
        · right; left
          simp only [hok2, if_true, Option.some.injEq] at h
          exact ⟨_, _, DispatchStep.css pi he1 hok1' he2 hok2, h.symm⟩
        · simp only [hok2, Bool.false_eq_true, if_false] at h
          have hok2' : (env.cssParser (pi.Seek (env.template pi).idx)).ok = false := by
            simpa using hok2
          cases he3 : (env.scriptTemplateParser
              ((pi.Seek (env.template pi).idx).Seek
                (env.cssParser (pi.Seek (env.template pi).idx)).idx)).err with
          | some e =>
            left
            simp only [he3, Option.some.injEq] at h
            exact ⟨e, Or.inr (Or.inr ⟨he1, hok1', he2, hok2', he3⟩), h.symm⟩
          | none =>
            simp only [he3] at h
            by_cases hok3 : (env.scriptTemplateParser
                ((pi.Seek (env.template pi).idx).Seek
                  (env.cssParser (pi.Seek (env.template pi).idx)).idx)).ok = true
            · right; left
              simp only [hok3, if_true, Option.some.injEq] at h
              exact ⟨_, _, DispatchStep.script pi he1 hok1' he2 hok2' he3 hok3, h.symm⟩
            · simp only [hok3, Bool.false_eq_true, if_false] at h
              have hok3' : (env.scriptTemplateParser
                  ((pi.Seek (env.template pi).idx).Seek
                    (env.cssParser (pi.Seek (env.template pi).idx)).idx)).ok = false := by
                simpa using hok3
              have hall : AllDecline env pi := ⟨hok1', he1, hok2', he2, hok3', he3⟩
              right
              rw [innerLoop_eq_scan] at h
              have hpi3 : (((pi.Seek (env.template pi).idx).Seek
                (env.cssParser (pi.Seek (env.template pi).idx)).idx).Seek
                  (env.scriptTemplateParser
                    ((pi.Seek (env.template pi).idx).Seek
                      (env.cssParser (pi.Seek (env.template pi).idx)).idx)).idx) =
                  afterScript env pi := rfl
              rw [hpi3] at h
              cases hs : scanCode (innerFuel (afterScript env pi)) (afterScript env pi).rest with
              | none => simp [hs] at h
              | some kb =>
                obtain ⟨k, b⟩ := kb
                simp only [hs, Option.map_some', List.nil_append, flushCode_eq_flushed,
                  Option.some.injEq] at h
                cases b with
                | true =>
                  left
                  simp only [if_true, Option.some.injEq] at h
                  cases hfl : fl with
                  | ret r => rw [hfl] at h; simp at h
                  | next tf' q =>
                    rw [hfl] at h
                    simp only [Flow.next.injEq] at h
                    obtain ⟨h1, h2⟩ := h
                    subst h1 h2
                    exact ⟨_, _, DispatchStep.code pi k hall
                      ⟨scanCode_le _ _ k true hs, scanCode_lines_take _ _ k true hs,
                        scanCode_take_last _ _ k hs, scanCode_boundary _ _ k hs⟩, rfl⟩
                | false =>
                  right
                  simp only [Bool.false_eq_true, if_false, Option.some.injEq] at h
                  have hk := scanCode_eof _ _ k hs
                  subst hk
                  refine ⟨_, ⟨hall, ?_, rfl⟩, ?_⟩
                  · have := scanCode_lines_take _ _ _ false hs
                    rwa [List.take_length] at this
                  · rw [← h, List.take_length]

/-- Every return of the loop `outer`, from the document `tf` and the cursor `pi`: the
dispatcher made a run of iterations, whose nodes were appended to `tf`, and then either a
declaration parser reported an error, or the last iteration flushed its code and the loop
ended successfully. -/
theorem bodyLoop_dispatch (env : Env T C S G) :
    ∀ (fuel : Nat) (tf : TemplateFile T C S G) (pi : Input) (r : Ret T C S G),
      bodyLoop env fuel tf pi = some r →
      ∃ (nodes : List (Node T C S)) (q : Input), DispatchRun env pi nodes q ∧
        ((∃ e, DispatchError env q e ∧
            r = ⟨{ tf with Nodes := tf.Nodes ++ nodes }, false, some e⟩) ∨
         (∃ last : List (Node T C S), DispatchEnd env q last ∧
            r = ⟨{ tf with Nodes := tf.Nodes ++ (nodes ++ last) }, true, none⟩)) := by
  intro fuel
  induction fuel with
  | zero => intro tf pi r h; simp [bodyLoop] at h
  | succ fuel ih =>
    intro tf pi r h
    rw [bodyLoop] at h
    cases hb : outerBody env tf pi with
    | none => simp [hb] at h
    | some fl =>
      rcases outerBody_dispatch env tf pi fl hb with ⟨e, he, rfl⟩ | ⟨ns, q, hstep, rfl⟩ |
        ⟨ns, hend, rfl⟩
      · simp only [hb, Option.some.injEq] at h
        subst h
        exact ⟨[], pi, DispatchRun.done pi, Or.inl ⟨e, he, by simp⟩⟩
      · simp only [hb] at h
        obtain ⟨nodes, q', hrun, hres⟩ := ih _ _ _ h
        refine ⟨ns ++ nodes, q', DispatchRun.step pi ns q nodes q' hstep hrun, ?_⟩
        rcases hres with ⟨e, he, hr⟩ | ⟨last, hl, hr⟩
        · exact Or.inl ⟨e, he, by rw [hr]; simp⟩
        · exact Or.inr ⟨last, hl, by rw [hr]; simp⟩
      · simp only [hb, Option.some.injEq] at h
        subst h
        exact ⟨[], pi, DispatchRun.done pi, Or.inr ⟨ns, hend, by simp⟩⟩

/-- When the header loop makes `Parse` return, the whitespace or comment lexer reported an
error after the items matched so far, and these items are what is returned. -/
theorem headerLoop_ret (env : Env T C S G) (fuel : Nat) (tf : TemplateFile T C S G)
    (pi : Input) (r : Ret T C S G) (h : headerLoop env fuel tf pi = some (.ret r)) :
    ∃ (items : List (HeaderItem G)) (q : Input) (e : Error),
      HeaderPrefix env pi items q ∧ HeaderError env q e ∧
      r = ⟨{ tf with Header := tf.Header ++ items }, false, some e⟩ := by
  induction fuel generalizing tf pi with
  | zero => simp [headerLoop] at h
  | succ fuel ih =>
    rw [headerLoop] at h
    simp only at h
    cases he1 : (env.Whitespace pi).err with
    | some e =>
      simp only [he1, Option.some.injEq, Flow.ret.injEq] at h
      exact ⟨[], pi, e, HeaderPrefix.done pi, Or.inl he1, by rw [← h]; simp⟩
    | none =>
      simp only [he1] at h
      by_cases hok1 : (env.Whitespace pi).ok = true
      · simp only [hok1, if_true] at h
        obtain ⟨items, q, e, hrun, herr, hr⟩ := ih _ _ h
        refine ⟨_ :: items, q, e, HeaderPrefix.whitespace pi items q he1 hok1 hrun, herr, ?_⟩
        rw [hr]; simp
      · simp only [hok1, Bool.false_eq_true, if_false] at h
        have hok1' : (env.Whitespace pi).ok = false := by simpa using hok1
        cases he2 : (env.goComment (pi.Seek (env.Whitespace pi).idx)).err with
        | some e =>
          simp only [he2, Option.some.injEq, Flow.ret.injEq] at h
          exact ⟨[], pi, e, HeaderPrefix.done pi, Or.inr ⟨he1, hok1', he2⟩, by rw [← h]; simp⟩
        | none =>
          simp only [he2] at h
          by_cases hok2 : (env.goComment (pi.Seek (env.Whitespace pi).idx)).ok = true
          · simp only [hok2, if_true] at h
            obtain ⟨items, q, e, hrun, herr, hr⟩ := ih _ _ h
            refine ⟨_ :: items, q, e,
              HeaderPrefix.comment pi items q he1 hok1' he2 hok2 hrun, herr, ?_⟩
            rw [hr]; simp
          · simp [hok2] at h

end Dispatch

section ParseShape
variable {T C S G : Type}

/-- Everything `Parse` returns, in terms of the header collector and the dispatcher: the
legacy error with the zero document; an error of the whitespace or comment lexer with the
header items matched so far; an error of the package parser with the whole header and the
value that parser returned; or, after the package section, the nodes of a run of the
dispatcher, followed by an error of a declaration parser or by the final flush and
success. -/
theorem Parse_dispatch (p : TemplateFileParser) (env : Env T C S G) (fuel : Nat)
    (pi : Input) (r : Ret T C S G) (h : p.Parse env fuel pi = some r) :
    (HasPrefix pi.rest legacyMarker = true ∧
      r = ⟨TemplateFile.zero, false, some Error.ErrLegacyFileFormat⟩) ∨
    (HasPrefix pi.rest legacyMarker = false ∧
      ∃ (items : List (HeaderItem G)) (q : Input) (e : Error),
        HeaderPrefix env pi items q ∧ HeaderError env q e ∧
        r = ⟨⟨items, Package.zero, []⟩, false, some e⟩) ∨
    (HasPrefix pi.rest legacyMarker = false ∧
      ∃ (items : List (HeaderItem G)) (pi0 : Input) (e : Error),
        HeaderRun env pi items pi0 ∧ (env.pkg pi0).err = some e ∧
        r = ⟨⟨items, (env.pkg pi0).val, []⟩, (env.pkg pi0).ok, some e⟩) ∨
    (HasPrefix pi.rest legacyMarker = false ∧
      ∃ (items : List (HeaderItem G)) (pi0 : Input) (nodes : List (Node T C S)) (q : Input),
        HeaderRun env pi items pi0 ∧ (env.pkg pi0).err = none ∧
        DispatchRun env (bodyStart env pi0) nodes q ∧
        ((∃ e, DispatchError env q e ∧
            r = ⟨⟨items, packageOrDefault p env pi0, nodes⟩, false, some e⟩) ∨
         (∃ last : List (Node T C S), DispatchEnd env q last ∧
            r = ⟨⟨items, packageOrDefault p env pi0, nodes ++ last⟩, true, none⟩))) := by
  unfold TemplateFileParser.Parse at h
  cases hh : p.ParseHead env fuel pi with
  | none => simp [hh] at h
  | some fl =>
    cases fl with
    | next tf1 pi1 =>
      simp only [hh] at h
      obtain ⟨hleg, tf0, pi0, hhdr, hperr, hH, hN, hP, hpi1⟩ :=
        ParseHead_next p env fuel pi tf1 pi1 hh
      obtain ⟨items, hrun, htf0⟩ := headerLoop_run env fuel _ pi tf0 pi0 hhdr
      have htf1 : tf1 = ⟨items, packageOrDefault p env pi0, []⟩ := by
        cases tf1
        simp only at hH hN hP
        rw [hH, hN, hP, htf0]
        simp [TemplateFile.zero, packageOrDefault]
      have hpi1' : pi1 = bodyStart env pi0 := hpi1
      subst htf1 hpi1'
      obtain ⟨nodes, q, hdr, hres⟩ := bodyLoop_dispatch env fuel _ _ r h
      refine Or.inr (Or.inr (Or.inr ⟨hleg, items, pi0, nodes, q, hrun, hperr, hdr, ?_⟩))
      rcases hres with ⟨e, he, hr⟩ | ⟨last, hl, hr⟩
      · exact Or.inl ⟨e, he, by rw [hr]; simp⟩
      · exact Or.inr ⟨last, hl, by rw [hr]; simp⟩
    | ret r' =>
      simp only [hh, Option.some.injEq] at h
      subst h
      unfold TemplateFileParser.ParseHead at hh
      simp only [parse.String] at hh
      by_cases hl : HasPrefix pi.rest legacyMarker = true
      · simp only [hl, if_true, Option.some.injEq, Flow.ret.injEq] at hh
        exact Or.inl ⟨hl, hh.symm⟩
      · simp only [hl, Bool.false_eq_true, if_false, Input.Seek_self] at hh
        have hl' : HasPrefix pi.rest legacyMarker = false := by simpa using hl
        right
        cases hl2 : headerLoop env fuel TemplateFile.zero pi with
        | none => simp [hl2] at hh
        | some fl =>
          cases fl with
          | ret r0 =>
            simp only [hl2, Option.some.injEq, Flow.ret.injEq] at hh
            subst hh
            obtain ⟨items, q, e, hpre, herr, hr⟩ := headerLoop_ret env fuel _ pi _ hl2
            exact Or.inl ⟨hl', items, q, e, hpre, herr, by rw [hr]; simp [TemplateFile.zero]⟩
          | next tf0 pi0 =>
            simp only [hl2] at hh
            obtain ⟨items, hrun, htf0⟩ := headerLoop_run env fuel _ pi tf0 pi0 hl2
            cases hpe : (env.pkg pi0).err with
            | none => simp [hpe] at hh
            | some e' =>
              simp only [hpe, Option.some.injEq, Flow.ret.injEq] at hh
              refine Or.inr (Or.inl ⟨hl', items, pi0, e', hrun, hpe, ?_⟩)
              rw [← hh, htf0]
              simp [TemplateFile.zero]

theorem HeaderRun_s (env : Env T C S G) (pi : Input) (items : List (HeaderItem G))
    (q : Input) (h : HeaderRun env pi items q) : q.s = pi.s := by
  induction h with
  | stop pi _ _ _ _ => simp [Input.Seek_s]
  | whitespace pi items q _ _ _ ih => simpa [Input.Seek_s] using ih
  | comment pi items q _ _ _ _ _ ih => simpa [Input.Seek_s] using ih

theorem afterScript_s (env : Env T C S G) (pi : Input) : (afterScript env pi).s = pi.s := by
  simp [afterScript, afterCss, afterTemplate, Input.Seek_s]

theorem bodyStart_s (env : Env T C S G) (pi : Input) : (bodyStart env pi).s = pi.s := by
  simp [bodyStart, Input.Seek_s]

theorem DispatchStep_s (env : Env T C S G) (pi : Input) (ns : List (Node T C S))
    (q : Input) (h : DispatchStep env pi ns q) : q.s = pi.s := by
  cases h with
  | template _ _ => simp [afterTemplate, Input.Seek_s]
  | css _ _ _ _ => simp [afterCss, afterTemplate, Input.Seek_s]
  | script _ _ _ _ _ _ => simp [afterScript, afterCss, afterTemplate, Input.Seek_s]
  | code k _ _ => simp [afterScript_s]

theorem DispatchRun_s (env : Env T C S G) (pi : Input) (ns : List (Node T C S))
    (q : Input) (h : DispatchRun env pi ns q) : q.s = pi.s := by
  induction h with
  | done pi => rfl
  | step pi ns pi' ms q hstep _ ih => rw [ih, DispatchStep_s env pi ns pi' hstep]

/-- A code span flushed for the first `k` characters of the unread text: its node has the
span and the text of these characters. -/
theorem flushed_span (pi3 : Input) (k : Nat) (hk : k ≤ pi3.rest.length)
    (hlines : ∀ l ∈ lines (pi3.rest.take k), isBoundaryLine l = false)
    (hnext : pi3.rest.drop k = [] ∨
      ((k = 0 ∨ (pi3.rest.take k).getLast? = some '\n') ∧
        isBoundaryLine (firstLine (pi3.rest.drop k)) = true))
    (e : Expression)
    (he : Node.GoExpression e ∈ (flushed (pi3.rest.take k) pi3.Position
      (Input.mk pi3.s (pi3.charIndex + k)).Position : List (Node T C S))) :
    SpanIsCode pi3.s e := by
  unfold flushed at he
  split at he
  · next hlen =>
    simp only [List.mem_singleton, Node.GoExpression.injEq] at he
    subst he
    have hk0 : 0 < k := by
      rcases Nat.eq_zero_or_pos k with h0 | h0
      · subst h0; simp at hlen
      · exact h0
    have hrl : pi3.rest.length = pi3.s.length - pi3.charIndex := by
      simp [Input.rest]
    have e1 : (pi3.charIndex + k) - pi3.charIndex = k := by omega
    have e2 : pi3.s.drop (pi3.charIndex + k) = pi3.rest.drop k := by
      simp [Input.rest, List.drop_drop, Nat.add_comm]
    simp only [SpanIsCode, NewExpression, Input.Position, Input.PositionAt, e1, e2]
    refine ⟨by omega, by omega, rfl, hlines, ?_⟩
    rcases hnext with h1 | ⟨h1, h2⟩
    · exact Or.inl h1
    · right
      refine ⟨?_, h2⟩
      rcases h1 with h0 | h1
      · omega
      · exact h1
  · simp at he

theorem DispatchStep_spans (env : Env T C S G) (pi : Input) (ns : List (Node T C S))
    (q : Input) (h : DispatchStep env pi ns q) (e : Expression)
    (he : Node.GoExpression e ∈ ns) : SpanIsCode pi.s e := by
  cases h with
  | template _ _ => simp at he
  | css _ _ _ _ => simp at he
  | script _ _ _ _ _ _ => simp at he
  | code k hall hcb =>
    rw [← afterScript_s env pi]
    exact flushed_span _ k hcb.1 hcb.2.1 (Or.inr ⟨hcb.2.2.1, hcb.2.2.2⟩) e he

theorem DispatchRun_spans (env : Env T C S G) (pi : Input) (ns : List (Node T C S))
    (q : Input) (h : DispatchRun env pi ns q) (e : Expression)
    (he : Node.GoExpression e ∈ ns) : SpanIsCode pi.s e := by
  induction h with
  | done pi => simp at he
  | step pi ns pi' ms q hstep _ ih =>
    rcases List.mem_append.mp he with h1 | h1
    · exact DispatchStep_spans env pi ns pi' hstep e h1
    · rw [← DispatchStep_s env pi ns pi' hstep]
      exact ih h1

theorem DispatchEnd_spans (env : Env T C S G) (pi : Input) (ns : List (Node T C S))
    (h : DispatchEnd env pi ns) (e : Expression)
    (he : Node.GoExpression e ∈ ns) : SpanIsCode pi.s e := by
  obtain ⟨_, hlines, hns⟩ := h
  subst hns
  rw [← afterScript_s env pi]
  refine @flushed_span T C S (afterScript env pi) (afterScript env pi).rest.length
    (Nat.le_refl _) ?_ (Or.inl (List.drop_length _)) e ?_
  · rw [List.take_length]; exact hlines
  · rw [List.take_length]; exact he

end ParseShape

/-! ## The document returned with an error -/

section ErrorDocument
variable {T C S G : Type}

/-- C8, as the code has it: when `Parse` returns an error, the `TemplateFile` returned with
it is exactly what had been collected before the error. For the legacy error it is the zero
value. For an error of the whitespace or comment lexer it holds the header items matched so
far, and no package or nodes. For an error of the package parser it holds the whole header
and the value that parser returned, and no nodes. For an error of a declaration parser it
holds the whole header, the package (the one parsed, or the default one) and, in order, the
nodes of every iteration of the dispatcher made before the failing one. `ParseString`
returns that same `TemplateFile` with the error. -/
theorem Parse_error_keeps_collected (p : TemplateFileParser) (env : Env T C S G)
    (fuel : Nat) :
    (∀ (pi : Input) (r : Ret T C S G) (e : Error),
      p.Parse env fuel pi = some r → r.err = some e →
      (HasPrefix pi.rest legacyMarker = true ∧
        r = ⟨TemplateFile.zero, false, some Error.ErrLegacyFileFormat⟩) ∨
      (∃ (items : List (HeaderItem G)) (q : Input),
        HeaderPrefix env pi items q ∧ HeaderError env q e ∧
        r = ⟨⟨items, Package.zero, []⟩, false, some e⟩) ∨
      (∃ (items : List (HeaderItem G)) (pi0 : Input),
        HeaderRun env pi items pi0 ∧ (env.pkg pi0).err = some e ∧
        r = ⟨⟨items, (env.pkg pi0).val, []⟩, (env.pkg pi0).ok, some e⟩) ∨
      (∃ (items : List (HeaderItem G)) (pi0 : Input) (nodes : List (Node T C S))
          (q : Input),
        HeaderRun env pi items pi0 ∧ (env.pkg pi0).err = none ∧
        DispatchRun env (bodyStart env pi0) nodes q ∧ DispatchError env q e ∧
        r = ⟨⟨items, packageOrDefault p env pi0, nodes⟩, false, some e⟩)) ∧
    (∀ (t : Str) (tf : TemplateFile T C S G) (ok : Bool) (e : Error),
      (NewTemplateFileParser "main".toList).Parse env fuel (NewInput t) =
        some ⟨tf, ok, some e⟩ →
      ParseString env fuel t = some (tf, some e)) := by
  constructor
  · intro pi r e h he
    rcases Parse_dispatch p env fuel pi r h with ⟨hl, hr⟩ | ⟨_, items, q, e', hpre, herr, hr⟩ |
      ⟨_, items, pi0, e', hrun, hperr, hr⟩ | ⟨_, items, pi0, nodes, q, hrun, hperr, hdr, hres⟩
    · exact Or.inl ⟨hl, hr⟩
    · have : e' = e := by rw [hr] at he; simpa using he
      subst this
      exact Or.inr (Or.inl ⟨items, q, hpre, herr, hr⟩)
    · have : e' = e := by rw [hr] at he; simpa using he
      subst this
      exact Or.inr (Or.inr (Or.inl ⟨items, pi0, hrun, hperr, hr⟩))
    · rcases hres with ⟨e', hde, hr⟩ | ⟨last, _, hr⟩
      · have : e' = e := by rw [hr] at he; simpa using he
        subst this
        exact Or.inr (Or.inr (Or.inr ⟨items, pi0, nodes, q, hrun, hperr, hdr, hde, hr⟩))
      · rw [hr] at he; simp at he
  · intro t tf ok e h
    unfold ParseString
    rw [h]

end ErrorDocument

/-- C8 fails as stated: with the sample collaborators, on a blank line followed by
`templ Foo()` the template parser reports an error after the header item and the package
were collected, and both `Parse` and `ParseString` return them alongside the error. -/
theorem Parse_error_document_not_empty :
    (NewTemplateFileParser "main".toList).Parse sampleEnv 2
        (NewInput "\ntempl Foo()\n".toList) = some sampleErrorRet ∧
    ParseString sampleEnv 2 "\ntempl Foo()\n".toList =
      some (sampleErrorRet.tf, some (Error.other "malformed declaration".toList)) ∧
    sampleErrorRet.tf.Header ≠ [] ∧
    sampleErrorRet.tf ≠ TemplateFile.zero := by
  decide

/-- Witness of the amended C8: on a blank line, the block `templ Foo() {`, `}` and the line
`templ Bar()`, the template parser reports an error in the second iteration of the
dispatcher; the document returned with it has the blank line as header, the default package
and the node of the first iteration. -/
theorem Parse_error_keeps_collected_witness :
    (HasPrefix (NewInput "\ntempl Foo() \x7b\n\x7d\ntempl Bar()\n".toList).rest
        legacyMarker = true ∧
      sampleErrorAfterNode = ⟨TemplateFile.zero, false, some Error.ErrLegacyFileFormat⟩) ∨
    (∃ (items : List (HeaderItem Str)) (q : Input),
      HeaderPrefix sampleEnv (NewInput "\ntempl Foo() \x7b\n\x7d\ntempl Bar()\n".toList)
        items q ∧
      HeaderError sampleEnv q (Error.other "malformed declaration".toList) ∧
      sampleErrorAfterNode = ⟨⟨items, Package.zero, []⟩, false,
        some (Error.other "malformed declaration".toList)⟩) ∨
    (∃ (items : List (HeaderItem Str)) (pi0 : Input),
      HeaderRun sampleEnv (NewInput "\ntempl Foo() \x7b\n\x7d\ntempl Bar()\n".toList)
        items pi0 ∧
      (sampleEnv.pkg pi0).err = some (Error.other "malformed declaration".toList) ∧
      sampleErrorAfterNode = ⟨⟨items, (sampleEnv.pkg pi0).val, []⟩, (sampleEnv.pkg pi0).ok,
        some (Error.other "malformed declaration".toList)⟩) ∨
    (∃ (items : List (HeaderItem Str)) (pi0 : Input) (nodes : List (Node Str Str Str))
        (q : Input),
      HeaderRun sampleEnv (NewInput "\ntempl Foo() \x7b\n\x7d\ntempl Bar()\n".toList)
        items pi0 ∧
      (sampleEnv.pkg pi0).err = none ∧
      DispatchRun sampleEnv (bodyStart sampleEnv pi0) nodes q ∧
      DispatchError sampleEnv q (Error.other "malformed declaration".toList) ∧
      sampleErrorAfterNode =
        ⟨⟨items, packageOrDefault (NewTemplateFileParser "main".toList) sampleEnv pi0, nodes⟩,
          false, some (Error.other "malformed declaration".toList)⟩) :=
  (Parse_error_keeps_collected (NewTemplateFileParser "main".toList) sampleEnv 2).1
    (NewInput "\ntempl Foo() \x7b\n\x7d\ntempl Bar()\n".toList) sampleErrorAfterNode
    (Error.other "malformed declaration".toList) (by decide) (by decide)

/-! ## The span of a code node -/

section CodeSpan
variable {T C S G : Type}

/-- C17, as the code has it: for every input and every `GoExpression` in the body of
whatever `Parse` returns, the stored text is the `TrimSpace` of the characters of the input
that the span of the node covers; no line of these characters, as they stand in the input,
is a boundary line (the test is made on the lines before trimming), and they run to the end
of input or end with a line feed that a boundary line follows. -/
theorem Parse_code_lines_before_trim (p : TemplateFileParser) (env : Env T C S G)
    (fuel : Nat) (pi : Input) (r : Ret T C S G) (h : p.Parse env fuel pi = some r)
    (e : Expression) (he : Node.GoExpression e ∈ r.tf.Nodes) :
    SpanIsCode pi.s e := by
  rcases Parse_dispatch p env fuel pi r h with ⟨_, hr⟩ | ⟨_, items, q, e', _, _, hr⟩ |
    ⟨_, items, pi0, e', _, _, hr⟩ | ⟨_, items, pi0, nodes, q, hrun, _, hdr, hres⟩
  · rw [hr] at he; simp [TemplateFile.zero] at he
  · rw [hr] at he; simp at he
  · rw [hr] at he; simp at he
  · have hs0 : (bodyStart env pi0).s = pi.s := by
      rw [bodyStart_s, HeaderRun_s env pi items pi0 hrun]
    have hsq : q.s = pi.s := by rw [DispatchRun_s env _ nodes q hdr, hs0]
    rcases hres with ⟨e', _, hr⟩ | ⟨last, hl, hr⟩
    · rw [hr] at he
      rw [← hs0]
      exact DispatchRun_spans env _ nodes q hdr e he
    · rw [hr] at he
      rcases List.mem_append.mp he with h1 | h1
      · rw [← hs0]
        exact DispatchRun_spans env _ nodes q hdr e h1
      · rw [← hsq]
        exact DispatchEnd_spans env q last hl e h1

end CodeSpan

/-- Witness of the amended C17: in the text `x`, `templ Foo() { ` (a space after the brace),
`templ Bar() {`, `}` the code node covers the first two lines, up to index 17 where the
boundary line `templ Bar() {` starts; its stored text is these two lines trimmed. -/
theorem Parse_code_lines_before_trim_witness :
    SpanIsCode "x\ntempl Foo() \x7b \ntempl Bar() \x7b\n\x7d".toList
      (NewExpression "x\ntempl Foo() \x7b".toList ⟨0, 0, 0⟩ ⟨17, 2, 0⟩) :=
  Parse_code_lines_before_trim (NewTemplateFileParser "main".toList) sampleEnv 3
    (NewInput "x\ntempl Foo() \x7b \ntempl Bar() \x7b\n\x7d".toList)
    ⟨⟨[], ⟨NewExpression "package main".toList ⟨0, 0, 0⟩ ⟨0, 0, 0⟩⟩,
      [.GoExpression (NewExpression "x\ntempl Foo() \x7b".toList ⟨0, 0, 0⟩ ⟨17, 2, 0⟩),
        .HTMLTemplate "templ Bar() \x7b\n\x7d".toList]⟩,
      true, none⟩ (by decide)
    (NewExpression "x\ntempl Foo() \x7b".toList ⟨0, 0, 0⟩ ⟨17, 2, 0⟩) (by decide)

/-! ## Termination of the dispatcher -/

section Termination
variable {T C S G : Type}

/-- One iteration of the loop `outer` always ends: the loop `inner` does. -/
theorem outerBody_total (env : Env T C S G) (tf : TemplateFile T C S G) (pi : Input) :
    ∃ fl, outerBody env tf pi = some fl := by
  cases h : outerBody env tf pi with
  | some fl => exact ⟨fl, rfl⟩
  | none =>
    exfalso
    unfold outerBody at h
    simp only at h
    cases he1 : (env.template pi).err with
    | some e => simp [he1] at h
    | none =>
      simp only [he1] at h
      by_cases hok1 : (env.template pi).ok = true
      · simp [hok1] at h
      · simp only [hok1, Bool.false_eq_true, if_false] at h
        cases he2 : (env.cssParser (pi.Seek (env.template pi).idx)).err with
        | some e => simp [he2] at h
        | none =>
          simp only [he2] at h
          by_cases hok2 : (env.cssParser (pi.Seek (env.template pi).idx)).ok = true
          · simp [hok2] at h
          · simp only [hok2, Bool.false_eq_true, if_false] at h
            cases he3 : (env.scriptTemplateParser
                ((pi.Seek (env.template pi).idx).Seek
                  (env.cssParser (pi.Seek (env.template pi).idx)).idx)).err with
            | some e => simp [he3] at h
            | none =>
              simp only [he3] at h
              by_cases hok3 : (env.scriptTemplateParser
                  ((pi.Seek (env.template pi).idx).Seek
                    (env.cssParser (pi.Seek (env.template pi).idx)).idx)).ok = true
              · simp [hok3] at h
              · simp only [hok3, Bool.false_eq_true, if_false] at h
                have hpi3 : (((pi.Seek (env.template pi).idx).Seek
                  (env.cssParser (pi.Seek (env.template pi).idx)).idx).Seek
                    (env.scriptTemplateParser
                      ((pi.Seek (env.template pi).idx).Seek
                        (env.cssParser (pi.Seek (env.template pi).idx)).idx)).idx) =
                    afterScript env pi := rfl
                rw [hpi3] at h
                obtain ⟨ex, hex⟩ := innerLoop_terminates (afterScript env pi).Position tf
                  (afterScript env pi) []
                rw [hex] at h
                cases ex <;> simp at h

theorem Input.Seek_le_length (pi : Input) (k : Nat)
    (h : pi.charIndex < (pi.Seek k).charIndex) : (pi.Seek k).charIndex ≤ pi.s.length := by
  unfold Input.Seek at h ⊢
  by_cases hk : k > pi.s.length
  · simp [hk] at h
  · simp only [hk, if_false] at h ⊢
    omega

theorem Input.rest_length (pi : Input) : pi.rest.length = pi.s.length - pi.charIndex := by
  simp [Input.rest]

/-- A match followed by whitespace skipping leaves less text unread. -/
theorem match_progress {α : Type} (env : Env T C S G) (q : Parser α) (pi : Input)
    (hm : ConsumingOnMatch q) (hw : NeverBackwards env.OptionalWhitespace)
    (hok : (q pi).ok = true) (herr : (q pi).err = none) :
    ((pi.Seek (q pi).idx).Seek (env.OptionalWhitespace (pi.Seek (q pi).idx)).idx).rest.length <
      pi.rest.length := by
  have h1 := hm pi hok herr
  have h2 := Input.Seek_le_length pi _ h1
  have h3 := hw (pi.Seek (q pi).idx)
  rw [Input.rest_length, Input.rest_length, Input.Seek_s, Input.Seek_s]
  omega

theorem afterScript_of_decline (env : Env T C S G)
    (hd : NonConsumingOnDecline env.template ∧ NonConsumingOnDecline env.cssParser ∧
      NonConsumingOnDecline env.scriptTemplateParser) (pi : Input)
    (hall : AllDecline env pi) :
    afterScript env pi = pi ∧ Declines env.template pi ∧ Declines env.cssParser pi ∧
      Declines env.scriptTemplateParser pi := by
  obtain ⟨h1, h2, h3, h4, h5, h6⟩ := hall
  have e1 : afterTemplate env pi = pi := hd.1 pi h1 h2
  rw [e1] at h3 h4
  have e2 : afterCss env pi = pi := by
    unfold afterCss; rw [e1]; exact hd.2.1 pi h3 h4
  rw [e2] at h5 h6
  have e3 : afterScript env pi = pi := by
    unfold afterScript; rw [e2]; exact hd.2.2 pi h5 h6
  exact ⟨e3, ⟨h1, h2, e1⟩, ⟨h3, h4, hd.2.1 pi h3 h4⟩, ⟨h5, h6, hd.2.2 pi h5 h6⟩⟩

/-- With collaborators obeying the contract, and no boundary line that all three declaration
parsers decline, every iteration of the dispatcher that goes on leaves less text unread. -/
theorem DispatchStep_progress (env : Env T C S G)
    (hd : NonConsumingOnDecline env.template ∧ NonConsumingOnDecline env.cssParser ∧
      NonConsumingOnDecline env.scriptTemplateParser)
    (hm : ConsumingOnMatch env.template ∧ ConsumingOnMatch env.cssParser ∧
      ConsumingOnMatch env.scriptTemplateParser)
    (hw : NeverBackwards env.OptionalWhitespace)
    (hb : ∀ q : Input, isBoundaryLine (firstLine q.rest) = true →
      ¬(Declines env.template q ∧ Declines env.cssParser q ∧
        Declines env.scriptTemplateParser q))
    (pi : Input) (ns : List (Node T C S)) (q : Input) (h : DispatchStep env pi ns q) :
    q.rest.length < pi.rest.length := by
  cases h with
  | template he1 hok1 => exact match_progress env env.template pi hm.1 hw hok1 he1
  | css he1 hok1 he2 hok2 =>
    have e1 : afterTemplate env pi = pi := hd.1 pi hok1 he1
    unfold afterCss
    rw [e1] at he2 hok2 ⊢
    exact match_progress env env.cssParser pi hm.2.1 hw hok2 he2
  | script he1 hok1 he2 hok2 he3 hok3 =>
    have e1 : afterTemplate env pi = pi := hd.1 pi hok1 he1
    rw [e1] at he2 hok2
    have e2 : afterCss env pi = pi := by
      unfold afterCss; rw [e1]; exact hd.2.1 pi hok2 he2
    unfold afterScript
    rw [e2] at he3 hok3 ⊢
    exact match_progress env env.scriptTemplateParser pi hm.2.2 hw hok3 he3
  | code k hall hcb =>
    obtain ⟨e3, d1, d2, d3⟩ := afterScript_of_decline env hd pi hall
    rw [e3] at hcb ⊢
    obtain ⟨hk, _, _, hbl⟩ := hcb
    have hk0 : 0 < k := by
      rcases Nat.eq_zero_or_pos k with h0 | h0
      · subst h0
        rw [List.drop_zero] at hbl
        exact absurd ⟨d1, d2, d3⟩ (hb pi hbl)
      · exact h0
    rw [Input.rest_mk_add, List.length_drop]
    omega

/-- C13, as the code has it: with declaration parsers that obey the collaborator contract
(declining leaves the cursor unchanged, matching consumes at least one character) and
whitespace skipping that never moves the cursor backwards, the dispatcher returns from every
document and cursor, within one iteration more than there are unread characters, if and only
if there is no cursor at a boundary line that all three declaration parsers decline. -/
theorem bodyLoop_terminates (env : Env T C S G)
    (hd : NonConsumingOnDecline env.template ∧ NonConsumingOnDecline env.cssParser ∧
      NonConsumingOnDecline env.scriptTemplateParser)
    (hm : ConsumingOnMatch env.template ∧ ConsumingOnMatch env.cssParser ∧
      ConsumingOnMatch env.scriptTemplateParser)
    (hw : NeverBackwards env.OptionalWhitespace) :
    (∀ q : Input, isBoundaryLine (firstLine q.rest) = true →
      ¬(Declines env.template q ∧ Declines env.cssParser q ∧
        Declines env.scriptTemplateParser q)) ↔
    (∀ (tf : TemplateFile T C S G) (pi : Input) (fuel : Nat), pi.rest.length < fuel →
      ∃ r, bodyLoop env fuel tf pi = some r) := by
  constructor
  · intro hb tf pi fuel
    induction fuel generalizing tf pi with
    | zero => intro hf; omega
    | succ n ih =>
      intro hf
      obtain ⟨fl, hfl⟩ := outerBody_total env tf pi
      rw [bodyLoop, hfl]
      rcases outerBody_dispatch env tf pi fl hfl with ⟨e, _, rfl⟩ | ⟨ns, q, hstep, rfl⟩ |
        ⟨ns, _, rfl⟩
      · exact ⟨_, rfl⟩
      · have := DispatchStep_progress env hd hm hw hb pi ns q hstep
        exact ih _ q (by omega)
      · exact ⟨_, rfl⟩
  · intro hall q hbl hdec
    obtain ⟨r, hr⟩ := hall TemplateFile.zero q (q.rest.length + 1) (by omega)
    rw [bodyLoop_stuck env _ q hdec.1 hdec.2.1 hdec.2.2 hbl] at hr
    simp at hr

end Termination

/-! ## The contract on the sample collaborators -/

theorem blockLength_le : ∀ R : Str, blockLength R ≤ R.length
  | [] => by simp [blockLength]
  | [c] => by
    rw [blockLength.eq_def]
    split
    · rename_i h; simp at h
    · rename_i h; simp at h
    · rename_i h
      simp only [List.cons.injEq] at h
      rw [← h.2]; simp [blockLength]
  | c :: d :: cs => by
    have ih := blockLength_le (d :: cs)
    rw [blockLength.eq_def]
    split
    · rename_i h; simp at h
    · simp
    · rename_i h
      simp only [List.cons.injEq] at h
      rw [← h.2]
      simp only [List.length_cons] at ih ⊢
      omega

theorem sampleDecl_consuming (kw : Str) : ConsumingOnMatch (sampleDecl kw) := by
  intro pi hok _
  unfold sampleDecl at hok ⊢
  by_cases h1 : HasPrefix pi.rest kw = true
  · rw [if_pos h1] at hok ⊢
    by_cases h2 : HasSuffix (pi.rest.take (lineLength pi.rest)) "\x7b".toList = true
    · rw [if_pos h2]
      simp only
      cases hr : pi.rest with
      | nil => rw [hr] at h2; simp [HasSuffix] at h2
      | cons c cs =>
        have hpos := blockLength_pos c cs
        have hle := blockLength_le (c :: cs)
        rw [Input.Seek_add pi _ (by rw [hr]; exact hle)]
        simp only
        omega
    · rw [if_neg h2] at hok; simp at hok
  · rw [if_neg h1] at hok; simp at hok

theorem sampleParenDecl_consuming (kw : Str) : ConsumingOnMatch (sampleParenDecl kw) := by
  intro pi hok _
  unfold sampleParenDecl at hok ⊢
  split
  · next h1 =>
    simp only
    cases hr : pi.rest with
    | nil =>
      rw [hr] at h1
      simp [lineLength, List.contains] at h1
    | cons c cs =>
      have hpos := blockLength_pos c cs
      have hle := blockLength_le (c :: cs)
      rw [Input.Seek_add pi _ (by rw [hr]; exact hle)]
      simp only
      omega
  · next h1 => rw [if_neg h1] at hok; simp at hok

theorem sampleOptionalWhitespace_forward : NeverBackwards sampleOptionalWhitespace := by
  intro pi
  have hle : (pi.rest.takeWhile IsSpace).length ≤ pi.rest.length := by
    have := congrArg List.length (List.takeWhile_append_dropWhile IsSpace pi.rest)
    simp only [List.length_append] at this
    omega
  show pi.charIndex ≤ (pi.Seek (pi.charIndex + (pi.rest.takeWhile IsSpace).length)).charIndex
  rw [Input.Seek_add pi _ hle]
  simp

theorem HasPrefix_of_take (R kw : Str) (n : Nat) (h : HasPrefix (R.take n) kw = true) :
    HasPrefix R kw = true := by
  unfold HasPrefix at h ⊢
  rw [List.isPrefixOf_iff_prefix] at h ⊢
  exact h.trans (List.take_prefix n R)

/-- The sample declaration parser for `kw` does not decline a line that starts with `kw` and
ends with an opening brace. -/
theorem sampleDecl_accepts (kw : Str) (q : Input)
    (hp : HasPrefix (firstLine q.rest) kw = true)
    (hs : HasSuffix (firstLine q.rest) "\x7b".toList = true) :
    (sampleDecl kw q).ok = true := by
  unfold sampleDecl
  rw [if_pos (HasPrefix_of_take _ _ _ hp)]
  unfold firstLine at hs
  rw [if_pos hs]

/-- The sample declaration parsers leave no boundary line to the loop `inner`: the one whose
keyword starts the line matches it. -/
theorem sampleEnv_boundary (q : Input) (hb : isBoundaryLine (firstLine q.rest) = true) :
    ¬(Declines sampleEnv.template q ∧ Declines sampleEnv.cssParser q ∧
      Declines sampleEnv.scriptTemplateParser q) := by
  rintro ⟨⟨d1, _⟩, ⟨d2, _⟩, ⟨d3, _⟩⟩
  unfold isBoundaryLine at hb
  simp only [Bool.and_eq_true, Bool.or_eq_true] at hb
  obtain ⟨hp, hs⟩ := hb
  rcases hp with (hp | hp) | hp
  · have := sampleDecl_accepts _ q hp hs
    have d1' : (sampleDecl "templ ".toList q).ok = false := d1
    rw [this] at d1'; simp at d1'
  · have := sampleDecl_accepts _ q hp hs
    have d2' : (sampleDecl "css ".toList q).ok = false := d2
    rw [this] at d2'; simp at d2'
  · have := sampleDecl_accepts _ q hp hs
    have d3' : (sampleDecl "script ".toList q).ok = false := d3
    rw [this] at d3'; simp at d3'

/-- C13 fails as stated: the declaration parsers `sampleParenDecl` obey the collaborator
contract (declining leaves the cursor unchanged, matching consumes at least one character),
whitespace skipping never moves the cursor backwards, and on the text `templ x {`, a
boundary line that none of them accepts, `Parse` does not return, whatever the number of
iterations allowed. -/
theorem Parse_stuck_at_boundary_line :
    (NonConsumingOnDecline sampleParenEnv.template ∧
      NonConsumingOnDecline sampleParenEnv.cssParser ∧
      NonConsumingOnDecline sampleParenEnv.scriptTemplateParser) ∧
    (ConsumingOnMatch sampleParenEnv.template ∧ ConsumingOnMatch sampleParenEnv.cssParser ∧
      ConsumingOnMatch sampleParenEnv.scriptTemplateParser) ∧
    NeverBackwards sampleParenEnv.OptionalWhitespace ∧
    ∀ fuel, (NewTemplateFileParser "main".toList).Parse sampleParenEnv fuel
      (NewInput "templ x \x7b".toList) = none := by
  refine ⟨⟨sampleParenDecl_nonConsuming _, sampleParenDecl_nonConsuming _,
    sampleParenDecl_nonConsuming _⟩,
    ⟨sampleParenDecl_consuming _, sampleParenDecl_consuming _, sampleParenDecl_consuming _⟩,
    sampleOptionalWhitespace_forward, ?_⟩
  intro fuel
  cases fuel with
  | zero => rfl
  | succ n =>
    have hrun : HeaderRun sampleParenEnv (NewInput "templ x \x7b".toList) []
        (NewInput "templ x \x7b".toList) :=
      HeaderRun.stop (NewInput "templ x \x7b".toList) (by decide) (by decide) (by decide)
        (by decide)
    have hhdr := headerLoop_of_run sampleParenEnv _ _ _ hrun (n + 1)
      (TemplateFile.zero : TemplateFile Str Str Str Str) (by simp)
    have hhead := ParseHead_default_package (NewTemplateFileParser "main".toList)
      sampleParenEnv (n + 1) (NewInput "templ x \x7b".toList) _ _ (by decide) hhdr
      ⟨by decide, by decide, by decide⟩
    unfold TemplateFileParser.Parse
    rw [hhead]
    exact bodyLoop_stuck sampleParenEnv _ _ ⟨by decide, by decide, by decide⟩
      ⟨by decide, by decide, by decide⟩ ⟨by decide, by decide, by decide⟩ (by decide)
      (n + 1)

/-- Witness of the amended C13: the sample collaborators obey the contract and match every
boundary line, and on the text `templ x {` the dispatcher returns within ten iterations. -/
theorem bodyLoop_terminates_witness :
    (NonConsumingOnDecline sampleEnv.template ∧ NonConsumingOnDecline sampleEnv.cssParser ∧
      NonConsumingOnDecline sampleEnv.scriptTemplateParser) ∧
    (ConsumingOnMatch sampleEnv.template ∧ ConsumingOnMatch sampleEnv.cssParser ∧
      ConsumingOnMatch sampleEnv.scriptTemplateParser) ∧
    NeverBackwards sampleEnv.OptionalWhitespace ∧
    (∀ q : Input, isBoundaryLine (firstLine q.rest) = true →
      ¬(Declines sampleEnv.template q ∧ Declines sampleEnv.cssParser q ∧
        Declines sampleEnv.scriptTemplateParser q)) ∧
    ∃ r, bodyLoop sampleEnv 10 (TemplateFile.zero : TemplateFile Str Str Str Str)
      (NewInput "templ x \x7b".toList) = some r :=
  ⟨sampleEnv_nonConsuming,
    ⟨sampleDecl_consuming _, sampleDecl_consuming _, sampleDecl_consuming _⟩,
    sampleOptionalWhitespace_forward, sampleEnv_boundary,
    (bodyLoop_terminates sampleEnv sampleEnv_nonConsuming
      ⟨sampleDecl_consuming _, sampleDecl_consuming _, sampleDecl_consuming _⟩
      sampleOptionalWhitespace_forward).mp sampleEnv_boundary TemplateFile.zero
      (NewInput "templ x \x7b".toList) 10 (by decide)⟩

/-! ## Adjacent code spans after a consuming decline -/

/-- C6 fails as stated: the declaration parsers `sampleConsumingDecl` consume the keyword
before they decline. On the text `a`, line feed, `templ x {` the first iteration flushes the
code `a` at the boundary line; in the second the template parser consumes `templ ` and
declines, so the rest of the line, `x {`, is no boundary line and becomes a second code
span, next to the first. -/
theorem Parse_adjacent_code_with_consuming_decline :
    (NewTemplateFileParser "main".toList).Parse sampleConsumingEnv 2
        (NewInput "a\ntempl x \x7b".toList) =
      some ⟨⟨[], ⟨NewExpression "package main".toList ⟨0, 0, 0⟩ ⟨0, 0, 0⟩⟩,
        [.GoExpression (NewExpression "a".toList ⟨0, 0, 0⟩ ⟨2, 1, 0⟩),
          .GoExpression (NewExpression "x \x7b".toList ⟨8, 1, 6⟩ ⟨11, 1, 9⟩)]⟩,
        true, none⟩ ∧
    noAdjacentCode
      ([.GoExpression (NewExpression "a".toList ⟨0, 0, 0⟩ ⟨2, 1, 0⟩),
        .GoExpression (NewExpression "x \x7b".toList ⟨8, 1, 6⟩ ⟨11, 1, 9⟩)] :
        List (Node Str Str Str)) = false := by
  decide

end Templ
